import Mathlib

/-!
Verification of the fastmongodb performance subsystems against their
natural-language specification.  Each subsystem of the repository that the
claims mention is shallowly embedded below: pure C++ functions become Lean
functions on explicit data, stateful code becomes explicit state passing or a
scheduler-driven step function, machine integers become Nat with explicit
reductions modulo 2 ^ 64 where overflow matters, and fallible code returns
Option or Except values.  Definitions are translated from the C++ sources;
definitions standing in for external collaborators (the BSON codec, the
xxHash64 library, the storage-engine access methods) are marked as modelled
from the specification's description of those interfaces.
-/

namespace FastMongoDB

/-! ## Association-list helpers shared by several components -/

/-- First value bound to a key in an association list (std::map lookup). -/
def alookup {α β : Type} [DecidableEq α] : List (α × β) → α → Option β
  | [], _ => none
  | (k, v) :: rest, key => if k = key then some v else alookup rest key

/-- Keys of an association list. -/
def akeys {α β : Type} (l : List (α × β)) : List α := l.map Prod.fst

/-- Bind a key to a value: replace the first binding, or append a fresh one
(std::map operator[] assignment; position in the list is irrelevant to the
claims, which only inspect lookups). -/
def aset {α β : Type} [DecidableEq α] : List (α × β) → α → β → List (α × β)
  | [], key, v => [(key, v)]
  | (k, w) :: rest, key, v =>
      if k = key then (key, v) :: rest else (k, w) :: aset rest key v

/-- Erase the first binding of a key (std::map erase). -/
def aerase {α β : Type} [DecidableEq α] : List (α × β) → α → List (α × β)
  | [], _ => []
  | (k, w) :: rest, key => if k = key then rest else (k, w) :: aerase rest key

/-! ## Decimal counter (src/src/mongo/util/itoa.h, class DecimalCounter) -/

namespace Itoa

/-- Buffer capacity of DecimalCounter: kBufSize = 11 bytes. -/
def kBufSize : Nat := 11

/-- One increment on the decimal digit string, least-significant digit first.
This is the carry loop of DecimalCounter operator++: walking from the least
significant digit, a digit below 9 is bumped and the walk stops; a 9 becomes 0
and the carry moves on; if every digit was 9 the spelling widens by a leading
1 (in this least-significant-first encoding, a trailing 1). -/
def incDigits : List Nat → List Nat
  | [] => [1]
  | d :: ds => if d < 9 then (d + 1) :: ds else 0 :: incDigits ds

/-- State of a DecimalCounter.  The C++ object is a fixed char buffer holding
the decimal spelling most significant digit first plus an end pointer; we keep
the digit values least significant digit first (the buffer reversed) and an
explicit flag recording whether an increment has performed the widening
memmove past the end of the 11-byte buffer (an out-of-bounds write in C++).
Once overflowed the C++ behaviour is undefined; the model freezes the state. -/
structure DecimalCounter where
  digits : List Nat
  overflowed : Bool
  deriving Repr, DecidableEq

/-- Digits of the decimal spelling of a non-negative integer, least
significant first; zero is spelled with the single digit 0.  This matches the
divide-by-ten loop of the DecimalCounter(uint32) constructor. -/
def ctorDigits (start : Nat) : List Nat :=
  if start = 0 then [0] else Nat.digits 10 start

/-- DecimalCounter(uint32 start) constructor. -/
def dcMake (start : Nat) : DecimalCounter :=
  { digits := ctorDigits start, overflowed := false }

/-- DecimalCounter operator++.  The carry walk never writes past the buffer;
the widening branch does a memmove of length+1 bytes into the 11-byte buffer,
which overflows exactly when the new spelling needs more than kBufSize
characters. -/
def dcInc (c : DecimalCounter) : DecimalCounter :=
  if c.overflowed then c
  else
    let ds := incDigits c.digits
    if kBufSize < ds.length then { c with overflowed := true }
    else { digits := ds, overflowed := false }

/-- Apply operator++ n times. -/
def dcIter : Nat → DecimalCounter → DecimalCounter
  | 0, c => c
  | n + 1, c => dcIter n (dcInc c)

/-- The StringData view of the counter: characters of the buffer, most
significant digit first. -/
def dcSpelling (c : DecimalCounter) : List Char :=
  c.digits.reverse.map (fun d => Char.ofNat (48 + d))

/-- Specification-side decimal spelling of a non-negative integer. -/
def decSpelling (m : Nat) : List Char :=
  (ctorDigits m).reverse.map (fun d => Char.ofNat (48 + d))

end Itoa

/-! ## Shard-key lock table (src/src/mongo/db/s/shard_key_lock.cpp) -/

namespace ShardKeyLock

/-- Canonical byte form of a shard-key document (compared byte-wise through
SimpleBSONObjComparator in the source; equality of the byte list is what the
table keys on). -/
abbrev SKey := List Nat

/-- The static two-level lock map: collection namespace to a map from
shard-key value to the entry's reference count.  The entry's mutex is not
part of the table-shape claims and is left to the scheduler. -/
structure LockTable where
  lockMap : List (String × List (SKey × Nat))
  deriving Repr, DecidableEq

/-- The empty table. -/
def emptyTable : LockTable := { lockMap := [] }

/-- ShardKeyLock::getOrCreateLockEntry, run under _globalMutex: lockMap[ns]
default-constructs the submap when absent; a missing entry is created with
reference count 1, an existing one has its count incremented. -/
def getOrCreateLockEntry (t : LockTable) (ns : String) (k : SKey) : LockTable :=
  let collectionMap := (alookup t.lockMap ns).getD []
  match alookup collectionMap k with
  | none => { lockMap := aset t.lockMap ns (aset collectionMap k 1) }
  | some n => { lockMap := aset t.lockMap ns (aset collectionMap k (n + 1)) }

/-- ShardKeyLock::releaseLockEntry, run under _globalMutex: missing namespace
or entry is a no-op; otherwise the count is decremented, the entry is erased
when it reaches zero, and the namespace submap is erased when it empties. -/
def releaseLockEntry (t : LockTable) (ns : String) (k : SKey) : LockTable :=
  match alookup t.lockMap ns with
  | none => t
  | some collectionMap =>
    match alookup collectionMap k with
    | none => t
    | some n =>
      if n - 1 = 0 then
        let collectionMap' := aerase collectionMap k
        if collectionMap' = [] then { lockMap := aerase t.lockMap ns }
        else { lockMap := aset t.lockMap ns collectionMap' }
      else { lockMap := aset t.lockMap ns (aset collectionMap k (n - 1)) }

/-- One table mutation: the registration half of ShardKeyLock::acquire (which
calls getOrCreateLockEntry before blocking on the entry mutex) or the release
performed by the handle's destructor.  acquire with an empty shard key
returns a null handle without touching the table and so contributes no
operation. -/
inductive LockOp where
  | acq (ns : String) (k : SKey)
  | rel (ns : String) (k : SKey)
  deriving Repr, DecidableEq

/-- Apply one operation to the table. -/
def applyLockOp (t : LockTable) : LockOp → LockTable
  | .acq ns k => getOrCreateLockEntry t ns k
  | .rel ns k => releaseLockEntry t ns k

/-- Run a sequence of operations from a starting table. -/
def runLockOps (t : LockTable) (ops : List LockOp) : LockTable :=
  ops.foldl applyLockOp t

/-- Whether a trace is well formed: a release is only performed by the RAII
handle of a still-outstanding acquire of the same (namespace, shard-key)
pair.  The first argument is the multiset of currently held pairs. -/
def validFrom : List (String × SKey) → List LockOp → Bool
  | _, [] => true
  | held, .acq ns k :: rest => validFrom ((ns, k) :: held) rest
  | held, .rel ns k :: rest =>
      (ns, k) ∈ held && validFrom (held.erase (ns, k)) rest

/-- A well-formed trace starting from no holders. -/
def validTrace (ops : List LockOp) : Bool := validFrom [] ops

/-- Effect of one operation on the multiset of held pairs. -/
def applyHeld (held : List (String × SKey)) : LockOp → List (String × SKey)
  | .acq ns k => (ns, k) :: held
  | .rel ns k => held.erase (ns, k)

/-- Multiset of held pairs after a trace. -/
def heldAfter (held : List (String × SKey)) (ops : List LockOp) :
    List (String × SKey) :=
  ops.foldl applyHeld held

/-- Outstanding holders of a pair after a trace from no holders: the number
of acquires of that (namespace, shard-key) pair not yet released. -/
def outstanding (ops : List LockOp) (ns : String) (k : SKey) : Nat :=
  (heldAfter [] ops).count (ns, k)

/-- Reference count stored in the table for a pair, if an entry exists. -/
def entryLookup (t : LockTable) (ns : String) (k : SKey) : Option Nat :=
  match alookup t.lockMap ns with
  | none => none
  | some collectionMap => alookup collectionMap k

/-- Well-formedness of the two-level map: no duplicate keys at either level
(std::map keys are unique). -/
def tableWF (t : LockTable) : Prop :=
  (akeys t.lockMap).Nodup ∧ ∀ p ∈ t.lockMap, (akeys p.2).Nodup

/-- The table stores exactly the positive holder counts of the multiset of
held (namespace, shard-key) pairs. -/
def tableMatches (t : LockTable) (held : List (String × SKey)) : Prop :=
  ∀ ns k, entryLookup t ns k =
    (if held.count (ns, k) = 0 then none else some (held.count (ns, k)))

end ShardKeyLock

/-! ## BSON value model shared by the extractor and the integrity checker -/

/-- A field name, as the list of its bytes-as-characters (names in the
claims' documents are ASCII, where Char.toNat is the byte value). -/
abbrev FName := List Char

/-- Modelled from the spec: the BSON codec is an external collaborator
"providing typed element access, field iteration, and byte-exact object
identity".  A value is a scalar (int32 or int64, carrying the numeric
payload), an embedded object, or an array; objects and arrays carry their
elements in document order, and arrays store their index field names
explicitly, as serialized BSON does. -/
inductive BVal where
  | int32V (n : Nat)
  | int64V (n : Nat)
  | objV (fields : List (FName × BVal))
  | arrV (fields : List (FName × BVal))

/-- A BSONElement: either eoo (none) or a named value. -/
abbrev BElem := Option (FName × BVal)

/-- Modelled from the spec: BSONObj::getField of the external BSON library
returns the first element whose complete field name equals the argument, or
eoo. -/
def getFieldE : List (FName × BVal) → FName → BElem
  | [], _ => none
  | (n, v) :: rest, name => if n = name then some (n, v) else getFieldE rest name

/-- Whether a value is an array (BSONElement::type() == Array). -/
def isArrB : BVal → Bool
  | .arrV _ => true
  | _ => false

/-- Whether a value is an object (BSONElement::type() == Object). -/
def isObjB : BVal → Bool
  | .objV _ => true
  | _ => false

/-- Modelled from the spec: BSONObj::getObjectField of the external BSON
library; the specification describes extractElementAtPath as the
"object-only traversal", so a field that is absent or not an object yields
the empty object.  (Under the hypotheses of the theorems below the traversal
only ever applies this to object-typed fields, so the treatment of arrays
here is immaterial to the results.) -/
def getObjectField (fs : List (FName × BVal)) (name : FName) :
    List (FName × BVal) :=
  match getFieldE fs name with
  | some (_, .objV fs2) => fs2
  | _ => []

/-- Split a path at its first dot: the leading component, and the remainder
after the dot when a dot exists.  This models the StringData::find('.') /
substr pair (and strchr plus pointer advance) used by the source. -/
def splitAtDot : FName → FName × Option FName
  | [] => ([], none)
  | c :: rest =>
      if c = '.' then ([], some rest)
      else
        let p := splitAtDot rest
        (c :: p.1, p.2)

theorem splitAtDot_some_length (path comp rest : FName)
    (h : splitAtDot path = (comp, some rest)) : rest.length < path.length := by
  induction path generalizing comp rest with
  | nil => simp [splitAtDot] at h
  | cons c cs ih =>
      by_cases hc : c = '.'
      · simp only [splitAtDot, if_pos hc, Prod.mk.injEq] at h
        obtain ⟨h1, h2⟩ := h
        cases h2
        simp
      · simp only [splitAtDot, if_neg hc, Prod.mk.injEq] at h
        obtain ⟨h1, h2⟩ := h
        have hlt := ih (splitAtDot cs).1 rest (by rw [← h2])
        simp only [List.length_cons]
        omega

/-! ## Dotted path support (src/src/mongo/db/bson/dotted_path_support.cpp) -/

namespace Dps

/-- dotted_path_support::extractElementAtPath: a full-name lookup first (a
literal dotted field name matches), then a split at the first dot and a
descent through getObjectField. -/
def extractElementAtPath (fs : List (FName × BVal)) (path : FName) : BElem :=
  match getFieldE fs path with
  | some e => some e
  | none =>
    match hsplit : splitAtDot path with
    | (left, some right) =>
        let sub := getObjectField fs left
        if sub.isEmpty then none else extractElementAtPath sub right
    | (_, none) => none
termination_by path.length
decreasing_by exact splitAtDot_some_length path left right hsplit

/-- dotted_path_support::_extractElementAtPathOrArrayAlongPathImpl.  The
C++ advances the caller's path pointer component by component; the second
component of the result is the remaining (not yet consumed) path.  An
absent or scalar field with path left over, or an array field, stops the
walk; a fully consumed path returns whatever the last lookup produced. -/
def extractPathOrArrayImpl (fs : List (FName × BVal)) (path : FName) :
    BElem × FName :=
  match hsplit : splitAtDot path with
  | (comp, some rest) =>
      match getFieldE fs comp with
      | none => (none, rest)
      | some (n, v) =>
          if isArrB v || rest.isEmpty then (some (n, v), rest)
          else
            match v with
            | .objV fs2 => extractPathOrArrayImpl fs2 rest
            | _ => (none, rest)
  | (_, none) => (getFieldE fs path, [])
termination_by path.length
decreasing_by exact splitAtDot_some_length path comp rest hsplit

/-- dotted_path_support::extractElementAtPathOrArrayAlongPath.  The fast
path for dotless paths is a single getField with the path fully consumed;
dotted paths go through the implementation above.  The thread-local
per-(document-pointer, path) cache is not modelled: entries are invalidated
whenever the subobject pointer changes and within one extract every lookup
is for a distinct (subobject, remaining-path) pair, so the cached function
always returns what the uncached implementation returns. -/
def extractPathOrArray (fs : List (FName × BVal)) (path : FName) :
    BElem × FName :=
  match splitAtDot path with
  | (_, none) => (getFieldE fs path, [])
  | _ => extractPathOrArrayImpl fs path

end Dps

/-! ## Unified field extractor (src/src/mongo/db/index/unified_field_extractor.h) -/

namespace Extractor

/-- kMaxFields of UnifiedFieldExtractor. -/
def kMaxFields : Nat := 256

/-- kInvalidSlot of UnifiedFieldExtractor. -/
def kInvalidSlot : Nat := 255

/-- The hash byte of a field-name signature:
hash = (hash * 31 + byte) mod 256 over all bytes. -/
def sigHash (s : FName) : Nat :=
  s.foldl (fun h c => (h * 31 + c.toNat % 256) % 256) 0

/-- UnifiedFieldExtractor::makeSignature: a 32-bit value packing
(length and 0xFF) << 24, first byte << 16, last byte << 8, and the rolling
hash byte; the packed fields occupy disjoint byte lanes so the bitwise or of
the source is written as a sum. -/
def makeSignature (s : FName) : Nat :=
  if s.length = 0 then 0
  else
    (s.length % 256) * 2 ^ 24 + ((s.headD 'a').toNat % 256) * 2 ^ 16 +
      ((s.getLastD 'a').toNat % 256) * 2 ^ 8 + sigHash s

/-- Registration and extraction state of a UnifiedFieldExtractor.  Vectors
are lists indexed by slot; the two unordered_maps keyed by signature are
association lists; the _doc back-reference of the source is omitted (nothing
reads it). -/
structure UFE where
  sigToSlot : List (Nat × Nat)
  collisionSlots : List (Nat × List Nat)
  fields : List FName
  isNested : List Bool
  nestedPfxs : List FName
  topLevelSlots : List Nat
  nestedSlots : List Nat
  topLevelSigs : List Nat
  nestedPfxSigs : List (Nat × List Nat)
  slots : List BElem
  hasArrayAlongPathV : List Bool
  extractedCount : Nat
  finalized : Bool

/-- A default-constructed UnifiedFieldExtractor. -/
def emptyUFE : UFE :=
  { sigToSlot := [], collisionSlots := [], fields := [], isNested := [],
    nestedPfxs := [], topLevelSlots := [], nestedSlots := [],
    topLevelSigs := [], nestedPfxSigs := [], slots := [],
    hasArrayAlongPathV := [], extractedCount := 0, finalized := false }

/-- _fields[slot] (slots handed out are always in range). -/
def fieldAt (e : UFE) (slot : Nat) : FName :=
  e.fields.getD slot []

/-- The full scan of registerField on a signature collision:
for (size_t i = 0; i < _fields.size(); ++i) if (_fields[i] == fieldPath)
return i. -/
def scanFields : List FName → FName → Nat → Option Nat
  | [], _, _ => none
  | f :: rest, path, i =>
      if f = path then some i else scanFields rest path (i + 1)

/-- First slot in a collision list whose registered path equals the given
path (the collision-list loops of registerField). -/
def findByPath (e : UFE) : List Nat → FName → Option Nat
  | [], _ => none
  | s :: rest, path =>
      if fieldAt e s = path then some s else findByPath e rest path

/-- First non-nested slot in a collision list whose registered path equals
the given name (the collision-list loop of extract, which breaks on the
first match). -/
def findTopByName (e : UFE) : List Nat → FName → Option Nat
  | [], _ => none
  | s :: rest, name =>
      if ¬ (e.isNested.getD s false) ∧ fieldAt e s = name then some s
      else findTopByName e rest name

/-- UnifiedFieldExtractor::registerField.  After finalize the invalid
sentinel is returned; an already registered path is found through the
primary signature map, a full scan on signature collision, or the collision
list, and returns its existing slot unchanged; a new path is appended, its
slot recorded in the primary map or, when the signature is already taken,
in the collision list, and the path is classified as top-level or nested. -/
def registerField (e : UFE) (path : FName) : Nat × UFE :=
  if e.finalized then (kInvalidSlot, e)
  else
    let sig := makeSignature path
    let primary := alookup e.sigToSlot sig
    let viaSig : Option Nat :=
      match primary with
      | some s =>
          if fieldAt e s = path then some s
          else scanFields e.fields path 0
      | none => none
    match viaSig with
    | some s => (s, e)
    | none =>
      match findByPath e ((alookup e.collisionSlots sig).getD []) path with
      | some s => (s, e)
      | none =>
        if kMaxFields - 1 ≤ e.fields.length then (kInvalidSlot, e)
        else
          let slot := e.fields.length
          let e1 := { e with fields := e.fields ++ [path] }
          let e2 :=
            match primary with
            | some _ =>
                let newColl :=
                  aset e1.collisionSlots sig
                    (((alookup e1.collisionSlots sig).getD []) ++ [slot])
                { e1 with collisionSlots := newColl }
            | none => { e1 with sigToSlot := aset e1.sigToSlot sig slot }
          match splitAtDot path with
          | (_, none) =>
              (slot, { e2 with topLevelSlots := e2.topLevelSlots ++ [slot],
                               isNested := e2.isNested ++ [false] })
          | (pfx, some _) =>
              (slot, { e2 with nestedSlots := e2.nestedSlots ++ [slot],
                               isNested := e2.isNested ++ [true],
                               nestedPfxs := e2.nestedPfxs ++ [pfx] })

/-- Register a list of paths in order (as registerIndex / registerDigest do,
without the per-name slot bookkeeping that no claim mentions). -/
def registerAll (e : UFE) (paths : List FName) : UFE :=
  paths.foldl (fun acc p => (registerField acc p).2) e

/-- One step of the nested-prefix loop of finalize: record the slot under
the signature of its top-level prefix. -/
def pfxInsert (acc : UFE) (sp : Nat × FName) : UFE :=
  let newMap :=
    aset acc.nestedPfxSigs (makeSignature sp.2)
      (((alookup acc.nestedPfxSigs (makeSignature sp.2)).getD []) ++ [sp.1])
  { acc with nestedPfxSigs := newMap }

/-- UnifiedFieldExtractor::finalize. -/
def finalizeReg (e : UFE) : UFE :=
  let e1 := { e with slots := List.replicate e.fields.length none,
                     hasArrayAlongPathV := List.replicate e.fields.length false,
                     finalized := true }
  let newSigs := e1.topLevelSlots.map (fun s => makeSignature (fieldAt e1 s))
  let e2 := { e1 with topLevelSigs := newSigs }
  (e2.nestedSlots.zip e2.nestedPfxs).foldl pfxInsert e2

/-- The nested-slot filling of UnifiedFieldExtractor::extract, for one slot
of _nestedPrefixSigs[sig] while visiting one top-level element (which is an
object or an array).  Only a still-empty slot is filled; an object prefix
descends with the remainder of the registered path and sets the
array-along-path flag when the remaining path was not fully consumed; an
array prefix stores the array element itself and sets the flag. -/
def nestedFill (elem : FName × BVal) (acc : UFE) (slot : Nat) : UFE :=
  if (acc.slots.getD slot none).isNone then
    match splitAtDot (fieldAt acc slot) with
    | (_, some subPath) =>
        match elem.2 with
        | .objV subObj =>
            let r := Dps.extractPathOrArray subObj subPath
            let acc1 := { acc with slots := acc.slots.set slot r.1 }
            let acc2 :=
              if r.2.isEmpty then acc1
              else { acc1 with hasArrayAlongPathV :=
                       acc1.hasArrayAlongPathV.set slot true }
            if r.1.isSome then
              { acc2 with extractedCount := acc2.extractedCount + 1 }
            else acc2
        | _ =>
            let newFlags := acc.hasArrayAlongPathV.set slot true
            let newSlots := acc.slots.set slot (some elem)
            let acc1 :=
              { acc with slots := newSlots, hasArrayAlongPathV := newFlags }
            { acc1 with extractedCount := acc1.extractedCount + 1 }
    | (_, none) => acc
  else acc

/-- One top-level element of the single traversal of
UnifiedFieldExtractor::extract: the primary signature lookup with full name
verification, the collision list with full name verification (first match
wins), and, for object or array elements, the nested-prefix descent. -/
def extractStep (acc : UFE) (elem : FName × BVal) : UFE :=
  let sig := makeSignature elem.1
  let e1 :=
    match alookup acc.sigToSlot sig with
    | some slot =>
        if ¬ (acc.isNested.getD slot false) ∧ fieldAt acc slot = elem.1 then
          { acc with slots := acc.slots.set slot (some elem),
                     extractedCount := acc.extractedCount + 1 }
        else acc
    | none => acc
  let e2 :=
    match alookup e1.collisionSlots sig with
    | some lst =>
        match findTopByName e1 lst elem.1 with
        | some slot =>
            { e1 with slots := e1.slots.set slot (some elem),
                      extractedCount := e1.extractedCount + 1 }
        | none => e1
    | none => e1
  if isObjB elem.2 || isArrB elem.2 then
    match alookup e2.nestedPfxSigs sig with
    | some lst => lst.foldl (nestedFill elem) e2
    | none => e2
  else e2

/-- UnifiedFieldExtractor::extract: clear the slot table and the
array-along-path vector, then fold the per-element step over the document's
top-level elements in order. -/
def extract (e : UFE) (doc : List (FName × BVal)) : UFE :=
  let e0 := { e with slots := List.replicate e.slots.length none,
                     hasArrayAlongPathV :=
                       List.replicate e.hasArrayAlongPathV.length false,
                     extractedCount := 0 }
  doc.foldl extractStep e0

/-- UnifiedFieldExtractor::get: the bounds check returns eoo for any slot at
or past the slot-table size. -/
def getSlot (e : UFE) (slot : Nat) : BElem :=
  if e.slots.length ≤ slot then none
  else e.slots.getD slot none

/-- UnifiedFieldExtractor::hasArrayAlongPath: false for any slot at or past
the vector size. -/
def hasArrayAlongPath (e : UFE) (slot : Nat) : Bool :=
  decide (slot < e.hasArrayAlongPathV.length) &&
    e.hasArrayAlongPathV.getD slot false

/-- Specification-side relation: extraction rewrites the slot table and the
array flags in place and touches nothing else; the registration state and
the table sizes are those of the starting extractor. -/
def sameShape (a b : UFE) : Prop :=
  a.fields = b.fields ∧ a.isNested = b.isNested ∧
    a.sigToSlot = b.sigToSlot ∧ a.collisionSlots = b.collisionSlots ∧
    a.nestedPfxSigs = b.nestedPfxSigs ∧
    a.slots.length = b.slots.length ∧
    a.hasArrayAlongPathV.length = b.hasArrayAlongPathV.length

end Extractor

/-! ## Config query coalescer
(src/src/mongo/db/s/config/config_query_coalescer.cpp)

tryCoalesce is concurrent code: the registry mutex delimits atomic sections,
and waiting, timeouts and queryFunc execution interleave arbitrarily.  The
embedding is a small-step system: every tryCoalesce call is a thread with a
program counter, each step below is one lock-protected region (or one
lock-free read) of the source, and an adversarial scheduler picks the next
event, including when a wait slice or the total wait budget times out.  Each
thread's queryFunc outcome is fixed in its spec (queryFunc is invoked at
most once per call and does not touch coalescer state). -/

namespace Coalescer

/-- Status values produced along tryCoalesce's paths. -/
inductive CStatus where
  | ok
  | shutdownInProgress
  | exceededTimeLimit
  | queryError (code : Nat)
  deriving Repr, DecidableEq

/-- A result vector; BSONObj payloads are opaque tokens, equal exactly when
byte-identical. -/
abbrev RVec := List Nat

/-- What a call's queryFunc returns when invoked. -/
abbrev QResult := Except Nat RVec

/-- Decidable equality for Except values (not provided by the library). -/
instance exceptDecEq {α β : Type} [DecidableEq α] [DecidableEq β] :
    DecidableEq (Except α β)
  | .ok x, .ok y =>
      if h : x = y then .isTrue (congrArg Except.ok h)
      else .isFalse (by intro hh; injection hh with h2; exact h h2)
  | .error x, .error y =>
      if h : x = y then .isTrue (congrArg Except.error h)
      else .isFalse (by intro hh; injection hh with h2; exact h h2)
  | .ok _, .error _ => .isFalse (by intro hh; exact Except.noConfusion hh)
  | .error _, .ok _ => .isFalse (by intro hh; exact Except.noConfusion hh)

/-- Per-call static data. -/
structure ThreadSpec where
  ns : String
  version : Nat
  qr : QResult
  deriving Repr, DecidableEq

/-- The heap-allocated WaiterState shared between the caller and the group. -/
structure WaiterState where
  result : Option RVec
  status : CStatus
  done : Bool
  deriving Repr, DecidableEq

/-- A freshly constructed WaiterState. -/
def initWaiter : WaiterState := { result := none, status := .ok, done := false }

/-- The state a distributor writes into every waiter: the shared result
pointer (null on error), the status, and the release-store of done. -/
def writtenState (qr : QResult) : WaiterState :=
  match qr with
  | .ok v => { result := some v, status := .ok, done := true }
  | .error c => { result := none, status := .queryError c, done := true }

/-- An entry of a group's waiter list (the shared-state pointer is the
owning thread's index). -/
structure Waiter where
  tid : Nat
  version : Nat
  deriving Repr, DecidableEq

structure CoalescingGroup where
  generation : Nat
  minVersion : Nat
  maxVersion : Nat
  queryInProgress : Bool
  queryCompleted : Bool
  waiters : List Waiter
  deriving Repr, DecidableEq

structure Stats where
  totalRequests : Nat
  actualQueries : Nat
  coalescedRequests : Nat
  timeoutRequests : Nat
  overflowRequests : Nat
  versionGapSkippedRequests : Nat
  activeGroups : Nat
  deriving Repr, DecidableEq

def stats0 : Stats := ⟨0, 0, 0, 0, 0, 0, 0⟩

/-- The instance configuration fields used by tryCoalesce (wait durations
are adversarial scheduler choices and carry no data). -/
structure CConfig where
  maxWaitersPerGroup : Nat
  maxVersionGap : Nat
  deriving Repr, DecidableEq

/-- Which return path a completed call took.  The C++ has no such record;
this is specification-side instrumentation on the final program counter. -/
inductive RetTag where
  | earlyShutdown
  | leadDistributed (sids : List Nat)
  | leadShutdown
  | leadNoGroup
  | gapSkip
  | overflowSkip
  | followerServed
  | followerShutdown
  | followerTimeout
  | promotedDistributed (sids : List Nat)
  | promotedShutdown
  | promotedNoGroup
  deriving Repr, DecidableEq

/-- Program counter of one tryCoalesce call: before the entry shutdown
check; after the totalRequests increment; executing queryFunc as leader;
reading the own waiter state after distributing (or failing to); waiting on
the condition variable; after leaving the wait loop; executing queryFunc
after promotion; returned. -/
inductive PC where
  | start
  | entered
  | leadRunning (myGen : Nat)
  | leadReturn (tag : RetTag)
  | following (groupGen : Nat)
  | followExit
  | promotedRunning (myGen : Nat)
  | finished (tag : RetTag) (ret : Except CStatus RVec)
  deriving Repr, DecidableEq

structure SysState where
  groups : List (String × CoalescingGroup)
  nextGeneration : Nat
  shutdownFlag : Bool
  stats : Stats
  store : List WaiterState
  pcs : List PC
  deriving Repr, DecidableEq

/-- Initial state for n concurrent tryCoalesce calls: every thread's
WaiterState is pre-allocated (the C++ allocates it on call entry; nothing
reads it before). -/
def initState (n : Nat) : SysState :=
  { groups := [], nextGeneration := 0, shutdownFlag := false, stats := stats0,
    store := List.replicate n initWaiter, pcs := List.replicate n .start }

/-- Scheduler events: one per lock-delimited region of tryCoalesce, plus
shutdown(). -/
inductive Ev where
  | enter (t : Nat)
  | groupStep (t : Nat)
  | leadFinish (t : Nat)
  | leadRet (t : Nat)
  | wake (t : Nat)
  | followRet (t : Nat)
  | totalTimeout (t : Nat)
  | sliceTimeout (t : Nat)
  | promotedFinish (t : Nat)
  | shutdownEv
  deriving Repr, DecidableEq

/-- Lift a queryFunc outcome to a tryCoalesce return value. -/
def qrToRet (qr : QResult) : Except CStatus RVec :=
  match qr with
  | .ok v => .ok v
  | .error c => .error (.queryError c)

/-- Result distribution: for every waiter of the group, store the shared
result pointer and status and release-store done. -/
def distribute (store : List WaiterState) (ws : List Waiter) (qr : QResult) :
    List WaiterState :=
  ws.foldl (fun st w => st.set w.tid (writtenState qr)) store

/-- Reading the own waiter state at the end of tryCoalesce: a failed status
is returned as is; a set result pointer is dereferenced; otherwise the empty
vector. -/
def readReturn (w : WaiterState) : Except CStatus RVec :=
  if w.status ≠ .ok then .error w.status
  else
    match w.result with
    | some v => .ok v
    | none => .ok []

/-- Write through a waiter-state pointer (no-op on an out-of-range id; ids
are always thread indices). -/
def storeWrite (st : List WaiterState) (tid : Nat)
    (f : WaiterState → WaiterState) : List WaiterState :=
  match st.get? tid with
  | some w => st.set tid (f w)
  | none => st

/-- shutdown(): every waiter of every registered group gets its status set
to ShutdownInProgress and its done flag release-stored, before the registry
is cleared. -/
def shutdownStore (groups : List (String × CoalescingGroup))
    (store : List WaiterState) : List WaiterState :=
  groups.foldl
    (fun acc p => p.2.waiters.foldl
      (fun acc2 w => storeWrite acc2 w.tid
        (fun ws => { ws with status := .shutdownInProgress, done := true }))
      acc)
    store

/-- One scheduler step.  Returns none when the event is not enabled in the
given state (the scheduler cannot run it). -/
def step (cfg : CConfig) (specs : List ThreadSpec) (s : SysState) :
    Ev → Option SysState
  | .enter t =>
    match s.pcs.get? t, specs.get? t with
    | some .start, some _ =>
        if s.shutdownFlag then
          let pc1 := PC.finished .earlyShutdown (.error .shutdownInProgress)
          some { s with pcs := s.pcs.set t pc1 }
        else
          let stats1 := { s.stats with totalRequests := s.stats.totalRequests + 1 }
          some { s with stats := stats1, pcs := s.pcs.set t .entered }
    | _, _ => none
  | .groupStep t =>
    match s.pcs.get? t, specs.get? t with
    | some .entered, some sp =>
        match alookup s.groups sp.ns with
        | none =>
            let gen := s.nextGeneration + 1
            let g : CoalescingGroup :=
              { generation := gen, minVersion := sp.version,
                maxVersion := sp.version, queryInProgress := true,
                queryCompleted := false, waiters := [⟨t, sp.version⟩] }
            let groups2 := aset s.groups sp.ns g
            let stats1 := { s.stats with activeGroups := groups2.length }
            some { s with groups := groups2, nextGeneration := gen, stats := stats1, pcs := s.pcs.set t (.leadRunning gen) }
        | some g =>
            let newMin := min g.minVersion sp.version
            let newMax := max g.maxVersion sp.version
            if cfg.maxVersionGap < newMax - newMin then
              let stats1 := { s.stats with versionGapSkippedRequests := s.stats.versionGapSkippedRequests + 1, actualQueries := s.stats.actualQueries + 1 }
              some { s with stats := stats1, pcs := s.pcs.set t (.finished .gapSkip (qrToRet sp.qr)) }
            else if cfg.maxWaitersPerGroup ≤ g.waiters.length then
              let stats1 := { s.stats with overflowRequests := s.stats.overflowRequests + 1, actualQueries := s.stats.actualQueries + 1 }
              some { s with stats := stats1, pcs := s.pcs.set t (.finished .overflowSkip (qrToRet sp.qr)) }
            else
              let g2 := { g with waiters := g.waiters ++ [⟨t, sp.version⟩] }
              let stats1 := { s.stats with coalescedRequests := s.stats.coalescedRequests + 1 }
              some { s with groups := aset s.groups sp.ns g2, stats := stats1, pcs := s.pcs.set t (.following g.generation) }
    | _, _ => none
  | .leadFinish t =>
    match s.pcs.get? t, specs.get? t with
    | some (.leadRunning myGen), some sp =>
        if s.shutdownFlag then
          let pc1 := PC.finished .leadShutdown (.error .shutdownInProgress)
          some { s with pcs := s.pcs.set t pc1 }
        else
          match alookup s.groups sp.ns with
          | some g =>
              if g.generation = myGen then
                let store2 := distribute s.store g.waiters sp.qr
                let groups2 := aerase s.groups sp.ns
                let stats1 := { s.stats with actualQueries := s.stats.actualQueries + 1, activeGroups := groups2.length }
                let pc1 := PC.leadReturn (.leadDistributed (g.waiters.map Waiter.tid))
                some { s with groups := groups2, store := store2, stats := stats1, pcs := s.pcs.set t pc1 }
              else
                some { s with pcs := s.pcs.set t (.leadReturn .leadNoGroup) }
          | none => some { s with pcs := s.pcs.set t (.leadReturn .leadNoGroup) }
    | _, _ => none
  | .leadRet t =>
    match s.pcs.get? t, s.store.get? t with
    | some (.leadReturn tag), some w =>
        some { s with pcs := s.pcs.set t (.finished tag (readReturn w)) }
    | _, _ => none
  | .wake t =>
    match s.pcs.get? t, s.store.get? t with
    | some (.following _), some w =>
        if w.done || s.shutdownFlag then
          some { s with pcs := s.pcs.set t .followExit }
        else none
    | _, _ => none
  | .followRet t =>
    match s.pcs.get? t, s.store.get? t with
    | some .followExit, some w =>
        if s.shutdownFlag then
          let pc1 := PC.finished .followerShutdown (.error .shutdownInProgress)
          some { s with pcs := s.pcs.set t pc1 }
        else
          some { s with pcs := s.pcs.set t (.finished .followerServed (readReturn w)) }
    | _, _ => none
  | .totalTimeout t =>
    match s.pcs.get? t, specs.get? t, s.store.get? t with
    | some (.following gen), some sp, some w =>
        if w.done || s.shutdownFlag then none
        else
          let groups2 :=
            match alookup s.groups sp.ns with
            | some g =>
                if g.generation = gen then
                  aset s.groups sp.ns { g with waiters := g.waiters.filter (fun x => x.tid != t) }
                else s.groups
            | none => s.groups
          let stats1 := { s.stats with timeoutRequests := s.stats.timeoutRequests + 1 }
          let pc1 := PC.finished .followerTimeout (.error .exceededTimeLimit)
          some { s with groups := groups2, stats := stats1, pcs := s.pcs.set t pc1 }
    | _, _, _ => none
  | .sliceTimeout t =>
    match s.pcs.get? t, specs.get? t, s.store.get? t with
    | some (.following gen), some sp, some w =>
        if w.done || s.shutdownFlag then none
        else
          match alookup s.groups sp.ns with
          | some g =>
              if g.generation = gen ∧ g.queryInProgress = false ∧ g.queryCompleted = false then
                let g2 := { g with queryInProgress := true, waiters := g.waiters.filter (fun x => x.tid != t) }
                some { s with groups := aset s.groups sp.ns g2, pcs := s.pcs.set t (.promotedRunning gen) }
              else some s
          | none => some s
    | _, _, _ => none
  | .promotedFinish t =>
    match s.pcs.get? t, specs.get? t with
    | some (.promotedRunning myGen), some sp =>
        if s.shutdownFlag then
          let pc1 := PC.finished .promotedShutdown (.error .shutdownInProgress)
          some { s with pcs := s.pcs.set t pc1 }
        else
          match alookup s.groups sp.ns with
          | some g =>
              if g.generation = myGen then
                let store2 := distribute s.store g.waiters sp.qr
                let groups2 := aerase s.groups sp.ns
                let ret : Except CStatus RVec :=
                  match sp.qr with
                  | .ok _ => .ok []
                  | .error c => .error (.queryError c)
                let stats1 := { s.stats with actualQueries := s.stats.actualQueries + 1, activeGroups := groups2.length }
                let pc1 := PC.finished (.promotedDistributed (g.waiters.map Waiter.tid)) ret
                some { s with groups := groups2, store := store2, stats := stats1, pcs := s.pcs.set t pc1 }
              else
                some { s with pcs := s.pcs.set t (.finished .promotedNoGroup (qrToRet sp.qr)) }
          | none =>
              some { s with pcs := s.pcs.set t (.finished .promotedNoGroup (qrToRet sp.qr)) }
    | _, _ => none
  | .shutdownEv =>
    some { s with shutdownFlag := true, groups := [],
                  store := shutdownStore s.groups s.store }

/-- Run a schedule; a disabled event leaves the state unchanged. -/
def runC (cfg : CConfig) (specs : List ThreadSpec) (s : SysState)
    (evs : List Ev) : SysState :=
  evs.foldl (fun acc e => ((step cfg specs acc e).getD acc)) s

/-- All thread ids currently on some registered group's waiter list. -/
def allTids (s : SysState) : List Nat :=
  (s.groups.map (fun p => p.2.waiters.map Waiter.tid)).join

/-- Return paths whose caller was counted in totalRequests but never in
actualQueries, coalescedRequests or timeoutRequests: a leader that hit the
shutdown flag or lost its group before distributing. -/
def tagDeficit : RetTag → Nat
  | .leadShutdown => 1
  | .leadNoGroup => 1
  | _ => 0

/-- Return paths counted twice on the right-hand side of the claimed
identity: a timed-out follower was already counted as coalesced; a
distributing promoted follower was counted as coalesced and again as an
actual query. -/
def tagExcess : RetTag → Nat
  | .followerTimeout => 1
  | .promotedDistributed _ => 1
  | _ => 0

/-- The statistics deficit of an in-flight or completed call: contributions
to totalRequests not yet (or never) matched in
actualQueries + coalescedRequests + timeoutRequests. -/
def pcDeficit : PC → Nat
  | .entered => 1
  | .leadRunning _ => 1
  | .leadReturn tag => tagDeficit tag
  | .finished tag _ => tagDeficit tag
  | _ => 0

/-- The statistics excess of a call (see tagExcess). -/
def pcExcess : PC → Nat
  | .leadReturn tag => tagExcess tag
  | .finished tag _ => tagExcess tag
  | _ => 0

/-- Sum of a per-thread measure over all threads. -/
def pcSum (f : PC → Nat) (pcs : List PC) : Nat :=
  (pcs.map f).sum

/-- Whether a call has returned. -/
def isFinished : PC → Bool
  | .finished _ _ => true
  | _ => false

/-- Whether every call of the system has returned. -/
def allFinished (s : SysState) : Prop :=
  ∀ pc ∈ s.pcs, isFinished pc = true

instance (s : SysState) : Decidable (allFinished s) :=
  List.decidableBAll (fun pc => isFinished pc = true) s.pcs

/-- Number of completed calls whose return path has the given tag shape. -/
def countTag (p : PC → Bool) (s : SysState) : Nat :=
  (s.pcs.filter p).length

/-- Returned from the leader path after seeing the shutdown flag. -/
def isLeadShutdownRet : PC → Bool
  | .finished .leadShutdown _ => true
  | _ => false

/-- Returned from the leader path after finding its group gone or replaced. -/
def isLeadNoGroupRet : PC → Bool
  | .finished .leadNoGroup _ => true
  | _ => false

/-- Returned through the follower total-timeout path. -/
def isTimeoutRet : PC → Bool
  | .finished .followerTimeout _ => true
  | _ => false

/-- Returned as a promoted follower that distributed results. -/
def isPromotedRet : PC → Bool
  | .finished (.promotedDistributed _) _ => true
  | _ => false

/-- The statistics bookkeeping invariant: totalRequests plus the
double-counted completions equals actualQueries + coalescedRequests +
timeoutRequests plus the contributions still pending (or lost) on the
uncounted paths. -/
def statsInv (s : SysState) : Prop :=
  s.stats.totalRequests + pcSum pcExcess s.pcs =
    s.stats.actualQueries + s.stats.coalescedRequests +
      s.stats.timeoutRequests + pcSum pcDeficit s.pcs

/-- The reachability invariant of the coalescer.  Everything the proof of
C1 needs about states reachable from the initial state: registered groups
have distinct namespaces, bounded generations and (crucially) the
queryInProgress flag always set; no call ever reaches the promotion path;
threads on a waiter list are past the entry region and, while no shutdown
has happened, are the leader or a follower of exactly that group with a
pristine shared state; a leader is on its own group's list; and a
distributing leader has written the query result to every waiter it
distributed to, none of whom can ever rejoin a group. -/
structure CInv (specs : List ThreadSpec) (s : SysState) : Prop where
  keys_nodup : (akeys s.groups).Nodup
  gen_bound : ∀ p ∈ s.groups, p.2.generation ≤ s.nextGeneration
  qip : ∀ p ∈ s.groups, p.2.queryInProgress = true
  no_promoted : ∀ t gen, ¬ s.pcs.get? t = some (.promotedRunning gen)
  no_promoted_fin : ∀ t sids ret,
    ¬ s.pcs.get? t = some (.finished (.promotedDistributed sids) ret)
  no_promoted_lret : ∀ t sids,
    ¬ s.pcs.get? t = some (.leadReturn (.promotedDistributed sids))
  members_weak : ∀ p ∈ s.groups, ∀ w ∈ p.2.waiters,
    ∃ pc, s.pcs.get? w.tid = some pc ∧ pc ≠ .start ∧ pc ≠ .entered
  members_strong : s.shutdownFlag = false →
    ∀ p ∈ s.groups, ∀ w ∈ p.2.waiters,
    (∃ sp, specs.get? w.tid = some sp ∧ sp.ns = p.1) ∧
    (s.pcs.get? w.tid = some (.leadRunning p.2.generation) ∨
      s.pcs.get? w.tid = some (.following p.2.generation)) ∧
    s.store.get? w.tid = some initWaiter
  fresh_store : ∀ t,
    (s.pcs.get? t = some .start ∨ s.pcs.get? t = some .entered) →
    s.store.get? t = some initWaiter
  leader_mem : ∀ t gen sp, s.pcs.get? t = some (.leadRunning gen) →
    specs.get? t = some sp →
    gen ≤ s.nextGeneration ∧
    ∀ g, alookup s.groups sp.ns = some g → g.generation = gen →
      t ∈ g.waiters.map Waiter.tid
  distrib_ret : ∀ t sids ret sp, specs.get? t = some sp →
    s.pcs.get? t = some (.finished (.leadDistributed sids) ret) →
    ret = qrToRet sp.qr
  distrib : ∀ t sids sp, specs.get? t = some sp →
    (s.pcs.get? t = some (.leadReturn (.leadDistributed sids)) ∨
      ∃ ret, s.pcs.get? t = some (.finished (.leadDistributed sids) ret)) →
    t ∈ sids ∧
    ∀ sid ∈ sids,
      s.store.get? sid = some (writtenState sp.qr) ∧
      sid ∉ allTids s ∧
      (∃ pc, s.pcs.get? sid = some pc ∧ pc ≠ .start ∧ pc ≠ .entered) ∧
      (∀ ret2, s.pcs.get? sid = some (.finished .followerServed ret2) →
        ret2 = qrToRet sp.qr)

end Coalescer


/-! ### Document integrity: xxHash64 and BSON byte form

The repository's document_integrity.cpp hashes the raw BSON byte form of
documents with XXH64 (third_party/xxhash).  The xxhash header itself is not
part of this repository's sources (only a wrapper that includes it), so
xxh64 below is the standard XXH64 algorithm; the BSON byte form follows the
BSON specification the codec implements: a document is a little-endian
int32 total size, the elements (tag byte, name as NUL-terminated cstring,
payload), and a trailing NUL. -/

namespace DocIntegrity

def M64 : Nat := 2 ^ 64

/-- Truncation to 64 bits (uint64_t arithmetic). -/
def m64 (x : Nat) : Nat := x % M64

def xxP1 : Nat := 0x9E3779B185EBCA87
def xxP2 : Nat := 0xC2B2AE3D27D4EB4F
def xxP3 : Nat := 0x165667B19E3779F9
def xxP4 : Nat := 0x85EBCA77C2B2AE63
def xxP5 : Nat := 0x27D4EB2F165667C5

/-- 64-bit left rotation; the two summands occupy disjoint bit ranges. -/
def rotl64 (x r : Nat) : Nat := m64 (x * 2 ^ r) + x % M64 / 2 ^ (64 - r)

/-- Little-endian value of a byte list. -/
def leVal : List Nat → Nat
  | [] => 0
  | b :: t => b % 256 + 256 * leVal t

def xxRound (acc lane : Nat) : Nat :=
  m64 (rotl64 (m64 (acc + lane * xxP2)) 31 * xxP1)

def xxMerge (acc lane : Nat) : Nat :=
  m64 (Nat.xor acc (xxRound 0 lane) * xxP1 + xxP4)

/-- The 32-byte stripe loop of XXH64 (fuel-indexed so that it reduces in
the kernel; the callers pass the input length, which bounds the number of
stripes). -/
def xxBulk : Nat → List Nat → Nat → Nat → Nat → Nat →
    Nat × Nat × Nat × Nat × List Nat
  | 0, bs, v1, v2, v3, v4 => (v1, v2, v3, v4, bs)
  | f + 1, bs, v1, v2, v3, v4 =>
    if 32 ≤ bs.length then
      xxBulk f (bs.drop 32)
        (xxRound v1 (leVal (bs.take 8)))
        (xxRound v2 (leVal ((bs.drop 8).take 8)))
        (xxRound v3 (leVal ((bs.drop 16).take 8)))
        (xxRound v4 (leVal ((bs.drop 24).take 8)))
    else (v1, v2, v3, v4, bs)

/-- The 8-byte tail loop. -/
def xxTail8 : List Nat → Nat → Nat × List Nat
  | b0 :: b1 :: b2 :: b3 :: b4 :: b5 :: b6 :: b7 :: rest, acc =>
      xxTail8 rest
        (m64 (rotl64 (Nat.xor acc
          (xxRound 0 (leVal [b0, b1, b2, b3, b4, b5, b6, b7]))) 27 *
            xxP1 + xxP4))
  | bs, acc => (acc, bs)

/-- The single 4-byte tail step. -/
def xxTail4 : List Nat → Nat → Nat × List Nat
  | b0 :: b1 :: b2 :: b3 :: rest, acc =>
      (m64 (rotl64 (Nat.xor acc (m64 (leVal [b0, b1, b2, b3] * xxP1))) 23 *
        xxP2 + xxP3), rest)
  | bs, acc => (acc, bs)

/-- The byte tail loop. -/
def xxTail1 : List Nat → Nat → Nat
  | [], acc => acc
  | b :: rest, acc =>
      xxTail1 rest (m64 (rotl64 (Nat.xor acc (m64 (b % 256 * xxP5))) 11 *
        xxP1))

/-- The final avalanche. -/
def xxAvalanche (acc : Nat) : Nat :=
  let a1 := m64 (Nat.xor acc (acc / 2 ^ 33) * xxP2)
  let a2 := m64 (Nat.xor a1 (a1 / 2 ^ 29) * xxP3)
  Nat.xor a2 (a2 / 2 ^ 32)

/-- XXH64 of a byte list with the given seed. -/
def xxh64 (input : List Nat) (seed : Nat) : Nat :=
  let len := input.length
  let start :=
    if 32 ≤ len then
      let r := xxBulk len input (m64 (seed + xxP1 + xxP2))
        (m64 (seed + xxP2)) (m64 seed) (m64 (seed + (M64 - xxP1)))
      let acc0 := m64 (rotl64 r.1 1 + rotl64 r.2.1 7 + rotl64 r.2.2.1 12 +
        rotl64 r.2.2.2.1 18)
      let acc1 := xxMerge (xxMerge (xxMerge (xxMerge acc0 r.1) r.2.1)
        r.2.2.1) r.2.2.2.1
      (acc1, r.2.2.2.2)
    else (m64 (seed + xxP5), input)
  let acc2 := m64 (start.1 + len)
  let t8 := xxTail8 start.2 acc2
  let t4 := xxTail4 t8.2 t8.1
  xxAvalanche (xxTail1 t4.2 t4.1)

/-- A field name as a NUL-terminated cstring. -/
def cstr (name : FName) : List Nat := name.map Char.toNat ++ [0]

/-- w-byte little-endian encoding. -/
def bytesLE : Nat → Nat → List Nat
  | 0, _ => []
  | w + 1, n => n % 256 :: bytesLE w (n / 256)

/-- A BSON document frame around a body: little-endian int32 total size
(4 size bytes + body + 1 terminator), the body, the NUL terminator. -/
def wrapDoc (body : List Nat) : List Nat :=
  bytesLE 4 (4 + body.length + 1) ++ body ++ [0]

mutual

/-- Element payload bytes: int32 and int64 little-endian, nested documents
framed by wrapDoc. -/
def valBytes : BVal → List Nat
  | .int32V x => bytesLE 4 x
  | .int64V x => bytesLE 8 x
  | .objV fs => wrapDoc (elemsBytes fs)
  | .arrV fs => wrapDoc (elemsBytes fs)

/-- The concatenated element bytes of a field list: tag byte, cstring
name, payload, for each element in document order. -/
def elemsBytes : List (FName × BVal) → List Nat
  | [] => []
  | (n, v) :: rest =>
      (match v with
       | .int32V _ => 0x10
       | .int64V _ => 0x12
       | .objV _ => 0x03
       | .arrV _ => 0x04) :: (cstr n ++ valBytes v ++ elemsBytes rest)

end

/-- The full byte form of a document (BSONObj::objdata/objsize range). -/
def docBytes (fs : List (FName × BVal)) : List Nat :=
  wrapDoc (elemsBytes fs)

/-- The reserved hash field name "_$docHash". -/
def kDocHashFieldName : FName := ['_', '$', 'd', 'o', 'c', 'H', 'a', 's', 'h']

/-- BSONObj::hasField at top level. -/
def hasFieldB (doc : List (FName × BVal)) (name : FName) : Bool :=
  doc.any (fun p => decide (p.1 = name))

/-- computeDocumentHash.  Fast path (a): no reserved field, hash the whole
document bytes.  Optimized path (b): the reserved field is the first
element; hash the raw bytes from just after the hash element to one byte
before the end of the document (the element bytes of the remaining fields,
without any document frame).  Compatible path (c): the reserved field is
present but not first; rebuild the document without it and hash the full
rebuilt byte form. -/
def computeDocumentHash (doc : List (FName × BVal)) : Nat :=
  if hasFieldB doc kDocHashFieldName = false then
    xxh64 (docBytes doc) 0
  else
    match doc with
    | (n, _v) :: rest =>
        if n = kDocHashFieldName then xxh64 (elemsBytes rest) 0
        else xxh64 (docBytes (doc.filter
          (fun p => decide (¬ p.1 = kDocHashFieldName)))) 0
    | [] =>
        xxh64 (docBytes (doc.filter
          (fun p => decide (¬ p.1 = kDocHashFieldName)))) 0

/-- extractDocumentHash: the reserved field's value when it is a
NumberLong, none otherwise. -/
def extractDocumentHash (doc : List (FName × BVal)) : Option Nat :=
  match getFieldE doc kDocHashFieldName with
  | some (_, .int64V h) => some h
  | some _ => none
  | none => none

/-- The Status outcomes of verifyDocumentIntegrity. -/
inductive VStatus where
  | ok
  | badValue
  | integrityError
  deriving Repr, DecidableEq

/-- verifyDocumentIntegrity. -/
def verifyDocumentIntegrity (doc : List (FName × BVal)) : VStatus :=
  match extractDocumentHash doc with
  | none =>
      if hasFieldB doc kDocHashFieldName then .badValue else .ok
  | some h =>
      if computeDocumentHash doc = h then .ok else .integrityError

/-- stripHashField: the document without any reserved-field occurrence. -/
def stripHashField (doc : List (FName × BVal)) : List (FName × BVal) :=
  if hasFieldB doc kDocHashFieldName = false then doc
  else doc.filter (fun p => decide (¬ p.1 = kDocHashFieldName))

end DocIntegrity


/-! ### repairIndexEntry: the remove action -/

namespace RepairIndex

/-- Index keys and record ids are opaque tokens compared byte-for-byte
(BSONObj::woCompare equality, RecordId equality); record id 0 stands for
the null RecordId, so RecordId::isNormal() is positivity. -/
abbrev IKey := Nat

abbrev ILoc := Nat

def isNormal (rid : ILoc) : Bool := decide (0 < rid)

/-- One outcome of doRemove: the command's boolean result, the errmsg, the
machine-readable "code" field appended to the reply (none when no code is
appended), and the index contents after the call. -/
structure RemoveOutcome where
  ok : Bool
  errmsg : String
  code : Option Nat
  index : List (IKey × ILoc)
  deriving Repr, DecidableEq

/-- IndexAccessMethod::removeSingleKey: unindexes one entry matching key
and loc. -/
def removeSingleKey (idx : List (IKey × ILoc)) (k : IKey) (loc : ILoc) :
    List (IKey × ILoc) :=
  match idx with
  | [] => []
  | e :: rest =>
      if e.1 = k ∧ e.2 = loc then rest
      else e :: removeSingleKey rest k loc

/-- The cursor walk over the entries whose key equals indexKey: counts
matches, remembers the first matching loc, and stops at the entry whose
loc equals recordId. -/
def scanLoop : List (IKey × ILoc) → ILoc → Nat → ILoc →
    Bool × Nat × ILoc
  | [], _, count, first => (false, count, first)
  | e :: rest, rid, count, first =>
      let count2 := count + 1
      let first2 := if count2 = 1 then e.2 else first
      if e.2 = rid then (true, count2, first2)
      else scanLoop rest rid count2 first2

/-- doRemove.  The index is the ordered entry list the cursor iterates;
genKeys is the key set IndexAccessMethod::getKeys derives from the located
document (in set order); docFound tells whether the document currently
exists; indexKey is the user-supplied key when present. -/
def doRemove (idx : List (IKey × ILoc)) (genKeys : List IKey)
    (docFound : Bool) (recordId : ILoc) (indexKey : Option IKey)
    (dryRun : Bool) : RemoveOutcome :=
  match indexKey with
  | some ik =>
    if docFound then
      { ok := false,
        errmsg := "document still exists, cannot remove as orphan index",
        code := some 50003, index := idx }
    else
      let hits := idx.filter (fun e => decide (e.1 = ik))
      let scan := scanLoop hits recordId 0 0
      let found := scan.1
      let matchCount := scan.2.1
      let firstMatch := scan.2.2
      if found = false ∧ isNormal recordId = true then
        { ok := false,
          errmsg := "index entry not found at specified recordId",
          code := some 50002, index := idx }
      else if isNormal recordId = false ∧ 1 < matchCount then
        { ok := false,
          errmsg := "multiple index entries match, please provide recordId",
          code := some 50000, index := idx }
      else
        let locToRemove :=
          if isNormal recordId = false ∧ matchCount = 1 then firstMatch
          else recordId
        if matchCount = 0 then
          { ok := false, errmsg := "index entry not found",
            code := some 50002, index := idx }
        else if dryRun then
          { ok := true, errmsg := "", code := none, index := idx }
        else
          { ok := true, errmsg := "", code := none,
            index := removeSingleKey idx ik locToRemove }
  | none =>
    if docFound then
      if genKeys.length = 0 then
        { ok := false, errmsg := "document generates no index keys",
          code := none, index := idx }
      else if 1 < genKeys.length then
        { ok := false,
          errmsg :=
            "document generates multiple index keys, please specify indexKey",
          code := some 50000, index := idx }
      else if dryRun then
        { ok := true, errmsg := "", code := none, index := idx }
      else
        { ok := true, errmsg := "", code := none,
          index := removeSingleKey idx (genKeys.headD 0) recordId }
    else
      { ok := false, errmsg := "cannot determine index key to remove",
        code := none, index := idx }

end RepairIndex


namespace Extractor

/-- The top-level prefix of a path (everything before the first dot; the
path itself when dotless). -/
def pfxOf (p : FName) : FName := (splitAtDot p).1

mutual

/-- A well-formed dotted path: components are nonempty, so the path has no
leading, trailing or doubled dot (wfAux expects a component to start). -/
def wfAux : FName → Bool
  | [] => false
  | c :: rest => if c = '.' then false else wfTail rest

/-- Continuation inside a component: a dot starts a fresh component. -/
def wfTail : FName → Bool
  | [] => true
  | c :: rest => if c = '.' then wfAux rest else wfTail rest

end

/-- Well-formedness of a registered path. -/
def wfPath (p : FName) : Bool := wfAux p

mutual

/-- No field name anywhere inside a value contains a dot. -/
def noDotsV : BVal → Bool
  | .int32V _ => true
  | .int64V _ => true
  | .objV fs => noDotsL fs
  | .arrV fs => noDotsL fs

/-- No field name anywhere inside a document contains a dot. -/
def noDotsL : List (FName × BVal) → Bool
  | [] => true
  | (n, v) :: rest => !(n.contains '.') && noDotsV v && noDotsL rest

end

/-- The registration-phase invariant of a UnifiedFieldExtractor built by
registerField calls from the default construction: registered paths are
pairwise distinct; the nested flag records exactly the presence of a dot;
the signature map and the collision lists are sound and together complete;
nested slots and their prefixes are recorded pairwise in the two parallel
vectors; the prefix-signature map is only built by finalize. -/
structure RegInv (e : UFE) : Prop where
  not_finalized : e.finalized = false
  len_nested : e.isNested.length = e.fields.length
  len_zip : e.nestedSlots.length = e.nestedPfxs.length
  fields_nodup : e.fields.Nodup
  classify : ∀ s, s < e.fields.length →
    (e.isNested.getD s false = true ↔ (splitAtDot (fieldAt e s)).2.isSome)
  sig_sound : ∀ sig s, alookup e.sigToSlot sig = some s →
    s < e.fields.length ∧ makeSignature (fieldAt e s) = sig
  coll_sound : ∀ sig lst, alookup e.collisionSlots sig = some lst →
    ∀ s ∈ lst, s < e.fields.length ∧ makeSignature (fieldAt e s) = sig
  lookup_complete : ∀ s, s < e.fields.length →
    alookup e.sigToSlot (makeSignature (fieldAt e s)) = some s ∨
    ∃ lst, alookup e.collisionSlots (makeSignature (fieldAt e s)) =
      some lst ∧ s ∈ lst
  zip_sound : ∀ pr ∈ e.nestedSlots.zip e.nestedPfxs,
    pr.1 < e.fields.length ∧ e.isNested.getD pr.1 false = true ∧
    pr.2 = pfxOf (fieldAt e pr.1)
  zip_complete : ∀ s, s < e.fields.length →
    e.isNested.getD s false = true →
    (s, pfxOf (fieldAt e s)) ∈ e.nestedSlots.zip e.nestedPfxs
  nested_nodup : e.nestedSlots.Nodup
  nested_bound : ∀ s ∈ e.nestedSlots, s < e.fields.length
  npfx_empty : e.nestedPfxSigs = []

/-- What the claims need of a finalized extractor: the registration facts,
the invariant table lengths, and soundness and completeness of the
prefix-signature map built by finalize. -/
structure ExtInv (e : UFE) : Prop where
  len_nested : e.isNested.length = e.fields.length
  fields_nodup : e.fields.Nodup
  classify : ∀ s, s < e.fields.length →
    (e.isNested.getD s false = true ↔ (splitAtDot (fieldAt e s)).2.isSome)
  sig_sound : ∀ sig s, alookup e.sigToSlot sig = some s →
    s < e.fields.length ∧ makeSignature (fieldAt e s) = sig
  coll_sound : ∀ sig lst, alookup e.collisionSlots sig = some lst →
    ∀ s ∈ lst, s < e.fields.length ∧ makeSignature (fieldAt e s) = sig
  lookup_complete : ∀ s, s < e.fields.length →
    alookup e.sigToSlot (makeSignature (fieldAt e s)) = some s ∨
    ∃ lst, alookup e.collisionSlots (makeSignature (fieldAt e s)) =
      some lst ∧ s ∈ lst
  npfx_sound : ∀ sig lst, alookup e.nestedPfxSigs sig = some lst →
    ∀ s ∈ lst, s < e.fields.length ∧ e.isNested.getD s false = true ∧
      makeSignature (pfxOf (fieldAt e s)) = sig ∧
      pfxOf (fieldAt e s) ∈ e.nestedPfxs
  npfx_complete : ∀ s, s < e.fields.length →
    e.isNested.getD s false = true →
    ∃ lst, alookup e.nestedPfxSigs (makeSignature (pfxOf (fieldAt e s))) =
      some lst ∧ s ∈ lst
  len_slots : e.slots.length = e.fields.length
  len_flags : e.hasArrayAlongPathV.length = e.fields.length

/-- The state of finalize just before its nested-prefix loop (the two
resized vectors, the finalized flag, and the top-level signature cache). -/
def finalizeBase (e : UFE) : UFE :=
  { e with
      slots := List.replicate e.fields.length none
      hasArrayAlongPathV := List.replicate e.fields.length false
      finalized := true
      topLevelSigs := e.topLevelSlots.map (fun s => makeSignature (fieldAt e s)) }

/-- The primary signature-map stage of extract, for one element. -/
def stage1 (acc : UFE) (elem : FName × BVal) : UFE :=
  match alookup acc.sigToSlot (makeSignature elem.1) with
  | some slot =>
      if ¬ (acc.isNested.getD slot false) ∧ fieldAt acc slot = elem.1 then
        { acc with slots := acc.slots.set slot (some elem),
                   extractedCount := acc.extractedCount + 1 }
      else acc
  | none => acc

/-- The collision-list stage of extract, for one element. -/
def stage2 (acc : UFE) (elem : FName × BVal) : UFE :=
  match alookup acc.collisionSlots (makeSignature elem.1) with
  | some lst =>
      match findTopByName acc lst elem.1 with
      | some slot =>
          { acc with slots := acc.slots.set slot (some elem),
                     extractedCount := acc.extractedCount + 1 }
      | none => acc
  | none => acc

/-- The nested-prefix stage of extract, for one element. -/
def stage3 (acc : UFE) (elem : FName × BVal) : UFE :=
  if isObjB elem.2 || isArrB elem.2 then
    match alookup acc.nestedPfxSigs (makeSignature elem.1) with
    | some lst => lst.foldl (nestedFill elem) acc
    | none => acc
  else acc

/-- The slot-table and flag reset at the top of extract. -/
def resetUFE (e : UFE) : UFE :=
  { e with
      slots := List.replicate e.slots.length none
      hasArrayAlongPathV := List.replicate e.hasArrayAlongPathV.length false
      extractedCount := 0 }

/-- What nestedFill stores into a still-empty nested slot whose registered
path splits as prefix plus rest, when visiting an element carrying the given
value: descend for an object (the stored element and whether path was left
over), store the element itself for an array. -/
def nestedOutcome (elem : FName × BVal) (rest : FName) : BElem × Bool :=
  match elem.2 with
  | .objV sub =>
      ((Dps.extractPathOrArray sub rest).1,
        !(Dps.extractPathOrArray sub rest).2.isEmpty)
  | _ => (some elem, true)

/-- The extractor state built by the new-slot branch of registerField for
a dotless path, abstracted over the extended signature maps. -/
def newTopUFE (e : UFE) (path : FName) (newSig : List (Nat × Nat))
    (newColl : List (Nat × List Nat)) : UFE :=
  { e with
    fields := e.fields ++ [path],
    sigToSlot := newSig,
    collisionSlots := newColl,
    topLevelSlots := e.topLevelSlots ++ [e.fields.length],
    isNested := e.isNested ++ [false] }

/-- The extractor state built by the new-slot branch of registerField for
a dotted path. -/
def newNestedUFE (e : UFE) (path pfx : FName) (newSig : List (Nat × Nat))
    (newColl : List (Nat × List Nat)) : UFE :=
  { e with
    fields := e.fields ++ [path],
    sigToSlot := newSig,
    collisionSlots := newColl,
    nestedSlots := e.nestedSlots ++ [e.fields.length],
    isNested := e.isNested ++ [true],
    nestedPfxs := e.nestedPfxs ++ [pfx] }

end Extractor

/-! ### Theorems -/

/-! #### Decimal counter lemmas and claim C9 -/

namespace Itoa

theorem incDigits_ne_nil (l : List Nat) : incDigits l ≠ [] := by
  cases l with
  | nil => simp [incDigits]
  | cons d ds =>
      simp only [incDigits]
      split <;> simp

theorem ofDigits_incDigits (l : List Nat) (hl : ∀ x ∈ l, x < 10) :
    Nat.ofDigits 10 (incDigits l) = Nat.ofDigits 10 l + 1 := by
  induction l with
  | nil => simp [incDigits, Nat.ofDigits]
  | cons d ds ih =>
      have hd : d < 10 := hl d (by simp)
      have hds : ∀ x ∈ ds, x < 10 := fun x hx => hl x (by simp [hx])
      by_cases h : d < 9
      · rw [show incDigits (d :: ds) = (d + 1) :: ds from by simp [incDigits, h]]
        rw [Nat.ofDigits_cons, Nat.ofDigits_cons]
        push_cast
        ring
      · have hd9 : d = 9 := by omega
        rw [show incDigits (d :: ds) = 0 :: incDigits ds from by simp [incDigits, h]]
        rw [Nat.ofDigits_cons, Nat.ofDigits_cons, ih hds, hd9]
        push_cast
        ring

theorem incDigits_lt_base (l : List Nat) (hl : ∀ x ∈ l, x < 10) :
    ∀ x ∈ incDigits l, x < 10 := by
  induction l with
  | nil => simp [incDigits]
  | cons d ds ih =>
      have hd : d < 10 := hl d (by simp)
      have hds : ∀ x ∈ ds, x < 10 := fun x hx => hl x (by simp [hx])
      by_cases h : d < 9
      · intro x hx
        simp only [incDigits, if_pos h, List.mem_cons] at hx
        rcases hx with rfl | hx
        · omega
        · exact hds x hx
      · intro x hx
        simp only [incDigits, if_neg h, List.mem_cons] at hx
        rcases hx with rfl | hx
        · omega
        · exact ih hds x hx

theorem incDigits_getLast (l : List Nat)
    (hl : ∀ h : l ≠ [], l.getLast h ≠ 0) :
    ∀ h : incDigits l ≠ [], (incDigits l).getLast h ≠ 0 := by
  induction l with
  | nil => intro h; simp [incDigits]
  | cons d ds ih =>
      intro h
      by_cases hlt : d < 9
      · simp only [incDigits, if_pos hlt] at h ⊢
        cases ds with
        | nil => simp
        | cons e es =>
            rw [List.getLast_cons (by simp)]
            have := hl (by simp)
            rwa [List.getLast_cons (by simp)] at this
      · simp only [incDigits, if_neg hlt] at h ⊢
        rw [List.getLast_cons (incDigits_ne_nil ds)]
        apply ih
        intro hds
        have := hl (by simp)
        rwa [List.getLast_cons hds] at this

theorem ctorDigits_lt_base (m : Nat) : ∀ x ∈ ctorDigits m, x < 10 := by
  unfold ctorDigits
  split
  · simp
  · exact fun x hx => Nat.digits_lt_base (by norm_num) hx

theorem ofDigits_ctorDigits (m : Nat) : Nat.ofDigits 10 (ctorDigits m) = m := by
  unfold ctorDigits
  split
  · simp_all [Nat.ofDigits]
  · exact_mod_cast Nat.ofDigits_digits 10 m

theorem incDigits_ctorDigits (m : Nat) :
    incDigits (ctorDigits m) = ctorDigits (m + 1) := by
  rcases Nat.eq_zero_or_pos m with rfl | hm
  · show incDigits (ctorDigits 0) = ctorDigits 1
    unfold ctorDigits
    rw [if_pos rfl, if_neg one_ne_zero]
    rw [Nat.digits_def' (b := 10) (by norm_num) (by norm_num)]
    norm_num [incDigits]
  have hlast : ∀ h : ctorDigits m ≠ [], (ctorDigits m).getLast h ≠ 0 := by
    unfold ctorDigits
    split
    · omega
    · intro h
      exact Nat.getLast_digit_ne_zero 10 (by omega)
  have h1 : Nat.ofDigits 10 (incDigits (ctorDigits m)) = m + 1 := by
    rw [ofDigits_incDigits _ (ctorDigits_lt_base m), ofDigits_ctorDigits]
  have h2 : Nat.digits 10 (Nat.ofDigits 10 (incDigits (ctorDigits m)))
      = incDigits (ctorDigits m) :=
    Nat.digits_ofDigits 10 (by norm_num) _
      (incDigits_lt_base _ (ctorDigits_lt_base m))
      (incDigits_getLast _ hlast)
  rw [h1] at h2
  rw [← h2]
  unfold ctorDigits
  rw [if_neg (by omega)]

theorem ctorDigits_length_le (m : Nat) (hm : m < 10 ^ 11) :
    (ctorDigits m).length ≤ kBufSize := by
  unfold ctorDigits kBufSize
  split
  · simp
  · rename_i hm0
    rw [Nat.digits_len 10 m (by norm_num) hm0]
    have hlog : Nat.log 10 m < 11 :=
      (Nat.lt_pow_iff_log_lt (by norm_num) hm0).mp hm
    omega

theorem dcIter_spec (n : Nat) :
    ∀ m, m + n < 10 ^ 11 →
      dcIter n ⟨ctorDigits m, false⟩ = ⟨ctorDigits (m + n), false⟩ := by
  induction n with
  | zero => intro m _; simp [dcIter]
  | succ n ih =>
      intro m hmn
      have hstep : dcInc ⟨ctorDigits m, false⟩ = ⟨ctorDigits (m + 1), false⟩ := by
        unfold dcInc
        simp only [if_neg Bool.false_ne_true, incDigits_ctorDigits]
        rw [if_neg (by
          have := ctorDigits_length_le (m + 1) (by omega)
          omega)]
      calc dcIter (n + 1) ⟨ctorDigits m, false⟩
          = dcIter n (dcInc ⟨ctorDigits m, false⟩) := rfl
        _ = dcIter n ⟨ctorDigits (m + 1), false⟩ := by rw [hstep]
        _ = ⟨ctorDigits (m + 1 + n), false⟩ := ih (m + 1) (by omega)
        _ = ⟨ctorDigits (m + (n + 1)), false⟩ := by ring_nf

theorem dcIter_succ_right (n : Nat) :
    ∀ c, dcIter (n + 1) c = dcInc (dcIter n c) := by
  induction n with
  | zero => intro c; rfl
  | succ n ih => intro c; exact ih (dcInc c)

/-- Claim C9, amended.  For every starting value k in the constructor's
uint32 domain and every number n of increments such that k + n still has at
most 11 decimal digits (that is, k + n < 10 ^ 11), the counter's string view
after n applications of operator++ equals the decimal spelling of k + n and
no buffer overflow has occurred.  (As stated, with n unrestricted, the claim
fails: see the counterexample.) -/
theorem C9_decimal_counter (k n : Nat) (hk : k < 2 ^ 32)
    (hn : k + n < 10 ^ 11) :
    dcSpelling (dcIter n (dcMake k)) = decSpelling (k + n) ∧
      (dcIter n (dcMake k)).overflowed = false := by
  have h := dcIter_spec n k hn
  unfold dcMake at *
  rw [h]
  exact ⟨rfl, rfl⟩

/-- Witness for C9 at k = 3, n = 12. -/
theorem C9_decimal_counter_witness :
    3 < 2 ^ 32 ∧ 3 + 12 < 10 ^ 11 ∧
      (dcSpelling (dcIter 12 (dcMake 3)) = decSpelling (3 + 12) ∧
        (dcIter 12 (dcMake 3)).overflowed = false) :=
  ⟨by norm_num, by norm_num, C9_decimal_counter 3 12 (by norm_num) (by norm_num)⟩

theorem dcInc_overflow (c : DecimalCounter) (h : c.overflowed = false)
    (hl : kBufSize < (incDigits c.digits).length) :
    dcInc c = { c with overflowed := true } := by
  simp [dcInc, h, hl]

/-- Counterexample to claim C9 as stated: starting from 0, the 10 ^ 11-th
increment must widen the spelling to 12 characters and the widening memmove
writes past the end of the fixed 11-byte buffer. -/
theorem C9_decimal_counter_counterexample :
    (dcIter (10 ^ 11) (dcMake 0)).overflowed = true := by
  have hlen : kBufSize < (incDigits (ctorDigits (10 ^ 11 - 1))).length := by
    rw [incDigits_ctorDigits]
    rw [show (10 : Nat) ^ 11 - 1 + 1 = 10 ^ 11 by norm_num]
    unfold ctorDigits
    rw [if_neg (by norm_num)]
    have hA := Nat.digits_len 10 (10 ^ 11) (by norm_num) (by norm_num)
    have hB : Nat.log 10 (10 ^ 11) = 11 := Nat.log_pow (by norm_num) 11
    unfold kBufSize
    omega
  have h10 : (10 : Nat) ^ 11 = (10 ^ 11 - 1) + 1 := by norm_num
  rw [h10, dcIter_succ_right]
  have h := dcIter_spec (10 ^ 11 - 1) 0 (by norm_num)
  unfold dcMake
  rw [show (0 : Nat) + (10 ^ 11 - 1) = 10 ^ 11 - 1 by omega] at h
  rw [h, dcInc_overflow _ rfl hlen]

end Itoa

/-! #### Association-list lemmas -/


theorem alookup_aset_self {α β : Type} [DecidableEq α] (l : List (α × β))
    (key : α) (v : β) : alookup (aset l key v) key = some v := by
  induction l with
  | nil => simp [aset, alookup]
  | cons p rest ih =>
      obtain ⟨k, w⟩ := p
      by_cases h : k = key
      · simp [aset, alookup, h]
      · simp [aset, alookup, h, ih]

theorem alookup_aset_ne {α β : Type} [DecidableEq α] (l : List (α × β))
    (key key' : α) (v : β) (h : key' ≠ key) :
    alookup (aset l key v) key' = alookup l key' := by
  have hne : ¬ key = key' := fun hh => h hh.symm
  induction l with
  | nil =>
      show (if key = key' then some v else alookup [] key') = none
      rw [if_neg hne]
      rfl
  | cons p rest ih =>
      obtain ⟨k, w⟩ := p
      by_cases hk : k = key
      · subst hk
        have hset : aset ((k, w) :: rest) k v = (k, v) :: rest := by
          simp [aset]
        rw [hset]
        simp only [alookup, if_neg hne]
      · simp only [aset, if_neg hk, alookup]
        split
        · rfl
        · exact ih

theorem alookup_eq_none_of_not_mem {α β : Type} [DecidableEq α]
    (l : List (α × β)) (key : α) (h : key ∉ akeys l) :
    alookup l key = none := by
  induction l with
  | nil => rfl
  | cons p rest ih =>
      obtain ⟨k, w⟩ := p
      simp only [akeys, List.map_cons, List.mem_cons, not_or] at h
      simp only [alookup, if_neg (fun hh : k = key => h.1 hh.symm)]
      exact ih h.2

theorem alookup_aerase_ne {α β : Type} [DecidableEq α] (l : List (α × β))
    (key key' : α) (h : key' ≠ key) :
    alookup (aerase l key) key' = alookup l key' := by
  induction l with
  | nil => simp [aerase]
  | cons p rest ih =>
      obtain ⟨k, w⟩ := p
      by_cases hk : k = key
      · subst hk
        have her : aerase ((k, w) :: rest) k = rest := by simp [aerase]
        rw [her]
        simp only [alookup, if_neg (fun hh : k = key' => h hh.symm)]
      · simp only [aerase, if_neg hk, alookup]
        split
        · rfl
        · exact ih

theorem alookup_aerase_self {α β : Type} [DecidableEq α] (l : List (α × β))
    (key : α) (hnd : (akeys l).Nodup) :
    alookup (aerase l key) key = none := by
  induction l with
  | nil => simp [aerase, alookup]
  | cons p rest ih =>
      obtain ⟨k, w⟩ := p
      simp only [akeys, List.map_cons, List.nodup_cons] at hnd
      by_cases hk : k = key
      · subst hk
        simp only [aerase, if_pos rfl]
        exact alookup_eq_none_of_not_mem rest k hnd.1
      · simp only [aerase, if_neg hk, alookup, if_neg hk]
        exact ih hnd.2

theorem akeys_aset {α β : Type} [DecidableEq α] (l : List (α × β))
    (key : α) (v : β) :
    akeys (aset l key v) =
      if key ∈ akeys l then akeys l else akeys l ++ [key] := by
  induction l with
  | nil => simp [aset, akeys]
  | cons p rest ih =>
      obtain ⟨k, w⟩ := p
      by_cases hk : k = key
      · subst hk
        simp [aset, akeys]
      · have hne : ¬ key = k := fun hh => hk hh.symm
        simp only [aset, if_neg hk, akeys, List.map_cons, List.mem_cons]
        by_cases hmem : key ∈ akeys rest
        · simp only [akeys] at ih hmem
          simp [hne, hmem, ih]
        · simp only [akeys] at ih hmem
          simp [hne, hmem, ih]

theorem aset_keys_nodup {α β : Type} [DecidableEq α] (l : List (α × β))
    (key : α) (v : β) (hnd : (akeys l).Nodup) :
    (akeys (aset l key v)).Nodup := by
  rw [akeys_aset]
  split
  · exact hnd
  · rename_i hmem
    refine List.Nodup.append hnd (List.nodup_singleton key) ?_
    simp [List.disjoint_singleton, hmem]

theorem aerase_sublist {α β : Type} [DecidableEq α] (l : List (α × β))
    (key : α) : (aerase l key).Sublist l := by
  induction l with
  | nil => simp [aerase]
  | cons p rest ih =>
      obtain ⟨k, w⟩ := p
      by_cases hk : k = key
      · simp only [aerase, if_pos hk]
        exact (List.sublist_cons_self _ _)
      · simp only [aerase, if_neg hk]
        exact ih.cons₂ _

theorem aerase_keys_nodup {α β : Type} [DecidableEq α] (l : List (α × β))
    (key : α) (hnd : (akeys l).Nodup) :
    (akeys (aerase l key)).Nodup :=
  hnd.sublist (List.Sublist.map Prod.fst (aerase_sublist l key))

theorem aerase_eq_nil {α β : Type} [DecidableEq α] (l : List (α × β))
    (key : α) (h : aerase l key = []) :
    l = [] ∨ ∃ w, l = [(key, w)] := by
  cases l with
  | nil => exact Or.inl rfl
  | cons p rest =>
      obtain ⟨k, w⟩ := p
      by_cases hk : k = key
      · subst hk
        simp only [aerase, if_pos rfl] at h
        subst h
        exact Or.inr ⟨w, rfl⟩
      · simp [aerase, if_neg hk] at h

theorem aset_mem {α β : Type} [DecidableEq α] {l : List (α × β)}
    {key : α} {v : β} {p : α × β} (h : p ∈ aset l key v) :
    p = (key, v) ∨ p ∈ l := by
  induction l with
  | nil => simpa [aset] using h
  | cons q rest ih =>
      obtain ⟨k, w⟩ := q
      by_cases hk : k = key
      · subst hk
        have hset : aset ((k, w) :: rest) k v = (k, v) :: rest := by
          simp [aset]
        rw [hset, List.mem_cons] at h
        rcases h with h | h
        · exact Or.inl h
        · exact Or.inr (List.mem_cons_of_mem _ h)
      · simp only [aset, if_neg hk, List.mem_cons] at h
        rcases h with h | h
        · rw [h]
          exact Or.inr (List.mem_cons_self _ _)
        · rcases ih h with h1 | h1
          · exact Or.inl h1
          · exact Or.inr (List.mem_cons_of_mem _ h1)

theorem alookup_mem {α β : Type} [DecidableEq α] {l : List (α × β)}
    {key : α} {v : β} (h : alookup l key = some v) : (key, v) ∈ l := by
  induction l with
  | nil => simp [alookup] at h
  | cons q rest ih =>
      obtain ⟨k, w⟩ := q
      by_cases hk : k = key
      · subst hk
        have hl : alookup ((k, w) :: rest) k = some w := by simp [alookup]
        rw [hl] at h
        cases h
        exact List.mem_cons_self _ _
      · simp only [alookup, if_neg hk] at h
        exact List.mem_cons_of_mem _ (ih h)

/-! #### Shard-key lock table invariants and claim C7 -/

namespace ShardKeyLock


theorem entryLookup_eq (t : LockTable) (ns : String) (k : SKey) :
    entryLookup t ns k = alookup ((alookup t.lockMap ns).getD []) k := by
  unfold entryLookup
  cases alookup t.lockMap ns
  · rfl
  · rfl

theorem cm_nodup (t : LockTable) (ns : String) (hwf : tableWF t) :
    (akeys ((alookup t.lockMap ns).getD [])).Nodup := by
  cases hcm : alookup t.lockMap ns with
  | none => simp [akeys]
  | some m => exact hwf.2 (ns, m) (alookup_mem hcm)

theorem step_acq (t : LockTable) (held : List (String × SKey))
    (ns : String) (k : SKey) (hwf : tableWF t) (hm : tableMatches t held) :
    tableWF (getOrCreateLockEntry t ns k) ∧
      tableMatches (getOrCreateLockEntry t ns k) ((ns, k) :: held) := by
  have hlk : alookup ((alookup t.lockMap ns).getD []) k =
      (if held.count (ns, k) = 0 then none
       else some (held.count (ns, k))) := by
    rw [← entryLookup_eq]
    exact hm ns k
  have hgo : getOrCreateLockEntry t ns k =
      { lockMap := aset t.lockMap ns
          (aset ((alookup t.lockMap ns).getD []) k
            (held.count (ns, k) + 1)) } := by
    simp only [getOrCreateLockEntry]
    rw [hlk]
    by_cases h0 : held.count (ns, k) = 0
    · rw [if_pos h0, h0]
    · rw [if_neg h0]
  have hcmnd : (akeys ((alookup t.lockMap ns).getD [])).Nodup :=
    cm_nodup t ns hwf
  rw [hgo]
  constructor
  · constructor
    · exact aset_keys_nodup _ _ _ hwf.1
    · intro p hp
      rcases aset_mem hp with hpnew | hpold
      · rw [hpnew]
        exact aset_keys_nodup _ _ _ hcmnd
      · exact hwf.2 p hpold
  · intro ns' k'
    rw [entryLookup_eq]
    by_cases hns : ns' = ns
    · subst hns
      simp only [alookup_aset_self, Option.getD_some]
      by_cases hk : k' = k
      · subst hk
        rw [alookup_aset_self, List.count_cons_self]
        rw [if_neg (Nat.succ_ne_zero _)]
      · rw [alookup_aset_ne _ _ _ _ hk]
        rw [List.count_cons_of_ne (by simp [hk])]
        have hm' := hm ns' k'
        rw [entryLookup_eq] at hm'
        exact hm'
    · rw [alookup_aset_ne _ _ _ _ hns]
      rw [List.count_cons_of_ne (by simp [hns])]
      have hm' := hm ns' k'
      rw [entryLookup_eq] at hm'
      exact hm'

theorem step_rel (t : LockTable) (held : List (String × SKey))
    (ns : String) (k : SKey) (hwf : tableWF t) (hm : tableMatches t held)
    (hmem : (ns, k) ∈ held) :
    tableWF (releaseLockEntry t ns k) ∧
      tableMatches (releaseLockEntry t ns k) (held.erase (ns, k)) := by
  have hpos : held.count (ns, k) ≠ 0 := by
    have := List.count_pos_iff.mpr hmem
    omega
  have hme := hm ns k
  rw [if_neg hpos] at hme
  obtain ⟨cm, hcml, hcmk⟩ : ∃ cm, alookup t.lockMap ns = some cm ∧
      alookup cm k = some (held.count (ns, k)) := by
    unfold entryLookup at hme
    cases hc : alookup t.lockMap ns with
    | none => rw [hc] at hme; exact absurd hme (by simp)
    | some m => rw [hc] at hme; exact ⟨m, rfl, hme⟩
  have hcmnd : (akeys cm).Nodup := hwf.2 (ns, cm) (alookup_mem hcml)
  have hrel : releaseLockEntry t ns k =
      (if held.count (ns, k) - 1 = 0 then
        (if aerase cm k = [] then { lockMap := aerase t.lockMap ns }
         else { lockMap := aset t.lockMap ns (aerase cm k) })
       else { lockMap := aset t.lockMap ns
                (aset cm k (held.count (ns, k) - 1)) }) := by
    simp only [releaseLockEntry, hcml, hcmk]
  have hcount_self : (held.erase (ns, k)).count (ns, k) =
      held.count (ns, k) - 1 := by
    rw [List.count_erase_self]
  have hcount_ne : ∀ p, p ≠ (ns, k) →
      (held.erase (ns, k)).count p = held.count p := by
    intro p hp
    exact List.count_erase_of_ne hp _
  rw [hrel]
  by_cases h1 : held.count (ns, k) - 1 = 0
  · rw [if_pos h1]
    by_cases h2 : aerase cm k = []
    · rw [if_pos h2]
      constructor
      · constructor
        · exact aerase_keys_nodup _ _ hwf.1
        · intro p hp
          exact hwf.2 p ((aerase_sublist _ _).subset hp)
      · intro ns' k'
        rw [entryLookup_eq]
        by_cases hns : ns' = ns
        · subst hns
          simp only [alookup_aerase_self _ _ hwf.1, Option.getD_none]
          by_cases hk : k' = k
          · subst hk
            rw [hcount_self, h1, if_pos rfl]
            rfl
          · rw [hcount_ne _ (by simp [hk])]
            have hnone : alookup cm k' = none := by
              rcases aerase_eq_nil cm k h2 with hnil | ⟨w, hw⟩
              · rw [hnil] at hcmk
                simp [alookup] at hcmk
              · rw [hw]
                show (if k = k' then some w else alookup [] k') = none
                rw [if_neg (fun hh : k = k' => hk hh.symm)]
                rfl
            have hm' := hm ns' k'
            rw [entryLookup_eq, hcml] at hm'
            simp only [Option.getD_some] at hm'
            rw [hnone] at hm'
            by_cases hz : held.count (ns', k') = 0
            · rw [hz, if_pos rfl]
              rfl
            · rw [if_neg hz] at hm'
              exact absurd hm'.symm (by simp)
        · rw [alookup_aerase_ne _ _ _ hns]
          rw [hcount_ne _ (by simp [hns]), ← entryLookup_eq]
          exact hm ns' k'
    · rw [if_neg h2]
      constructor
      · constructor
        · exact aset_keys_nodup _ _ _ hwf.1
        · intro p hp
          rcases aset_mem hp with hpnew | hpold
          · rw [hpnew]
            exact aerase_keys_nodup _ _ hcmnd
          · exact hwf.2 p hpold
      · intro ns' k'
        rw [entryLookup_eq]
        by_cases hns : ns' = ns
        · subst hns
          simp only [alookup_aset_self, Option.getD_some]
          by_cases hk : k' = k
          · subst hk
            rw [alookup_aerase_self _ _ hcmnd, hcount_self, h1, if_pos rfl]
          · rw [alookup_aerase_ne _ _ _ hk, hcount_ne _ (by simp [hk])]
            have hm' := hm ns' k'
            rw [entryLookup_eq, hcml] at hm'
            simpa using hm'
        · rw [alookup_aset_ne _ _ _ _ hns]
          rw [hcount_ne _ (by simp [hns]), ← entryLookup_eq]
          exact hm ns' k'
  · rw [if_neg h1]
    constructor
    · constructor
      · exact aset_keys_nodup _ _ _ hwf.1
      · intro p hp
        rcases aset_mem hp with hpnew | hpold
        · rw [hpnew]
          exact aset_keys_nodup _ _ _ hcmnd
        · exact hwf.2 p hpold
    · intro ns' k'
      rw [entryLookup_eq]
      by_cases hns : ns' = ns
      · subst hns
        simp only [alookup_aset_self, Option.getD_some]
        by_cases hk : k' = k
        · subst hk
          rw [alookup_aset_self, hcount_self, if_neg h1]
        · rw [alookup_aset_ne _ _ _ _ hk, hcount_ne _ (by simp [hk])]
          have hm' := hm ns' k'
          rw [entryLookup_eq, hcml] at hm'
          simpa using hm'
      · rw [alookup_aset_ne _ _ _ _ hns]
        rw [hcount_ne _ (by simp [hns]), ← entryLookup_eq]
        exact hm ns' k'

theorem runLockOps_cons (t : LockTable) (op : LockOp) (ops : List LockOp) :
    runLockOps t (op :: ops) = runLockOps (applyLockOp t op) ops := rfl

theorem heldAfter_cons (held : List (String × SKey)) (op : LockOp)
    (ops : List LockOp) :
    heldAfter held (op :: ops) = heldAfter (applyHeld held op) ops := rfl

theorem runInv (ops : List LockOp) :
    ∀ (t : LockTable) (held : List (String × SKey)),
      tableWF t → tableMatches t held → validFrom held ops = true →
      tableWF (runLockOps t ops) ∧
        tableMatches (runLockOps t ops) (heldAfter held ops) := by
  induction ops with
  | nil => exact fun t held hwf hm _ => ⟨hwf, hm⟩
  | cons op rest ih =>
      intro t held hwf hm hv
      cases op with
      | acq ns k =>
          have hstep := step_acq t held ns k hwf hm
          rw [runLockOps_cons, heldAfter_cons]
          exact ih _ _ hstep.1 hstep.2 hv
      | rel ns k =>
          simp only [validFrom, Bool.and_eq_true, decide_eq_true_eq] at hv
          have hstep := step_rel t held ns k hwf hm hv.1
          rw [runLockOps_cons, heldAfter_cons]
          exact ih _ _ hstep.1 hstep.2 hv.2

theorem heldAfter_append (held : List (String × SKey)) (l1 l2 : List LockOp) :
    heldAfter held (l1 ++ l2) = heldAfter (heldAfter held l1) l2 := by
  simp [heldAfter, List.foldl_append]

theorem runLockOps_append (t : LockTable) (l1 l2 : List LockOp) :
    runLockOps t (l1 ++ l2) = runLockOps (runLockOps t l1) l2 := by
  simp [runLockOps, List.foldl_append]

/-- Claim C7.  For every well-formed interleaved sequence of shard-key lock
table registrations and releases (a release is performed only by the RAII
handle of a not-yet-released acquire), the table maps a (namespace,
shard-key) pair to a reference count exactly when the number of unreleased
acquires of that pair is positive, and the stored count equals that number;
consequently an entry disappears across a single further operation only when
that operation is the release of that very pair and the count was 1. -/
theorem C7_shard_key_lock_refcounts (ops : List LockOp)
    (hv : validTrace ops = true) :
    (∀ ns k, entryLookup (runLockOps emptyTable ops) ns k =
        (if outstanding ops ns k = 0 then none
         else some (outstanding ops ns k))) ∧
    (∀ op ns k n, validTrace (ops ++ [op]) = true →
        entryLookup (runLockOps emptyTable ops) ns k = some n →
        entryLookup (runLockOps emptyTable (ops ++ [op])) ns k = none →
        op = LockOp.rel ns k ∧ n = 1) := by
  have hinit : tableWF emptyTable ∧ tableMatches emptyTable [] := by
    constructor
    · exact ⟨List.nodup_nil, by intro p hp; simp [emptyTable] at hp⟩
    · intro ns k
      simp [entryLookup, emptyTable, alookup, List.count_nil]
  have hchar := fun (l : List LockOp) (hvl : validTrace l = true) =>
    (runInv l emptyTable [] hinit.1 hinit.2 hvl).2
  constructor
  · intro ns k
    have := hchar ops hv ns k
    rw [this]
    rfl
  · intro op ns k n hv2 hsome hnone
    have h1 := hchar ops hv ns k
    rw [hsome] at h1
    have hn : outstanding ops ns k = n ∧ n ≠ 0 := by
      unfold outstanding
      by_cases hz : (heldAfter [] ops).count (ns, k) = 0
      · rw [if_pos hz] at h1
        exact absurd h1 (by simp)
      · rw [if_neg hz] at h1
        injection h1 with h3
        exact ⟨by omega, by omega⟩
    have h2 := hchar (ops ++ [op]) hv2 ns k
    rw [hnone] at h2
    have hz2 : outstanding (ops ++ [op]) ns k = 0 := by
      unfold outstanding
      by_cases hz : (heldAfter [] (ops ++ [op])).count (ns, k) = 0
      · exact hz
      · rw [if_neg hz] at h2
        exact absurd h2.symm (by simp)
    unfold outstanding at hz2
    rw [heldAfter_append] at hz2
    cases op with
    | acq ns' k' =>
        exfalso
        have hfold : heldAfter (heldAfter [] ops) [LockOp.acq ns' k'] =
            (ns', k') :: heldAfter [] ops := rfl
        rw [hfold] at hz2
        by_cases hp : (ns, k) = (ns', k')
        · rw [← hp, List.count_cons_self] at hz2
          omega
        · rw [List.count_cons_of_ne hp] at hz2
          unfold outstanding at hn
          omega
    | rel ns' k' =>
        have hfold : heldAfter (heldAfter [] ops) [LockOp.rel ns' k'] =
            (heldAfter [] ops).erase (ns', k') := rfl
        rw [hfold] at hz2
        by_cases hp : (ns', k') = (ns, k)
        · have hns : ns' = ns := congrArg Prod.fst hp
          have hkk : k' = k := congrArg Prod.snd hp
          subst hns
          subst hkk
          rw [List.count_erase_self] at hz2
          unfold outstanding at hn
          exact ⟨rfl, by omega⟩
        · exfalso
          rw [List.count_erase_of_ne (fun hh => hp hh.symm)] at hz2
          unfold outstanding at hn
          omega

/-- Witness for C7 on the trace acquire, acquire, release of the same pair. -/
theorem C7_shard_key_lock_refcounts_witness :
    validTrace [LockOp.acq "db.c" [7], LockOp.acq "db.c" [7],
        LockOp.rel "db.c" [7]] = true ∧
      ((∀ ns k, entryLookup (runLockOps emptyTable
            [LockOp.acq "db.c" [7], LockOp.acq "db.c" [7],
              LockOp.rel "db.c" [7]]) ns k =
          (if outstanding [LockOp.acq "db.c" [7], LockOp.acq "db.c" [7],
              LockOp.rel "db.c" [7]] ns k = 0 then none
           else some (outstanding [LockOp.acq "db.c" [7],
              LockOp.acq "db.c" [7], LockOp.rel "db.c" [7]] ns k))) ∧
       (∀ op ns k n, validTrace ([LockOp.acq "db.c" [7],
            LockOp.acq "db.c" [7], LockOp.rel "db.c" [7]] ++ [op]) = true →
          entryLookup (runLockOps emptyTable [LockOp.acq "db.c" [7],
              LockOp.acq "db.c" [7], LockOp.rel "db.c" [7]]) ns k = some n →
          entryLookup (runLockOps emptyTable ([LockOp.acq "db.c" [7],
              LockOp.acq "db.c" [7], LockOp.rel "db.c" [7]] ++ [op])) ns k
            = none →
          op = LockOp.rel ns k ∧ n = 1)) :=
  ⟨by decide, C7_shard_key_lock_refcounts _ (by decide)⟩

end ShardKeyLock

/-! #### List helper lemmas for the extractor proofs -/

theorem getD_snoc_self {α : Type} (l : List α) (x d : α) :
    (l ++ [x]).getD l.length d = x := by
  induction l with
  | nil => rfl
  | cons a rest ih => simpa using ih

theorem getD_snoc_lt {α : Type} (l : List α) (x d : α) (i : Nat)
    (h : i < l.length) : (l ++ [x]).getD i d = l.getD i d := by
  induction l generalizing i with
  | nil => simp at h
  | cons a rest ih =>
      cases i with
      | zero => rfl
      | succ j => simpa using ih j (by simpa using h)

theorem getD_snoc_gt {α : Type} (l : List α) (x d : α) (i : Nat)
    (h : l.length < i) : (l ++ [x]).getD i d = d := by
  induction l generalizing i with
  | nil =>
      cases i with
      | zero => simp at h
      | succ j => simp [List.getD]
  | cons a rest ih =>
      cases i with
      | zero => simp at h
      | succ j => simpa using ih j (by simpa using h)

theorem getD_past_length {α : Type} (l : List α) (d : α) (i : Nat)
    (h : l.length ≤ i) : l.getD i d = d := by
  induction l generalizing i with
  | nil => simp [List.getD]
  | cons a rest ih =>
      cases i with
      | zero => simp at h
      | succ j => simpa using ih j (by simpa using h)

/-! #### Extractor registration lemmas and claim C8 -/

namespace Extractor

theorem scanFields_none_iff (l : List FName) (path : FName) (i : Nat) :
    scanFields l path i = none ↔ path ∉ l := by
  induction l generalizing i with
  | nil => simp [scanFields]
  | cons f rest ih =>
      by_cases hfp : f = path
      · simp [scanFields, hfp]
      · simp only [scanFields, if_neg hfp, List.mem_cons]
        rw [ih (i + 1)]
        constructor
        · intro h hmem
          rcases hmem with h1 | h1
          · exact hfp h1.symm
          · exact h h1
        · intro h hmem
          exact h (Or.inr hmem)

theorem scanFields_snoc (l : List FName) (path : FName) (i : Nat)
    (h : path ∉ l) :
    scanFields (l ++ [path]) path i = some (i + l.length) := by
  induction l generalizing i with
  | nil => simp [scanFields]
  | cons f rest ih =>
      simp only [List.mem_cons, not_or] at h
      have hfp : ¬ f = path := fun hh => h.1 hh.symm
      show scanFields (f :: (rest ++ [path])) path i =
        some (i + (f :: rest).length)
      simp only [scanFields, if_neg hfp]
      rw [ih (i + 1) h.2]
      congr 1
      simp only [List.length_cons]
      omega

/-- registerField on a finalized extractor is the invalid sentinel and no
state change. -/
theorem registerField_finalized (e : UFE) (path : FName)
    (hf : e.finalized = true) : registerField e path = (kInvalidSlot, e) := by
  simp [registerField, hf]

/-- Claim C8 core: registering a path twice in a row returns the same slot
both times and leaves the extractor exactly as after the first call, for
every extractor state (in particular across signature collisions, where the
second call finds the slot via the full scan or the collision list). -/
theorem registerField_idem (e : UFE) (path : FName) :
    registerField (registerField e path).2 path = registerField e path := by
  rcases hfirst : registerField e path with ⟨s, e2⟩
  show registerField e2 path = (s, e2)
  by_cases hf : e.finalized = true
  · rw [registerField_finalized e path hf] at hfirst
    injection hfirst with h1 h2
    subst h1
    subst h2
    exact registerField_finalized e path hf
  · simp only [registerField, if_neg hf] at hfirst
    rcases hpr : alookup e.sigToSlot (makeSignature path) with _ | s0
    · -- primary miss: viaSig is none
      simp only [hpr] at hfirst
      rcases hcol : findByPath e
          ((alookup e.collisionSlots (makeSignature path)).getD []) path
        with _ | s1
      · simp only [hcol] at hfirst
        by_cases hcap : kMaxFields - 1 ≤ e.fields.length
        · rw [if_pos hcap] at hfirst
          injection hfirst with h1 h2
          subst h1
          subst h2
          simp only [registerField, if_neg hf, hpr, hcol, if_pos hcap]
        · rw [if_neg hcap] at hfirst
          rcases hsp : splitAtDot path with ⟨pfx, rest⟩
          cases rest with
          | none =>
              simp only [hsp] at hfirst
              injection hfirst with h1 h2
              subst h1
              subst h2
              simp [registerField, if_neg hf, alookup_aset_self,
                fieldAt, getD_snoc_self]
          | some tail =>
              simp only [hsp] at hfirst
              injection hfirst with h1 h2
              subst h1
              subst h2
              simp [registerField, if_neg hf, alookup_aset_self,
                fieldAt, getD_snoc_self]
      · simp only [hcol] at hfirst
        injection hfirst with h1 h2
        subst h1
        subst h2
        simp only [registerField, if_neg hf, hpr, hcol]
    · -- primary hit
      simp only [hpr] at hfirst
      by_cases hfa : fieldAt e s0 = path
      · rw [if_pos hfa] at hfirst
        injection hfirst with h1 h2
        subst h1
        subst h2
        simp only [registerField, if_neg hf, hpr, if_pos hfa]
      · rw [if_neg hfa] at hfirst
        rcases hscan : scanFields e.fields path 0 with _ | i
        · -- full scan failed: path not among the fields
          have hnotin : path ∉ e.fields := (scanFields_none_iff _ _ _).mp hscan
          simp only [hscan] at hfirst
          rcases hcol : findByPath e
              ((alookup e.collisionSlots (makeSignature path)).getD []) path
            with _ | s1
          · simp only [hcol] at hfirst
            by_cases hcap : kMaxFields - 1 ≤ e.fields.length
            · rw [if_pos hcap] at hfirst
              injection hfirst with h1 h2
              subst h1
              subst h2
              simp only [registerField, if_neg hf, hpr, if_neg hfa, hscan,
                hcol, if_pos hcap]
            · rw [if_neg hcap] at hfirst
              have hscan2 : scanFields (e.fields ++ [path]) path 0 =
                  some e.fields.length := by
                have := scanFields_snoc e.fields path 0 hnotin
                simpa using this
              have hvia2 : (if (e.fields ++ [path]).getD s0 [] = path
                    then some s0
                    else scanFields (e.fields ++ [path]) path 0) =
                  some e.fields.length := by
                by_cases hlen : s0 < e.fields.length
                · rw [if_neg (by
                    rw [getD_snoc_lt _ _ _ _ hlen]
                    exact fun hh => hfa (by simpa [fieldAt] using hh))]
                  exact hscan2
                · by_cases hlen2 : s0 = e.fields.length
                  · rw [if_pos (by rw [hlen2]; exact getD_snoc_self _ _ _)]
                    rw [hlen2]
                  · have hgt : e.fields.length < s0 := by omega
                    have hold : e.fields.getD s0 [] = [] :=
                      getD_past_length _ _ _ (by omega)
                    have hc : ¬ (e.fields ++ [path]).getD s0 [] = path := by
                      rw [getD_snoc_gt _ _ _ _ hgt]
                      intro hh
                      apply hfa
                      show e.fields.getD s0 [] = path
                      rw [hold]
                      exact hh
                    rw [if_neg hc]
                    exact hscan2
              rcases hsp : splitAtDot path with ⟨pfx, rest⟩
              cases rest with
              | none =>
                  simp only [hsp] at hfirst
                  injection hfirst with h1 h2
                  subst h1
                  subst h2
                  simp only [registerField, if_neg hf, hpr, fieldAt, hvia2]
              | some tail =>
                  simp only [hsp] at hfirst
                  injection hfirst with h1 h2
                  subst h1
                  subst h2
                  simp only [registerField, if_neg hf, hpr, fieldAt, hvia2]
          · simp only [hcol] at hfirst
            injection hfirst with h1 h2
            subst h1
            subst h2
            simp only [registerField, if_neg hf, hpr, if_neg hfa, hscan, hcol]
        · simp only [hscan] at hfirst
          injection hfirst with h1 h2
          subst h1
          subst h2
          simp only [registerField, if_neg hf, hpr, if_neg hfa, hscan]

/-- Claim C8.  On an extractor built by any sequence of prior registrations
(not yet finalized), calling registerField twice with the same path returns
the same slot id both times and does not create a second slot: the second
call returns the first call's slot and leaves the whole registration state
unchanged, including when the path's signature collides with a different
previously registered path. -/
theorem C8_register_field_idempotent (paths : List FName) (path : FName) :
    registerField (registerField (registerAll emptyUFE paths) path).2 path =
      registerField (registerAll emptyUFE paths) path :=
  registerField_idem (registerAll emptyUFE paths) path

/-! #### Shape preservation of extraction, and claim C10 -/

theorem sameShape_refl (a : UFE) : sameShape a a :=
  ⟨rfl, rfl, rfl, rfl, rfl, rfl, rfl⟩

theorem sameShape_trans {a b c : UFE} (h1 : sameShape a b)
    (h2 : sameShape b c) : sameShape a c := by
  obtain ⟨a1, a2, a3, a4, a5, a6, a7⟩ := h1
  obtain ⟨b1, b2, b3, b4, b5, b6, b7⟩ := h2
  exact ⟨a1.trans b1, a2.trans b2, a3.trans b3, a4.trans b4, a5.trans b5,
    a6.trans b6, a7.trans b7⟩

theorem nestedFill_shape (elem : FName × BVal) (acc : UFE) (slot : Nat) :
    sameShape (nestedFill elem acc slot) acc := by
  unfold nestedFill sameShape
  repeat' split
  all_goals simp [apply_ite UFE.fields, apply_ite UFE.isNested,
    apply_ite UFE.sigToSlot, apply_ite UFE.collisionSlots,
    apply_ite UFE.nestedPfxSigs, apply_ite UFE.slots,
    apply_ite UFE.hasArrayAlongPathV, apply_ite List.length,
    List.length_set]

theorem foldl_nestedFill_shape (elem : FName × BVal) (lst : List Nat) :
    ∀ acc : UFE, sameShape (lst.foldl (nestedFill elem) acc) acc := by
  induction lst with
  | nil => exact fun acc => sameShape_refl acc
  | cons s rest ih =>
      intro acc
      exact sameShape_trans (ih (nestedFill elem acc s))
        (nestedFill_shape elem acc s)

theorem extractStep_shape (acc : UFE) (elem : FName × BVal) :
    sameShape (extractStep acc elem) acc := by
  simp only [extractStep]
  repeat' split
  all_goals
    first
    | exact sameShape_refl _
    | (refine sameShape_trans (foldl_nestedFill_shape _ _ _) ?_
       unfold sameShape
       simp [List.length_set])
    | (unfold sameShape
       simp [List.length_set])

theorem foldl_extractStep_shape (doc : List (FName × BVal)) :
    ∀ acc : UFE, sameShape (doc.foldl extractStep acc) acc := by
  induction doc with
  | nil => exact fun acc => sameShape_refl acc
  | cons elem rest ih =>
      intro acc
      exact sameShape_trans (ih (extractStep acc elem))
        (extractStep_shape acc elem)

theorem extract_shape (e : UFE) (doc : List (FName × BVal)) :
    sameShape (extract e doc)
      { e with slots := List.replicate e.slots.length none,
               hasArrayAlongPathV :=
                 List.replicate e.hasArrayAlongPathV.length false,
               extractedCount := 0 } := by
  unfold extract
  exact foldl_extractStep_shape doc _

theorem foldl_parts_of_preserve {α : Type} (f : UFE → α → UFE)
    (hf : ∀ a x, (f a x).fields = a.fields ∧ (f a x).slots = a.slots ∧
      (f a x).hasArrayAlongPathV = a.hasArrayAlongPathV) :
    ∀ (z : List α) (acc : UFE),
      (z.foldl f acc).fields = acc.fields ∧
        (z.foldl f acc).slots = acc.slots ∧
        (z.foldl f acc).hasArrayAlongPathV = acc.hasArrayAlongPathV := by
  intro z
  induction z with
  | nil => exact fun acc => ⟨rfl, rfl, rfl⟩
  | cons x rest ih =>
      intro acc
      obtain ⟨i1, i2, i3⟩ := ih (f acc x)
      obtain ⟨j1, j2, j3⟩ := hf acc x
      exact ⟨i1.trans j1, i2.trans j2, i3.trans j3⟩

theorem finalizeReg_parts (e : UFE) :
    (finalizeReg e).fields = e.fields ∧
      (finalizeReg e).slots = List.replicate e.fields.length none ∧
      (finalizeReg e).hasArrayAlongPathV =
        List.replicate e.fields.length false := by
  unfold finalizeReg
  exact foldl_parts_of_preserve pfxInsert (fun a sp => ⟨rfl, rfl, rfl⟩) _ _

/-- Claim C10.  The read accessors are total: for every slot argument at or
past the slot-table size (in particular every slot value never returned by
registration, and the invalid sentinel), get returns the absent element and
hasArrayAlongPath returns false, with no out-of-bounds access. -/
theorem C10_accessors_total (paths : List FName) (doc : List (FName × BVal))
    (slot : Nat)
    (h : (finalizeReg (registerAll emptyUFE paths)).fields.length ≤ slot) :
    getSlot (extract (finalizeReg (registerAll emptyUFE paths)) doc) slot
        = none ∧
      hasArrayAlongPath
        (extract (finalizeReg (registerAll emptyUFE paths)) doc) slot
        = false := by
  have hsh := extract_shape (finalizeReg (registerAll emptyUFE paths)) doc
  obtain ⟨h1, h2, h3, h4, h5, h6, h7⟩ := hsh
  obtain ⟨g1, g2, g3⟩ := finalizeReg_parts (registerAll emptyUFE paths)
  rw [g1] at h
  have hslen : (extract (finalizeReg (registerAll emptyUFE paths))
      doc).slots.length ≤ slot := by
    rw [h6]
    simp only [List.length_replicate]
    rw [g2]
    simpa using h
  have hflen : (extract (finalizeReg (registerAll emptyUFE paths))
      doc).hasArrayAlongPathV.length ≤ slot := by
    rw [h7]
    simp only [List.length_replicate]
    rw [g3]
    simpa using h
  constructor
  · unfold getSlot
    rw [if_pos hslen]
  · unfold hasArrayAlongPath
    have : decide (slot < (extract (finalizeReg (registerAll emptyUFE paths))
        doc).hasArrayAlongPathV.length) = false := by
      simp
      omega
    rw [this]
    rfl

/-- Witness for C10: a one-path extractor read at the never-registered slot
7 and at the invalid sentinel 255. -/
theorem C10_accessors_total_witness :
    (finalizeReg (registerAll emptyUFE [['a']])).fields.length ≤ 7 ∧
      (getSlot (extract (finalizeReg (registerAll emptyUFE [['a']]))
          [(['a'], BVal.int32V 1)]) 7 = none ∧
        hasArrayAlongPath (extract (finalizeReg (registerAll emptyUFE [['a']]))
          [(['a'], BVal.int32V 1)]) 7 = false) :=
  ⟨by simp [finalizeReg, registerAll, registerField, emptyUFE, makeSignature,
      sigHash, alookup, aset, fieldAt, splitAtDot, kMaxFields, kInvalidSlot,
      findByPath, scanFields, pfxInsert],
    C10_accessors_total [['a']] [(['a'], BVal.int32V 1)] 7
      (by simp [finalizeReg, registerAll, registerField, emptyUFE,
        makeSignature, sigHash, alookup, aset, fieldAt, splitAtDot,
        kMaxFields, kInvalidSlot, findByPath, scanFields, pfxInsert])⟩

end Extractor

namespace Coalescer

/-- Setting an in-range position makes get? return the new value. -/
theorem get_set_self {α : Type} (l : List α) (i : Nat) (a : α)
    (h : i < l.length) : (l.set i a).get? i = some a := by
  rw [List.get?_eq_getElem?, List.getElem?_set_self]
  simp [List.getElem?_eq_getElem, h]

/-- Setting one position leaves get? at any other position unchanged. -/
theorem get_set_ne {α : Type} (l : List α) (i j : Nat) (a : α)
    (h : i ≠ j) : (l.set i a).get? j = l.get? j := by
  rw [List.get?_eq_getElem?, List.get?_eq_getElem?, List.getElem?_set_ne h]

/-- get? succeeding bounds the index. -/
theorem lt_of_get_eq_some {α : Type} {l : List α} {i : Nat} {a : α}
    (h : l.get? i = some a) : i < l.length := by
  rw [List.get?_eq_getElem?] at h
  exact (List.getElem?_eq_some_iff.mp h).1

/-- C4: a tryCoalesce call that finds an existing group for its namespace
whose version range, widened by the request's version, exceeds
maxVersionGap does not join the group: the registry (hence the group's
waiter list and version range) is unchanged, versionGapSkippedRequests and
actualQueries are each incremented by exactly one, and the call runs
queryFunc itself and returns its result directly. -/
theorem C4_version_gap (cfg : CConfig) (specs : List ThreadSpec)
    (s : SysState) (t : Nat) (sp : ThreadSpec) (g : CoalescingGroup)
    (hpc : s.pcs.get? t = some .entered)
    (hsp : specs.get? t = some sp)
    (hg : alookup s.groups sp.ns = some g)
    (hgap : cfg.maxVersionGap <
      max g.maxVersion sp.version - min g.minVersion sp.version) :
    step cfg specs s (.groupStep t) =
      some { s with
        stats := { s.stats with
          versionGapSkippedRequests :=
            s.stats.versionGapSkippedRequests + 1,
          actualQueries := s.stats.actualQueries + 1 },
        pcs := s.pcs.set t (.finished .gapSkip (qrToRet sp.qr)) } := by
  simp only [step, hpc, hsp, hg]
  rw [if_pos hgap]

/-- Witness for C4: two calls on the same namespace with versions 0 and 5
against maxVersionGap = 1; the second call skips the group. -/
theorem C4_version_gap_witness :
    ((runC ⟨10, 1⟩ [⟨"db.c", 0, .ok [1]⟩, ⟨"db.c", 5, .ok [2, 3]⟩]
        (initState 2) [.enter 0, .groupStep 0, .enter 1]).pcs.get? 1 =
      some .entered) ∧
    (alookup (runC ⟨10, 1⟩ [⟨"db.c", 0, .ok [1]⟩, ⟨"db.c", 5, .ok [2, 3]⟩]
        (initState 2) [.enter 0, .groupStep 0, .enter 1]).groups "db.c" =
      some ⟨1, 0, 0, true, false, [⟨0, 0⟩]⟩) ∧
    step ⟨10, 1⟩ [⟨"db.c", 0, .ok [1]⟩, ⟨"db.c", 5, .ok [2, 3]⟩]
      (runC ⟨10, 1⟩ [⟨"db.c", 0, .ok [1]⟩, ⟨"db.c", 5, .ok [2, 3]⟩]
        (initState 2) [.enter 0, .groupStep 0, .enter 1]) (.groupStep 1) =
      some { (runC ⟨10, 1⟩ [⟨"db.c", 0, .ok [1]⟩, ⟨"db.c", 5, .ok [2, 3]⟩]
          (initState 2) [.enter 0, .groupStep 0, .enter 1]) with
        stats := { (runC ⟨10, 1⟩
            [⟨"db.c", 0, .ok [1]⟩, ⟨"db.c", 5, .ok [2, 3]⟩]
            (initState 2) [.enter 0, .groupStep 0, .enter 1]).stats with
          versionGapSkippedRequests :=
            (runC ⟨10, 1⟩ [⟨"db.c", 0, .ok [1]⟩, ⟨"db.c", 5, .ok [2, 3]⟩]
              (initState 2) [.enter 0, .groupStep 0,
                .enter 1]).stats.versionGapSkippedRequests + 1,
          actualQueries := (runC ⟨10, 1⟩
            [⟨"db.c", 0, .ok [1]⟩, ⟨"db.c", 5, .ok [2, 3]⟩]
            (initState 2) [.enter 0, .groupStep 0,
              .enter 1]).stats.actualQueries + 1 },
        pcs := (runC ⟨10, 1⟩ [⟨"db.c", 0, .ok [1]⟩, ⟨"db.c", 5, .ok [2, 3]⟩]
          (initState 2) [.enter 0, .groupStep 0, .enter 1]).pcs.set 1
          (.finished .gapSkip (qrToRet (.ok [2, 3]))) } :=
  ⟨rfl, rfl,
    C4_version_gap ⟨10, 1⟩ [⟨"db.c", 0, .ok [1]⟩, ⟨"db.c", 5, .ok [2, 3]⟩]
      (runC ⟨10, 1⟩ [⟨"db.c", 0, .ok [1]⟩, ⟨"db.c", 5, .ok [2, 3]⟩]
        (initState 2) [.enter 0, .groupStep 0, .enter 1]) 1
      (⟨"db.c", 5, .ok [2, 3]⟩ : ThreadSpec)
      (⟨1, 0, 0, true, false, [⟨0, 0⟩]⟩ : CoalescingGroup)
      rfl rfl rfl (by decide)⟩

/-- Exchange law for a per-thread sum under a single pc update. -/
theorem pcSum_set (f : PC → Nat) (pcs : List PC) (t : Nat) (p p' : PC)
    (h : pcs.get? t = some p) :
    pcSum f (pcs.set t p') + f p = pcSum f pcs + f p' := by
  induction pcs generalizing t with
  | nil => simp at h
  | cons a l ih =>
    cases t with
    | zero =>
      simp only [List.get?] at h
      injection h with h
      subst h
      simp [pcSum]
      omega
    | succ m =>
      simp only [List.get?] at h
      have := ih m h
      simp [pcSum] at this ⊢
      omega

/-- Unfolding one event of a schedule. -/
theorem runC_cons (cfg : CConfig) (specs : List ThreadSpec) (s : SysState)
    (e : Ev) (evs : List Ev) :
    runC cfg specs s (e :: evs) =
      runC cfg specs ((step cfg specs s e).getD s) evs := rfl


theorem statsInv_init (n : Nat) : statsInv (initState n) := by
  simp [statsInv, initState, stats0, pcSum, pcDeficit, pcExcess,
    List.map_replicate]

theorem statsInv_step (cfg : CConfig) (specs : List ThreadSpec)
    (s s' : SysState) (ev : Ev) (hI : statsInv s)
    (h : step cfg specs s ev = some s') : statsInv s' := by
  cases ev with
  | enter t =>
    simp only [step] at h
    split at h
    · rename_i hpc hsp
      split at h
      · injection h with h
        subst h
        have hD := pcSum_set pcDeficit s.pcs t _
          (PC.finished .earlyShutdown (.error .shutdownInProgress)) hpc
        have hE := pcSum_set pcExcess s.pcs t _
          (PC.finished .earlyShutdown (.error .shutdownInProgress)) hpc
        simp only [pcDeficit, pcExcess, tagDeficit, tagExcess] at hD hE
        simp only [statsInv] at hI ⊢
        omega
      · injection h with h
        subst h
        have hD := pcSum_set pcDeficit s.pcs t _ PC.entered hpc
        have hE := pcSum_set pcExcess s.pcs t _ PC.entered hpc
        simp only [pcDeficit, pcExcess, tagDeficit, tagExcess] at hD hE
        simp only [statsInv] at hI ⊢
        omega
    · exact absurd h (by simp)
  | groupStep t =>
    simp only [step] at h
    split at h
    · rename_i sp hpc hsp
      split at h
      · injection h with h
        subst h
        have hD := pcSum_set pcDeficit s.pcs t _
          (PC.leadRunning (s.nextGeneration + 1)) hpc
        have hE := pcSum_set pcExcess s.pcs t _
          (PC.leadRunning (s.nextGeneration + 1)) hpc
        simp only [pcDeficit, pcExcess, tagDeficit, tagExcess] at hD hE
        simp only [statsInv] at hI ⊢
        omega
      · rename_i g hg
        split at h
        · injection h with h
          subst h
          have hD := pcSum_set pcDeficit s.pcs t _
            (PC.finished .gapSkip (qrToRet sp.qr)) hpc
          have hE := pcSum_set pcExcess s.pcs t _
            (PC.finished .gapSkip (qrToRet sp.qr)) hpc
          simp only [pcDeficit, pcExcess, tagDeficit, tagExcess] at hD hE
          simp only [statsInv] at hI ⊢
          omega
        · split at h
          · injection h with h
            subst h
            have hD := pcSum_set pcDeficit s.pcs t _
              (PC.finished .overflowSkip (qrToRet sp.qr)) hpc
            have hE := pcSum_set pcExcess s.pcs t _
              (PC.finished .overflowSkip (qrToRet sp.qr)) hpc
            simp only [pcDeficit, pcExcess, tagDeficit, tagExcess] at hD hE
            simp only [statsInv] at hI ⊢
            omega
          · injection h with h
            subst h
            have hD := pcSum_set pcDeficit s.pcs t _
              (PC.following g.generation) hpc
            have hE := pcSum_set pcExcess s.pcs t _
              (PC.following g.generation) hpc
            simp only [pcDeficit, pcExcess, tagDeficit, tagExcess] at hD hE
            simp only [statsInv] at hI ⊢
            omega
    · exact absurd h (by simp)
  | leadFinish t =>
    simp only [step] at h
    split at h
    · rename_i myGen sp hpc hsp
      split at h
      · injection h with h
        subst h
        have hD := pcSum_set pcDeficit s.pcs t _
          (PC.finished .leadShutdown (.error .shutdownInProgress)) hpc
        have hE := pcSum_set pcExcess s.pcs t _
          (PC.finished .leadShutdown (.error .shutdownInProgress)) hpc
        simp only [pcDeficit, pcExcess, tagDeficit, tagExcess] at hD hE
        simp only [statsInv] at hI ⊢
        omega
      · split at h
        · rename_i g hg
          split at h
          · injection h with h
            subst h
            have hD := pcSum_set pcDeficit s.pcs t _
              (PC.leadReturn (.leadDistributed (g.waiters.map Waiter.tid)))
              hpc
            have hE := pcSum_set pcExcess s.pcs t _
              (PC.leadReturn (.leadDistributed (g.waiters.map Waiter.tid)))
              hpc
            simp only [pcDeficit, pcExcess, tagDeficit, tagExcess] at hD hE
            simp only [statsInv] at hI ⊢
            omega
          · injection h with h
            subst h
            have hD := pcSum_set pcDeficit s.pcs t _
              (PC.leadReturn .leadNoGroup) hpc
            have hE := pcSum_set pcExcess s.pcs t _
              (PC.leadReturn .leadNoGroup) hpc
            simp only [pcDeficit, pcExcess, tagDeficit, tagExcess] at hD hE
            simp only [statsInv] at hI ⊢
            omega
        · injection h with h
          subst h
          have hD := pcSum_set pcDeficit s.pcs t _
            (PC.leadReturn .leadNoGroup) hpc
          have hE := pcSum_set pcExcess s.pcs t _
            (PC.leadReturn .leadNoGroup) hpc
          simp only [pcDeficit, pcExcess, tagDeficit, tagExcess] at hD hE
          simp only [statsInv] at hI ⊢
          omega
    · exact absurd h (by simp)
  | leadRet t =>
    simp only [step] at h
    split at h
    · rename_i tag w hpc hw
      injection h with h
      subst h
      have hD := pcSum_set pcDeficit s.pcs t _
        (PC.finished tag (readReturn w)) hpc
      have hE := pcSum_set pcExcess s.pcs t _
        (PC.finished tag (readReturn w)) hpc
      simp only [pcDeficit, pcExcess] at hD hE
      simp only [statsInv] at hI ⊢
      omega
    · exact absurd h (by simp)
  | wake t =>
    simp only [step] at h
    split at h
    · rename_i gen w hpc hw
      split at h
      · injection h with h
        subst h
        have hD := pcSum_set pcDeficit s.pcs t _ PC.followExit hpc
        have hE := pcSum_set pcExcess s.pcs t _ PC.followExit hpc
        simp only [pcDeficit, pcExcess, tagDeficit, tagExcess] at hD hE
        simp only [statsInv] at hI ⊢
        omega
      · exact absurd h (by simp)
    · exact absurd h (by simp)
  | followRet t =>
    simp only [step] at h
    split at h
    · rename_i w hpc hw
      split at h
      · injection h with h
        subst h
        have hD := pcSum_set pcDeficit s.pcs t _
          (PC.finished .followerShutdown (.error .shutdownInProgress)) hpc
        have hE := pcSum_set pcExcess s.pcs t _
          (PC.finished .followerShutdown (.error .shutdownInProgress)) hpc
        simp only [pcDeficit, pcExcess, tagDeficit, tagExcess] at hD hE
        simp only [statsInv] at hI ⊢
        omega
      · injection h with h
        subst h
        have hD := pcSum_set pcDeficit s.pcs t _
          (PC.finished .followerServed (readReturn w)) hpc
        have hE := pcSum_set pcExcess s.pcs t _
          (PC.finished .followerServed (readReturn w)) hpc
        simp only [pcDeficit, pcExcess, tagDeficit, tagExcess] at hD hE
        simp only [statsInv] at hI ⊢
        omega
    · exact absurd h (by simp)
  | totalTimeout t =>
    simp only [step] at h
    split at h
    · rename_i gen sp w hpc hsp hw
      split at h
      · exact absurd h (by simp)
      · injection h with h
        subst h
        have hD := pcSum_set pcDeficit s.pcs t _
          (PC.finished .followerTimeout (.error .exceededTimeLimit)) hpc
        have hE := pcSum_set pcExcess s.pcs t _
          (PC.finished .followerTimeout (.error .exceededTimeLimit)) hpc
        simp only [pcDeficit, pcExcess, tagDeficit, tagExcess] at hD hE
        simp only [statsInv] at hI ⊢
        omega
    · exact absurd h (by simp)
  | sliceTimeout t =>
    simp only [step] at h
    split at h
    · rename_i gen sp w hpc hsp hw
      split at h
      · exact absurd h (by simp)
      · split at h
        · rename_i g hg
          split at h
          · injection h with h
            subst h
            have hD := pcSum_set pcDeficit s.pcs t _
              (PC.promotedRunning gen) hpc
            have hE := pcSum_set pcExcess s.pcs t _
              (PC.promotedRunning gen) hpc
            simp only [pcDeficit, pcExcess, tagDeficit, tagExcess] at hD hE
            simp only [statsInv] at hI ⊢
            omega
          · injection h with h
            subst h
            exact hI
        · injection h with h
          subst h
          exact hI
    · exact absurd h (by simp)
  | promotedFinish t =>
    simp only [step] at h
    split at h
    · rename_i myGen sp hpc hsp
      split at h
      · injection h with h
        subst h
        have hD := pcSum_set pcDeficit s.pcs t _
          (PC.finished .promotedShutdown (.error .shutdownInProgress)) hpc
        have hE := pcSum_set pcExcess s.pcs t _
          (PC.finished .promotedShutdown (.error .shutdownInProgress)) hpc
        simp only [pcDeficit, pcExcess, tagDeficit, tagExcess] at hD hE
        simp only [statsInv] at hI ⊢
        omega
      · split at h
        · rename_i g hg
          split at h
          · injection h with h
            subst h
            have hD := pcSum_set pcDeficit s.pcs t _
              (PC.finished
                (.promotedDistributed (g.waiters.map Waiter.tid))
                (match sp.qr with
                 | .ok _ => .ok []
                 | .error c => .error (.queryError c))) hpc
            have hE := pcSum_set pcExcess s.pcs t _
              (PC.finished
                (.promotedDistributed (g.waiters.map Waiter.tid))
                (match sp.qr with
                 | .ok _ => .ok []
                 | .error c => .error (.queryError c))) hpc
            simp only [pcDeficit, pcExcess, tagDeficit, tagExcess] at hD hE
            simp only [statsInv] at hI ⊢
            omega
          · injection h with h
            subst h
            have hD := pcSum_set pcDeficit s.pcs t _
              (PC.finished .promotedNoGroup (qrToRet sp.qr)) hpc
            have hE := pcSum_set pcExcess s.pcs t _
              (PC.finished .promotedNoGroup (qrToRet sp.qr)) hpc
            simp only [pcDeficit, pcExcess, tagDeficit, tagExcess] at hD hE
            simp only [statsInv] at hI ⊢
            omega
        · injection h with h
          subst h
          have hD := pcSum_set pcDeficit s.pcs t _
            (PC.finished .promotedNoGroup (qrToRet sp.qr)) hpc
          have hE := pcSum_set pcExcess s.pcs t _
            (PC.finished .promotedNoGroup (qrToRet sp.qr)) hpc
          simp only [pcDeficit, pcExcess, tagDeficit, tagExcess] at hD hE
          simp only [statsInv] at hI ⊢
          omega
    · exact absurd h (by simp)
  | shutdownEv =>
    injection h with h
    subst h
    exact hI

theorem statsInv_runC (cfg : CConfig) (specs : List ThreadSpec)
    (s : SysState) (evs : List Ev) (hI : statsInv s) :
    statsInv (runC cfg specs s evs) := by
  induction evs generalizing s with
  | nil => exact hI
  | cons e evs ih =>
    rw [runC_cons]
    cases hstep : step cfg specs s e with
    | none => exact ih s hI
    | some s2 => exact ih s2 (statsInv_step cfg specs s s2 e hI hstep)

/-- With every call finished, the pending deficit is exactly the number of
leadShutdown plus leadNoGroup returns. -/
theorem pcSum_deficit_fin (pcs : List PC)
    (hfin : ∀ pc ∈ pcs, isFinished pc = true) :
    pcSum pcDeficit pcs =
      (pcs.filter isLeadShutdownRet).length +
        (pcs.filter isLeadNoGroupRet).length := by
  induction pcs with
  | nil => rfl
  | cons pc l ih =>
    have h1 := hfin pc (List.mem_cons_self pc l)
    have ih2 := ih (fun q hq => hfin q (List.mem_cons_of_mem pc hq))
    cases pc with
    | finished tag ret =>
      cases tag <;>
        simp [pcSum, List.filter_cons, pcDeficit, tagDeficit,
          isLeadShutdownRet, isLeadNoGroupRet] <;>
        simp [pcSum] at ih2 <;> omega
    | start => exact absurd h1 (by simp [isFinished])
    | entered => exact absurd h1 (by simp [isFinished])
    | leadRunning g => exact absurd h1 (by simp [isFinished])
    | leadReturn tg => exact absurd h1 (by simp [isFinished])
    | following g => exact absurd h1 (by simp [isFinished])
    | followExit => exact absurd h1 (by simp [isFinished])
    | promotedRunning g => exact absurd h1 (by simp [isFinished])

/-- With every call finished, the excess is exactly the number of
followerTimeout plus promotedDistributed returns. -/
theorem pcSum_excess_fin (pcs : List PC)
    (hfin : ∀ pc ∈ pcs, isFinished pc = true) :
    pcSum pcExcess pcs =
      (pcs.filter isTimeoutRet).length +
        (pcs.filter isPromotedRet).length := by
  induction pcs with
  | nil => rfl
  | cons pc l ih =>
    have h1 := hfin pc (List.mem_cons_self pc l)
    have ih2 := ih (fun q hq => hfin q (List.mem_cons_of_mem pc hq))
    cases pc with
    | finished tag ret =>
      cases tag <;>
        simp [pcSum, List.filter_cons, pcExcess, tagExcess,
          isTimeoutRet, isPromotedRet] <;>
        simp [pcSum] at ih2 <;> omega
    | start => exact absurd h1 (by simp [isFinished])
    | entered => exact absurd h1 (by simp [isFinished])
    | leadRunning g => exact absurd h1 (by simp [isFinished])
    | leadReturn tg => exact absurd h1 (by simp [isFinished])
    | following g => exact absurd h1 (by simp [isFinished])
    | followExit => exact absurd h1 (by simp [isFinished])
    | promotedRunning g => exact absurd h1 (by simp [isFinished])

/-- C3 (amended): after any schedule under which every tryCoalesce call has
returned, the statistics satisfy the exact accounting identity
totalRequests + timed-out-follower returns + promoted-distributor returns =
actualQueries + coalescedRequests + timeoutRequests + leader-shutdown
returns + leader-lost-group returns.  The claimed identity
totalRequests = actualQueries + coalescedRequests + timeoutRequests is the
special case where the four correction terms vanish; a timed-out follower
makes the right side strictly larger (it is counted both in
coalescedRequests and in timeoutRequests). -/
theorem C3_stats_identity (cfg : CConfig) (specs : List ThreadSpec)
    (n : Nat) (evs : List Ev)
    (hfin : allFinished (runC cfg specs (initState n) evs)) :
    (runC cfg specs (initState n) evs).stats.totalRequests +
        countTag isTimeoutRet (runC cfg specs (initState n) evs) +
        countTag isPromotedRet (runC cfg specs (initState n) evs) =
      (runC cfg specs (initState n) evs).stats.actualQueries +
        (runC cfg specs (initState n) evs).stats.coalescedRequests +
        (runC cfg specs (initState n) evs).stats.timeoutRequests +
        countTag isLeadShutdownRet (runC cfg specs (initState n) evs) +
        countTag isLeadNoGroupRet (runC cfg specs (initState n) evs) := by
  have hI := statsInv_runC cfg specs (initState n) evs (statsInv_init n)
  simp only [statsInv] at hI
  rw [pcSum_deficit_fin _ hfin, pcSum_excess_fin _ hfin] at hI
  simp only [countTag]
  omega

/-- Witness for C3: two coalesced calls, leader distributes, follower is
served; both finish and the identity holds with all correction terms zero
(2 = 1 + 1 + 0). -/
theorem C3_stats_identity_witness :
    allFinished (runC ⟨10, 10⟩ [⟨"db.c", 0, .ok [1]⟩, ⟨"db.c", 0, .ok [9]⟩]
        (initState 2)
        [.enter 0, .groupStep 0, .enter 1, .groupStep 1, .leadFinish 0,
          .leadRet 0, .wake 1, .followRet 1]) ∧
    (runC ⟨10, 10⟩ [⟨"db.c", 0, .ok [1]⟩, ⟨"db.c", 0, .ok [9]⟩]
        (initState 2)
        [.enter 0, .groupStep 0, .enter 1, .groupStep 1, .leadFinish 0,
          .leadRet 0, .wake 1, .followRet 1]).stats.totalRequests +
      countTag isTimeoutRet (runC ⟨10, 10⟩
        [⟨"db.c", 0, .ok [1]⟩, ⟨"db.c", 0, .ok [9]⟩] (initState 2)
        [.enter 0, .groupStep 0, .enter 1, .groupStep 1, .leadFinish 0,
          .leadRet 0, .wake 1, .followRet 1]) +
      countTag isPromotedRet (runC ⟨10, 10⟩
        [⟨"db.c", 0, .ok [1]⟩, ⟨"db.c", 0, .ok [9]⟩] (initState 2)
        [.enter 0, .groupStep 0, .enter 1, .groupStep 1, .leadFinish 0,
          .leadRet 0, .wake 1, .followRet 1]) =
    (runC ⟨10, 10⟩ [⟨"db.c", 0, .ok [1]⟩, ⟨"db.c", 0, .ok [9]⟩]
        (initState 2)
        [.enter 0, .groupStep 0, .enter 1, .groupStep 1, .leadFinish 0,
          .leadRet 0, .wake 1, .followRet 1]).stats.actualQueries +
      (runC ⟨10, 10⟩ [⟨"db.c", 0, .ok [1]⟩, ⟨"db.c", 0, .ok [9]⟩]
        (initState 2)
        [.enter 0, .groupStep 0, .enter 1, .groupStep 1, .leadFinish 0,
          .leadRet 0, .wake 1, .followRet 1]).stats.coalescedRequests +
      (runC ⟨10, 10⟩ [⟨"db.c", 0, .ok [1]⟩, ⟨"db.c", 0, .ok [9]⟩]
        (initState 2)
        [.enter 0, .groupStep 0, .enter 1, .groupStep 1, .leadFinish 0,
          .leadRet 0, .wake 1, .followRet 1]).stats.timeoutRequests +
      countTag isLeadShutdownRet (runC ⟨10, 10⟩
        [⟨"db.c", 0, .ok [1]⟩, ⟨"db.c", 0, .ok [9]⟩] (initState 2)
        [.enter 0, .groupStep 0, .enter 1, .groupStep 1, .leadFinish 0,
          .leadRet 0, .wake 1, .followRet 1]) +
      countTag isLeadNoGroupRet (runC ⟨10, 10⟩
        [⟨"db.c", 0, .ok [1]⟩, ⟨"db.c", 0, .ok [9]⟩] (initState 2)
        [.enter 0, .groupStep 0, .enter 1, .groupStep 1, .leadFinish 0,
          .leadRet 0, .wake 1, .followRet 1]) :=
  ⟨by decide,
    C3_stats_identity ⟨10, 10⟩ [⟨"db.c", 0, .ok [1]⟩, ⟨"db.c", 0, .ok [9]⟩]
      2
      [.enter 0, .groupStep 0, .enter 1, .groupStep 1, .leadFinish 0,
        .leadRet 0, .wake 1, .followRet 1] (by decide)⟩

/-- Counterexample to C3 as stated: one follower joins (coalesced = 1) and
then times out (timeout = 1) before the leader distributes (actual = 1);
every call has returned, yet totalRequests = 2 while the claimed right-hand
side is 3: the timed-out follower is counted twice. -/
theorem C3_stats_identity_counterexample :
    allFinished (runC ⟨10, 10⟩ [⟨"db.c", 0, .ok [1]⟩, ⟨"db.c", 0, .ok [9]⟩]
        (initState 2)
        [.enter 0, .groupStep 0, .enter 1, .groupStep 1, .totalTimeout 1,
          .leadFinish 0, .leadRet 0]) ∧
    ¬ ((runC ⟨10, 10⟩ [⟨"db.c", 0, .ok [1]⟩, ⟨"db.c", 0, .ok [9]⟩]
        (initState 2)
        [.enter 0, .groupStep 0, .enter 1, .groupStep 1, .totalTimeout 1,
          .leadFinish 0, .leadRet 0]).stats.totalRequests =
      (runC ⟨10, 10⟩ [⟨"db.c", 0, .ok [1]⟩, ⟨"db.c", 0, .ok [9]⟩]
          (initState 2)
          [.enter 0, .groupStep 0, .enter 1, .groupStep 1, .totalTimeout 1,
            .leadFinish 0, .leadRet 0]).stats.actualQueries +
        (runC ⟨10, 10⟩ [⟨"db.c", 0, .ok [1]⟩, ⟨"db.c", 0, .ok [9]⟩]
          (initState 2)
          [.enter 0, .groupStep 0, .enter 1, .groupStep 1, .totalTimeout 1,
            .leadFinish 0, .leadRet 0]).stats.coalescedRequests +
        (runC ⟨10, 10⟩ [⟨"db.c", 0, .ok [1]⟩, ⟨"db.c", 0, .ok [9]⟩]
          (initState 2)
          [.enter 0, .groupStep 0, .enter 1, .groupStep 1, .totalTimeout 1,
            .leadFinish 0, .leadRet 0]).stats.timeoutRequests) :=
  ⟨by decide, by decide⟩

/-! #### Reachability invariants of the coalescer and claim C1 -/

/-- Case analysis for get? after set, when the set position is in range. -/
theorem get_set_cases {α : Type} {l : List α} {t u : Nat} {a b : α}
    (ht : t < l.length) (h : (l.set t a).get? u = some b) :
    (u = t ∧ b = a) ∨ (u ≠ t ∧ l.get? u = some b) := by
  by_cases he : u = t
  · subst he
    rw [get_set_self _ _ _ ht] at h
    injection h with h
    exact Or.inl ⟨rfl, h.symm⟩
  · rw [get_set_ne _ _ _ _ (fun hh => he hh.symm)] at h
    exact Or.inr ⟨he, h⟩

/-- Reading back the state a distributor wrote gives the distributed
result. -/
theorem readReturn_writtenState (qr : QResult) :
    readReturn (writtenState qr) = qrToRet qr := by
  cases qr <;> simp [readReturn, writtenState, qrToRet]

/-- Replicated lists only contain the replicated element. -/
theorem get_replicate_eq {α : Type} {a x : α} {n i : Nat}
    (h : (List.replicate n a).get? i = some x) : x = a :=
  List.eq_of_mem_replicate (List.get?_mem h)

/-- In-range positions of a replicated list read back the element. -/
theorem get_replicate_lt {α : Type} (a : α) {n i : Nat} (h : i < n) :
    (List.replicate n a).get? i = some a := by
  rw [List.get?_eq_getElem?]
  simp [List.getElem?_replicate, h]

/-- Membership of the thread-id join. -/
theorem mem_allTids {s : SysState} {sid : Nat} :
    sid ∈ allTids s ↔
      ∃ p ∈ s.groups, ∃ w ∈ p.2.waiters, w.tid = sid := by
  unfold allTids
  constructor
  · intro h
    rw [List.mem_join] at h
    obtain ⟨ll, hll, hsid⟩ := h
    rw [List.mem_map] at hll
    obtain ⟨p, hp, rfl⟩ := hll
    rw [List.mem_map] at hsid
    obtain ⟨w, hw, hwt⟩ := hsid
    exact ⟨p, hp, w, hw, hwt⟩
  · rintro ⟨p, hp, w, hw, rfl⟩
    rw [List.mem_join]
    exact ⟨p.2.waiters.map Waiter.tid, List.mem_map_of_mem _ hp,
      List.mem_map_of_mem _ hw⟩

/-- With distinct keys, replacement membership splits cleanly. -/
theorem aset_mem_nodup {α β : Type} [DecidableEq α] {l : List (α × β)}
    {key : α} {v : β} {p : α × β} (hnd : (akeys l).Nodup)
    (h : p ∈ aset l key v) : p = (key, v) ∨ (p ∈ l ∧ p.1 ≠ key) := by
  induction l with
  | nil => simpa [aset] using h
  | cons q rest ih =>
    obtain ⟨k, w⟩ := q
    simp only [akeys, List.map_cons, List.nodup_cons] at hnd
    by_cases hk : k = key
    · subst hk
      have hset : aset ((k, w) :: rest) k v = (k, v) :: rest := by
        simp [aset]
      rw [hset, List.mem_cons] at h
      rcases h with h | h
      · exact Or.inl h
      · refine Or.inr ⟨List.mem_cons_of_mem _ h, fun hpk => ?_⟩
        exact hnd.1 (hpk ▸ List.mem_map_of_mem Prod.fst h)
    · simp only [aset, if_neg hk, List.mem_cons] at h
      rcases h with h | h
      · subst h
        exact Or.inr ⟨List.mem_cons_self _ _, hk⟩
      · rcases ih hnd.2 h with h1 | ⟨h1, h2⟩
        · exact Or.inl h1
        · exact Or.inr ⟨List.mem_cons_of_mem _ h1, h2⟩

/-- Erasure only drops entries. -/
theorem aerase_mem {α β : Type} [DecidableEq α] {l : List (α × β)}
    {key : α} {p : α × β} (h : p ∈ aerase l key) : p ∈ l :=
  (aerase_sublist l key).mem h

/-- With distinct keys, erasure removes every entry under the key. -/
theorem aerase_mem_nodup {α β : Type} [DecidableEq α] {l : List (α × β)}
    {key : α} {p : α × β} (hnd : (akeys l).Nodup)
    (h : p ∈ aerase l key) : p ∈ l ∧ p.1 ≠ key := by
  induction l with
  | nil => simp [aerase] at h
  | cons q rest ih =>
    obtain ⟨k, w⟩ := q
    simp only [akeys, List.map_cons, List.nodup_cons] at hnd
    by_cases hk : k = key
    · subst hk
      have her : aerase ((k, w) :: rest) k = rest := by simp [aerase]
      rw [her] at h
      refine ⟨List.mem_cons_of_mem _ h, fun hpk => ?_⟩
      exact hnd.1 (hpk ▸ List.mem_map_of_mem Prod.fst h)
    · simp only [aerase, if_neg hk, List.mem_cons] at h
      rcases h with h | h
      · subst h
        exact ⟨List.mem_cons_self _ _, hk⟩
      · rcases ih hnd.2 h with ⟨h1, h2⟩
        exact ⟨List.mem_cons_of_mem _ h1, h2⟩

/-- With distinct keys, an entry is determined by its key. -/
theorem keys_nodup_inj {α β : Type} {l : List (α × β)}
    (hnd : (akeys l).Nodup) {p q : α × β} (hp : p ∈ l) (hq : q ∈ l)
    (h : p.1 = q.1) : p = q := by
  induction l with
  | nil => simp at hp
  | cons a rest ih =>
    simp only [akeys, List.map_cons, List.nodup_cons] at hnd
    rcases List.mem_cons.mp hp with hp1 | hp1 <;>
      rcases List.mem_cons.mp hq with hq1 | hq1
    · rw [hp1, hq1]
    · subst hp1
      exact absurd (h ▸ List.mem_map_of_mem Prod.fst hq1) hnd.1
    · subst hq1
      exact absurd (h ▸ List.mem_map_of_mem Prod.fst hp1) hnd.1
    · exact ih hnd.2 hp1 hq1

/-- With distinct keys, membership determines the lookup. -/
theorem alookup_eq_of_mem_nodup {α β : Type} [DecidableEq α]
    {l : List (α × β)} {key : α} {v : β} (hnd : (akeys l).Nodup)
    (h : (key, v) ∈ l) : alookup l key = some v := by
  induction l with
  | nil => simp at h
  | cons q rest ih =>
    obtain ⟨k, w⟩ := q
    simp only [akeys, List.map_cons, List.nodup_cons] at hnd
    rcases List.mem_cons.mp h with h1 | h1
    · injection h1 with h1 h2
      subst h1; subst h2
      simp [alookup]
    · by_cases hk : k = key
      · subst hk
        exact absurd (List.mem_map_of_mem Prod.fst h1) hnd.1
      · simp only [alookup, if_neg hk]
        exact ih hnd.2 h1

/-- Distribution does not touch threads outside the waiter list. -/
theorem distribute_get_notmem (store : List WaiterState)
    (ws : List Waiter) (qr : QResult) (sid : Nat)
    (h : ∀ w ∈ ws, w.tid ≠ sid) :
    (distribute store ws qr).get? sid = store.get? sid := by
  induction ws generalizing store with
  | nil => rfl
  | cons w ws ih =>
    show (distribute (store.set w.tid (writtenState qr)) ws qr).get? sid = _
    rw [ih _ (fun w' hw' => h w' (List.mem_cons_of_mem _ hw'))]
    exact get_set_ne _ _ _ _ (h w (List.mem_cons_self _ _))

/-- Distribution writes the distributed state to every waiter. -/
theorem distribute_get_mem (store : List WaiterState) (ws : List Waiter)
    (qr : QResult) (sid : Nat) (hlt : sid < store.length)
    (h : sid ∈ ws.map Waiter.tid) :
    (distribute store ws qr).get? sid = some (writtenState qr) := by
  induction ws generalizing store with
  | nil => simp at h
  | cons w ws ih =>
    show (distribute (store.set w.tid (writtenState qr)) ws qr).get? sid = _
    by_cases hmem : sid ∈ ws.map Waiter.tid
    · exact ih _ (by rw [List.length_set]; exact hlt) hmem
    · have hhd : w.tid = sid := by
        rcases (by simpa using h : sid = w.tid ∨ ∃ a ∈ ws, a.tid = sid)
          with h1 | ⟨a, ha, ha2⟩
        · exact h1.symm
        · exact absurd
            (by rw [← ha2]; exact List.mem_map_of_mem Waiter.tid ha) hmem
      rw [distribute_get_notmem _ _ _ _
        (fun w' hw' hw'2 => hmem
          (by rw [← hw'2]; exact List.mem_map_of_mem Waiter.tid hw'))]
      rw [hhd]
      exact get_set_self _ _ _ (by rw [← hhd] at hlt ⊢; exact hlt)

/-- A store write through an unrelated pointer is invisible. -/
theorem storeWrite_get_ne (st : List WaiterState) (tid : Nat)
    (f : WaiterState → WaiterState) (sid : Nat) (h : tid ≠ sid) :
    (storeWrite st tid f).get? sid = st.get? sid := by
  unfold storeWrite
  split
  · exact get_set_ne _ _ _ _ h
  · rfl

/-- Folded store writes over a waiter list not containing a thread leave
its state alone. -/
theorem foldl_storeWrite_get_notmem (ws : List Waiter)
    (f : WaiterState → WaiterState) (acc : List WaiterState) (sid : Nat)
    (h : ∀ w ∈ ws, w.tid ≠ sid) :
    (ws.foldl (fun acc2 w => storeWrite acc2 w.tid f) acc).get? sid =
      acc.get? sid := by
  induction ws generalizing acc with
  | nil => rfl
  | cons w ws ih =>
    show (ws.foldl _ (storeWrite acc w.tid f)).get? sid = _
    rw [ih _ (fun w' hw' => h w' (List.mem_cons_of_mem _ hw'))]
    exact storeWrite_get_ne _ _ _ _ (h w (List.mem_cons_self _ _))

/-- The shutdown mass write does not touch a thread outside every waiter
list. -/
theorem shutdownStore_get_notmem (groups : List (String × CoalescingGroup))
    (store : List WaiterState) (sid : Nat)
    (h : ∀ p ∈ groups, ∀ w ∈ p.2.waiters, w.tid ≠ sid) :
    (shutdownStore groups store).get? sid = store.get? sid := by
  induction groups generalizing store with
  | nil => rfl
  | cons p gs ih =>
    show (shutdownStore gs _).get? sid = _
    rw [ih _ (fun p' hp' => h p' (List.mem_cons_of_mem _ hp'))]
    exact foldl_storeWrite_get_notmem _ _ _ _
      (h p (List.mem_cons_self _ _))


/-- The initial state satisfies the reachability invariant. -/
theorem cinv_init (specs : List ThreadSpec) (n : Nat) :
    CInv specs (initState n) := by
  refine ⟨?_, ?_, ?_, ?_, ?_, ?_, ?_, ?_, ?_, ?_, ?_, ?_⟩
  · simp [initState, akeys]
  · intro p hp; simp [initState] at hp
  · intro p hp; simp [initState] at hp
  · intro t gen h
    exact absurd (get_replicate_eq h) (by simp)
  · intro t sids ret h
    exact absurd (get_replicate_eq h) (by simp)
  · intro t sids h
    exact absurd (get_replicate_eq h) (by simp)
  · intro p hp; simp [initState] at hp
  · intro hf p hp; simp [initState] at hp
  · intro t h
    have hlt : t < n := by
      rcases h with h | h <;>
        simpa [initState] using lt_of_get_eq_some h
    exact get_replicate_lt initWaiter hlt
  · intro t gen sp h hsp
    exact absurd (get_replicate_eq h) (by simp)
  · intro t sids ret sp hsp h
    exact absurd (get_replicate_eq h) (by simp)
  · intro t sids sp hsp h
    rcases h with h | ⟨ret, h⟩ <;>
      exact absurd (get_replicate_eq h) (by simp)

/-- Preservation of the invariant under a step that only moves one
thread's program counter (registry, store, shutdown flag and generation
counter unchanged), for a destination pc that is none of the shapes the
invariant tracks positively. -/
theorem cinv_generic (specs : List ThreadSpec) {s s' : SysState} {t : Nat}
    {pc0 pc1 : PC}
    (hI : CInv specs s)
    (hpc : s.pcs.get? t = some pc0)
    (hg : s'.groups = s.groups) (hn : s'.nextGeneration = s.nextGeneration)
    (hf : s'.shutdownFlag = s.shutdownFlag) (hst : s'.store = s.store)
    (hp : s'.pcs = s.pcs.set t pc1)
    (h1 : pc1 ≠ .start) (h2 : pc1 ≠ .entered)
    (h3 : ∀ gen, pc1 ≠ .promotedRunning gen)
    (h4 : ∀ sids ret, pc1 ≠ .finished (.promotedDistributed sids) ret)
    (h5 : ∀ sids, pc1 ≠ .leadReturn (.promotedDistributed sids))
    (h6 : ∀ gen, pc1 ≠ .leadRunning gen)
    (h7 : ∀ sids, pc1 ≠ .leadReturn (.leadDistributed sids))
    (h8 : ∀ sids ret, pc1 ≠ .finished (.leadDistributed sids) ret)
    (h9 : s.shutdownFlag = false →
      ∀ p ∈ s.groups, ∀ w ∈ p.2.waiters, w.tid ≠ t)
    (h10 : ∀ ret2, pc1 = .finished .followerServed ret2 →
      ∃ w, s.store.get? t = some w ∧ ret2 = readReturn w) :
    CInv specs s' := by
  have htlt : t < s.pcs.length := lt_of_get_eq_some hpc
  have hat : allTids s' = allTids s := by unfold allTids; rw [hg]
  refine ⟨?_, ?_, ?_, ?_, ?_, ?_, ?_, ?_, ?_, ?_, ?_, ?_⟩
  · rw [hg]; exact hI.keys_nodup
  · rw [hg, hn]; exact hI.gen_bound
  · rw [hg]; exact hI.qip
  · intro u gen h
    rw [hp] at h
    rcases get_set_cases htlt h with ⟨rfl, hb⟩ | ⟨hne, hold⟩
    · exact absurd hb.symm (h3 gen)
    · exact hI.no_promoted u gen hold
  · intro u sids ret h
    rw [hp] at h
    rcases get_set_cases htlt h with ⟨rfl, hb⟩ | ⟨hne, hold⟩
    · exact absurd hb.symm (h4 sids ret)
    · exact hI.no_promoted_fin u sids ret hold
  · intro u sids h
    rw [hp] at h
    rcases get_set_cases htlt h with ⟨rfl, hb⟩ | ⟨hne, hold⟩
    · exact absurd hb.symm (h5 sids)
    · exact hI.no_promoted_lret u sids hold
  · intro p hp' w hw
    rw [hg] at hp'
    obtain ⟨pc, hpcw, hw1, hw2⟩ := hI.members_weak p hp' w hw
    by_cases hwt : w.tid = t
    · subst hwt
      exact ⟨pc1, by rw [hp]; exact get_set_self _ _ _ htlt, h1, h2⟩
    · exact ⟨pc, by rw [hp]; rw [get_set_ne _ _ _ _
        (fun hh => hwt hh.symm)]; exact hpcw, hw1, hw2⟩
  · intro hf0
    rw [hf] at hf0
    intro p hp' w hw
    rw [hg] at hp'
    obtain ⟨hsp, hpcw, hstw⟩ := hI.members_strong hf0 p hp' w hw
    have hwt : w.tid ≠ t := h9 hf0 p hp' w hw
    refine ⟨hsp, ?_, by rw [hst]; exact hstw⟩
    rw [hp, get_set_ne _ _ _ _ (fun hh => hwt hh.symm)]
    exact hpcw
  · intro u hu
    rw [hp] at hu
    have hold : s.pcs.get? u = some .start ∨ s.pcs.get? u = some .entered := by
      rcases hu with hu | hu <;>
        rcases get_set_cases htlt hu with ⟨rfl, hb⟩ | ⟨hne, hg2⟩
      · exact absurd hb.symm h1
      · exact Or.inl hg2
      · exact absurd hb.symm h2
      · exact Or.inr hg2
    rw [hst]
    exact hI.fresh_store u hold
  · intro u gen sp h hsp
    rw [hp] at h
    rcases get_set_cases htlt h with ⟨rfl, hb⟩ | ⟨hne, hold⟩
    · exact absurd hb.symm (h6 gen)
    · obtain ⟨hb, hmem⟩ := hI.leader_mem u gen sp hold hsp
      refine ⟨by rw [hn]; exact hb, ?_⟩
      intro g hgl hgen
      rw [hg] at hgl
      exact hmem g hgl hgen
  · intro u sids ret sp hsp h
    rw [hp] at h
    rcases get_set_cases htlt h with ⟨rfl, hb⟩ | ⟨hne, hold⟩
    · exact absurd hb.symm (h8 sids ret)
    · exact hI.distrib_ret u sids ret sp hsp hold
  · intro u sids sp hsp hcase
    have hold : s.pcs.get? u = some (.leadReturn (.leadDistributed sids)) ∨
        ∃ ret, s.pcs.get? u =
          some (.finished (.leadDistributed sids) ret) := by
      rcases hcase with hc | ⟨ret, hc⟩
      · rw [hp] at hc
        rcases get_set_cases htlt hc with ⟨rfl, hb⟩ | ⟨hne, hg2⟩
        · exact absurd hb.symm (h7 sids)
        · exact Or.inl hg2
      · rw [hp] at hc
        rcases get_set_cases htlt hc with ⟨rfl, hb⟩ | ⟨hne, hg2⟩
        · exact absurd hb.symm (h8 sids ret)
        · exact Or.inr ⟨ret, hg2⟩
    obtain ⟨hmem, hsids⟩ := hI.distrib u sids sp hsp hold
    refine ⟨hmem, fun sid hsid => ?_⟩
    obtain ⟨hstore, hnotin, ⟨pc', hpc', hq1, hq2⟩, hserved⟩ :=
      hsids sid hsid
    refine ⟨by rw [hst]; exact hstore, by rw [hat]; exact hnotin, ?_, ?_⟩
    · by_cases hsidt : sid = t
      · subst hsidt
        exact ⟨pc1, by rw [hp]; exact get_set_self _ _ _ htlt, h1, h2⟩
      · exact ⟨pc', by rw [hp]; rw [get_set_ne _ _ _ _
          (fun hh => hsidt hh.symm)]; exact hpc', hq1, hq2⟩
    · intro ret2 hr2
      rw [hp] at hr2
      rcases get_set_cases htlt hr2 with ⟨rfl, hb⟩ | ⟨hne, hg2⟩
      · obtain ⟨w, hwget, hret2⟩ := h10 ret2 hb.symm
        rw [hstore] at hwget
        injection hwget with hwget
        rw [hret2, ← hwget, readReturn_writtenState]
      · exact hserved ret2 hg2

theorem cinv_enter (cfg : CConfig) (specs : List ThreadSpec)
    {s s' : SysState} {t : Nat} (hI : CInv specs s)
    (h : step cfg specs s (.enter t) = some s') : CInv specs s' := by
  simp only [step] at h
  split at h
  · rename_i hpc hsp
    split at h
    · rename_i hflag
      injection h with h
      subst h
      refine cinv_generic specs hI hpc rfl rfl rfl rfl rfl
        (by simp) (by simp) (by intro gen; simp) (by intro sids ret; simp)
        (by intro sids; simp) (by intro gen; simp) (by intro sids; simp)
        (by intro sids ret; simp) ?_ (by intro ret2 hr; simp at hr)
      intro hf0
      rw [hflag] at hf0
      cases hf0
    · rename_i hflag
      injection h with h
      subst h
      have htlt : t < s.pcs.length := lt_of_get_eq_some hpc
      have hnm : ∀ p ∈ s.groups, ∀ w ∈ p.2.waiters, w.tid ≠ t := by
        intro p hp' w hw hwt
        obtain ⟨pc, hpcw, hq1, hq2⟩ := hI.members_weak p hp' w hw
        rw [hwt, hpc] at hpcw
        injection hpcw with he
        exact hq1 he.symm
      have hat : allTids { s with
          stats := { s.stats with
            totalRequests := s.stats.totalRequests + 1 },
          pcs := s.pcs.set t .entered } = allTids s := rfl
      refine ⟨hI.keys_nodup, hI.gen_bound, hI.qip, ?_, ?_, ?_, ?_, ?_, ?_,
        ?_, ?_, ?_⟩
      · intro u gen h'
        rcases get_set_cases htlt h' with ⟨rfl, hb⟩ | ⟨hne, hold⟩
        · exact absurd hb (by simp)
        · exact hI.no_promoted u gen hold
      · intro u sids ret h'
        rcases get_set_cases htlt h' with ⟨rfl, hb⟩ | ⟨hne, hold⟩
        · exact absurd hb (by simp)
        · exact hI.no_promoted_fin u sids ret hold
      · intro u sids h'
        rcases get_set_cases htlt h' with ⟨rfl, hb⟩ | ⟨hne, hold⟩
        · exact absurd hb (by simp)
        · exact hI.no_promoted_lret u sids hold
      · intro p hp' w hw
        obtain ⟨pc, hpcw, hq1, hq2⟩ := hI.members_weak p hp' w hw
        exact ⟨pc, by
          rw [show ({ s with
            stats := { s.stats with
              totalRequests := s.stats.totalRequests + 1 },
            pcs := s.pcs.set t .entered } : SysState).pcs =
              s.pcs.set t .entered from rfl,
            get_set_ne _ _ _ _ (fun hh => hnm p hp' w hw hh.symm)]
          exact hpcw, hq1, hq2⟩
      · intro hf0 p hp' w hw
        obtain ⟨hsp', hpcw, hstw⟩ := hI.members_strong hf0 p hp' w hw
        refine ⟨hsp', ?_, hstw⟩
        show (s.pcs.set t .entered).get? w.tid = _ ∨
          (s.pcs.set t .entered).get? w.tid = _
        rw [get_set_ne _ _ _ _ (fun hh => hnm p hp' w hw hh.symm)]
        exact hpcw
      · intro u hu
        have hold : s.pcs.get? u = some .start ∨
            s.pcs.get? u = some .entered := by
          rcases hu with hu | hu <;>
            rcases get_set_cases htlt hu with ⟨rfl, hb⟩ | ⟨hne, hg2⟩
          · exact absurd hb (by simp)
          · exact Or.inl hg2
          · exact Or.inl hpc
          · exact Or.inr hg2
        exact hI.fresh_store u hold
      · intro u gen sp h' hsp'
        rcases get_set_cases htlt h' with ⟨rfl, hb⟩ | ⟨hne, hold⟩
        · exact absurd hb (by simp)
        · exact hI.leader_mem u gen sp hold hsp'
      · intro u sids ret sp hsp' h'
        rcases get_set_cases htlt h' with ⟨rfl, hb⟩ | ⟨hne, hold⟩
        · exact absurd hb (by simp)
        · exact hI.distrib_ret u sids ret sp hsp' hold
      · intro u sids sp hsp' hcase
        have hold : s.pcs.get? u =
            some (.leadReturn (.leadDistributed sids)) ∨
            ∃ ret, s.pcs.get? u =
              some (.finished (.leadDistributed sids) ret) := by
          rcases hcase with hc | ⟨ret, hc⟩
          · rcases get_set_cases htlt hc with ⟨rfl, hb⟩ | ⟨hne, hg2⟩
            · exact absurd hb (by simp)
            · exact Or.inl hg2
          · rcases get_set_cases htlt hc with ⟨rfl, hb⟩ | ⟨hne, hg2⟩
            · exact absurd hb (by simp)
            · exact Or.inr ⟨ret, hg2⟩
        obtain ⟨hmem, hsids⟩ := hI.distrib u sids sp hsp' hold
        refine ⟨hmem, fun sid hsid => ?_⟩
        obtain ⟨hstore, hnotin, ⟨pc', hpc', hq1, hq2⟩, hserved⟩ :=
          hsids sid hsid
        have hsidt : sid ≠ t := by
          intro hh
          rw [hh, hpc] at hpc'
          injection hpc' with he
          exact hq1 he.symm
        refine ⟨hstore, by rw [hat]; exact hnotin, ?_, ?_⟩
        · exact ⟨pc', by
            show (s.pcs.set t .entered).get? sid = _
            rw [get_set_ne _ _ _ _ (fun hh => hsidt hh.symm)]
            exact hpc', hq1, hq2⟩
        · intro ret2 hr2
          rcases get_set_cases htlt hr2 with ⟨rfl, hb⟩ | ⟨hne, hg2⟩
          · exact absurd hb (by simp)
          · exact hserved ret2 hg2
  · exact absurd h (by simp)

theorem cinv_wake (cfg : CConfig) (specs : List ThreadSpec)
    {s s' : SysState} {t : Nat} (hI : CInv specs s)
    (h : step cfg specs s (.wake t) = some s') : CInv specs s' := by
  simp only [step] at h
  split at h
  · rename_i gen w hpc hw
    split at h
    · rename_i hcond
      injection h with h
      subst h
      refine cinv_generic specs hI hpc rfl rfl rfl rfl rfl
        (by simp) (by simp) (by intro gen2; simp) (by intro sids ret; simp)
        (by intro sids; simp) (by intro gen2; simp) (by intro sids; simp)
        (by intro sids ret; simp) ?_ (by intro ret2 hr; simp at hr)
      intro hf0 p hp' w' hw' hwt
      obtain ⟨_, _, hstw⟩ := hI.members_strong hf0 p hp' w' hw'
      rw [hwt, hw] at hstw
      injection hstw with he
      rw [hf0] at hcond
      simp at hcond
      rw [he] at hcond
      simp [initWaiter] at hcond
    · exact absurd h (by simp)
  · exact absurd h (by simp)

theorem cinv_followRet (cfg : CConfig) (specs : List ThreadSpec)
    {s s' : SysState} {t : Nat} (hI : CInv specs s)
    (h : step cfg specs s (.followRet t) = some s') : CInv specs s' := by
  simp only [step] at h
  split at h
  · rename_i w hpc hw
    split at h
    · rename_i hflag
      injection h with h
      subst h
      refine cinv_generic specs hI hpc rfl rfl rfl rfl rfl
        (by simp) (by simp) (by intro gen2; simp) (by intro sids ret; simp)
        (by intro sids; simp) (by intro gen2; simp) (by intro sids; simp)
        (by intro sids ret; simp) ?_ (by intro ret2 hr; simp at hr)
      intro hf0
      rw [hflag] at hf0
      cases hf0
    · rename_i hflag
      injection h with h
      subst h
      refine cinv_generic specs hI hpc rfl rfl rfl rfl rfl
        (by simp) (by simp) (by intro gen2; simp) (by intro sids ret; simp)
        (by intro sids; simp) (by intro gen2; simp) (by intro sids; simp)
        (by intro sids ret; simp) ?_ ?_
      · intro hf0 p hp' w' hw' hwt
        obtain ⟨_, hpcw, _⟩ := hI.members_strong hf0 p hp' w' hw'
        rw [hwt, hpc] at hpcw
        rcases hpcw with hc | hc <;> exact PC.noConfusion (Option.some.inj hc)
      · intro ret2 hr
        refine ⟨w, hw, ?_⟩
        injection hr with ha hb
        exact hb.symm
  · exact absurd h (by simp)

theorem cinv_groupStep (cfg : CConfig) (specs : List ThreadSpec)
    {s s' : SysState} {t : Nat} (hI : CInv specs s)
    (h : step cfg specs s (.groupStep t) = some s') : CInv specs s' := by
  simp only [step] at h
  split at h
  · rename_i sp hpc hsp
    have htlt : t < s.pcs.length := lt_of_get_eq_some hpc
    have hnm : ∀ p ∈ s.groups, ∀ w ∈ p.2.waiters, w.tid ≠ t := by
      intro p hp' w hw hwt
      obtain ⟨pc, hpcw, hq1, hq2⟩ := hI.members_weak p hp' w hw
      rw [hwt, hpc] at hpcw
      injection hpcw with he
      exact hq2 he.symm
    split at h
    · -- no existing group: create one and lead
      rename_i hnone
      injection h with h
      subst h
      have hkeyne : ∀ p ∈ s.groups, p.1 ≠ sp.ns := by
        intro p hp' hpk
        have hsome : alookup s.groups sp.ns = some p.2 := by
          rw [← hpk]
          exact alookup_eq_of_mem_nodup hI.keys_nodup hp'
        rw [hnone] at hsome
        cases hsome
      refine ⟨?_, ?_, ?_, ?_, ?_, ?_, ?_, ?_, ?_, ?_, ?_, ?_⟩
      · exact aset_keys_nodup _ _ _ hI.keys_nodup
      · intro p hp'
        rcases aset_mem hp' with rfl | hp2
        · exact Nat.le_refl _
        · exact Nat.le_trans (hI.gen_bound p hp2) (Nat.le_succ _)
      · intro p hp'
        rcases aset_mem hp' with rfl | hp2
        · rfl
        · exact hI.qip p hp2
      · intro u gen h'
        rcases get_set_cases htlt h' with ⟨rfl, hb⟩ | ⟨hne, hold⟩
        · exact absurd hb (by simp)
        · exact hI.no_promoted u gen hold
      · intro u sids ret h'
        rcases get_set_cases htlt h' with ⟨rfl, hb⟩ | ⟨hne, hold⟩
        · exact absurd hb (by simp)
        · exact hI.no_promoted_fin u sids ret hold
      · intro u sids h'
        rcases get_set_cases htlt h' with ⟨rfl, hb⟩ | ⟨hne, hold⟩
        · exact absurd hb (by simp)
        · exact hI.no_promoted_lret u sids hold
      · intro p hp' w hw
        rcases aset_mem hp' with rfl | hp2
        · have hwt : w = ⟨t, sp.version⟩ := by simpa using hw
          subst hwt
          exact ⟨.leadRunning (s.nextGeneration + 1),
            get_set_self _ _ _ htlt, by simp, by simp⟩
        · obtain ⟨pc, hpcw, hq1, hq2⟩ := hI.members_weak p hp2 w hw
          exact ⟨pc, by
            show (s.pcs.set t _).get? w.tid = _
            rw [get_set_ne _ _ _ _ (fun hh => hnm p hp2 w hw hh.symm)]
            exact hpcw, hq1, hq2⟩
      · intro hf0 p hp' w hw
        rcases aset_mem hp' with rfl | hp2
        · have hwt : w = ⟨t, sp.version⟩ := by simpa using hw
          subst hwt
          exact ⟨⟨sp, hsp, rfl⟩, Or.inl (get_set_self _ _ _ htlt),
            hI.fresh_store t (Or.inr hpc)⟩
        · obtain ⟨hsp', hpcw, hstw⟩ := hI.members_strong hf0 p hp2 w hw
          refine ⟨hsp', ?_, hstw⟩
          show (s.pcs.set t _).get? w.tid = _ ∨
            (s.pcs.set t _).get? w.tid = _
          rw [get_set_ne _ _ _ _ (fun hh => hnm p hp2 w hw hh.symm)]
          exact hpcw
      · intro u hu
        have hold : s.pcs.get? u = some .start ∨
            s.pcs.get? u = some .entered := by
          rcases hu with hu | hu <;>
            rcases get_set_cases htlt hu with ⟨rfl, hb⟩ | ⟨hne, hg2⟩
          · exact absurd hb (by simp)
          · exact Or.inl hg2
          · exact absurd hb (by simp)
          · exact Or.inr hg2
        exact hI.fresh_store u hold
      · intro u gen' sp' h' hsp'
        rcases get_set_cases htlt h' with ⟨rfl, hb⟩ | ⟨hne, hold⟩
        · injection hb with hb
          rw [hsp] at hsp'
          injection hsp' with hsp'
          subst hsp'
          constructor
          · rw [← hb]
          · intro g' hgl' hgen'
            rw [alookup_aset_self] at hgl'
            injection hgl' with hgl'
            rw [← hgl']
            simp
        · obtain ⟨hbound, hmem2⟩ := hI.leader_mem u gen' sp' hold hsp'
          refine ⟨Nat.le_trans hbound (Nat.le_succ _), ?_⟩
          intro g' hgl' hgen'
          by_cases hnseq : sp'.ns = sp.ns
          · rw [hnseq, alookup_aset_self] at hgl'
            injection hgl' with hgl'
            rw [← hgl'] at hgen'
            simp at hgen'
            omega
          · rw [alookup_aset_ne _ _ _ _ hnseq] at hgl'
            exact hmem2 g' hgl' hgen'
      · intro u sids ret sp' hsp' h'
        rcases get_set_cases htlt h' with ⟨rfl, hb⟩ | ⟨hne, hold⟩
        · exact absurd hb (by simp)
        · exact hI.distrib_ret u sids ret sp' hsp' hold
      · intro u sids sp' hsp' hcase
        have hold : s.pcs.get? u =
            some (.leadReturn (.leadDistributed sids)) ∨
            ∃ ret, s.pcs.get? u =
              some (.finished (.leadDistributed sids) ret) := by
          rcases hcase with hc | ⟨ret, hc⟩
          · rcases get_set_cases htlt hc with ⟨rfl, hb⟩ | ⟨hne, hg2⟩
            · exact absurd hb (by simp)
            · exact Or.inl hg2
          · rcases get_set_cases htlt hc with ⟨rfl, hb⟩ | ⟨hne, hg2⟩
            · exact absurd hb (by simp)
            · exact Or.inr ⟨ret, hg2⟩
        obtain ⟨hmem, hsids⟩ := hI.distrib u sids sp' hsp' hold
        refine ⟨hmem, fun sid hsid => ?_⟩
        obtain ⟨hstore, hnotin, ⟨pc', hpc', hq1, hq2⟩, hserved⟩ :=
          hsids sid hsid
        have hsidt : sid ≠ t := by
          intro hh
          rw [hh, hpc] at hpc'
          injection hpc' with he
          exact hq2 he.symm
        refine ⟨hstore, ?_, ?_, ?_⟩
        · intro hat
          rcases mem_allTids.mp hat with ⟨p, hp', w', hw', htid⟩
          rcases aset_mem hp' with rfl | hp2
          · have hwt : w' = ⟨t, sp.version⟩ := by simpa using hw'
            rw [hwt] at htid
            exact hsidt htid.symm
          · exact hnotin (mem_allTids.mpr ⟨p, hp2, w', hw', htid⟩)
        · exact ⟨pc', by
            show (s.pcs.set t _).get? sid = _
            rw [get_set_ne _ _ _ _ (fun hh => hsidt hh.symm)]
            exact hpc', hq1, hq2⟩
        · intro ret2 hr2
          rcases get_set_cases htlt hr2 with ⟨rfl, hb⟩ | ⟨hne, hg2⟩
          · exact absurd hb (by simp)
          · exact hserved ret2 hg2
    · -- existing group
      rename_i g hgl
      have hgmem : (sp.ns, g) ∈ s.groups := alookup_mem hgl
      have h9c : s.shutdownFlag = false →
          ∀ p ∈ s.groups, ∀ w ∈ p.2.waiters, w.tid ≠ t := by
        intro hf0 p hp' w hw hwt
        obtain ⟨_, hpcw, _⟩ := hI.members_strong hf0 p hp' w hw
        rw [hwt, hpc] at hpcw
        rcases hpcw with hc | hc <;>
          exact PC.noConfusion (Option.some.inj hc)
      split at h
      · -- version gap: skip the group
        injection h with h
        subst h
        exact cinv_generic specs hI hpc rfl rfl rfl rfl rfl
          (by simp) (by simp) (by intro gen2; simp)
          (by intro sids ret; simp) (by intro sids; simp)
          (by intro gen2; simp) (by intro sids; simp)
          (by intro sids ret; simp) h9c (by intro ret2 hr; simp at hr)
      · split at h
        · -- overflow: skip the group
          injection h with h
          subst h
          exact cinv_generic specs hI hpc rfl rfl rfl rfl rfl
            (by simp) (by simp) (by intro gen2; simp)
            (by intro sids ret; simp) (by intro sids; simp)
            (by intro gen2; simp) (by intro sids; simp)
            (by intro sids ret; simp) h9c (by intro ret2 hr; simp at hr)
        · -- join the group as a follower
          injection h with h
          subst h
          refine ⟨?_, ?_, ?_, ?_, ?_, ?_, ?_, ?_, ?_, ?_, ?_, ?_⟩
          · exact aset_keys_nodup _ _ _ hI.keys_nodup
          · intro p hp'
            rcases aset_mem hp' with rfl | hp2
            · exact hI.gen_bound (sp.ns, g) hgmem
            · exact hI.gen_bound p hp2
          · intro p hp'
            rcases aset_mem hp' with rfl | hp2
            · exact hI.qip (sp.ns, g) hgmem
            · exact hI.qip p hp2
          · intro u gen h'
            rcases get_set_cases htlt h' with ⟨rfl, hb⟩ | ⟨hne, hold⟩
            · exact absurd hb (by simp)
            · exact hI.no_promoted u gen hold
          · intro u sids ret h'
            rcases get_set_cases htlt h' with ⟨rfl, hb⟩ | ⟨hne, hold⟩
            · exact absurd hb (by simp)
            · exact hI.no_promoted_fin u sids ret hold
          · intro u sids h'
            rcases get_set_cases htlt h' with ⟨rfl, hb⟩ | ⟨hne, hold⟩
            · exact absurd hb (by simp)
            · exact hI.no_promoted_lret u sids hold
          · intro p hp' w hw
            rcases aset_mem hp' with rfl | hp2
            · rcases List.mem_append.mp hw with hw2 | hw2
              · obtain ⟨pc, hpcw, hq1, hq2⟩ :=
                  hI.members_weak (sp.ns, g) hgmem w hw2
                exact ⟨pc, by
                  show (s.pcs.set t _).get? w.tid = _
                  rw [get_set_ne _ _ _ _
                    (fun hh => hnm (sp.ns, g) hgmem w hw2 hh.symm)]
                  exact hpcw, hq1, hq2⟩
              · have hwt : w = ⟨t, sp.version⟩ := by simpa using hw2
                subst hwt
                exact ⟨.following g.generation, get_set_self _ _ _ htlt,
                  by simp, by simp⟩
            · obtain ⟨pc, hpcw, hq1, hq2⟩ := hI.members_weak p hp2 w hw
              exact ⟨pc, by
                show (s.pcs.set t _).get? w.tid = _
                rw [get_set_ne _ _ _ _ (fun hh => hnm p hp2 w hw hh.symm)]
                exact hpcw, hq1, hq2⟩
          · intro hf0 p hp' w hw
            rcases aset_mem hp' with rfl | hp2
            · rcases List.mem_append.mp hw with hw2 | hw2
              · obtain ⟨hsp', hpcw, hstw⟩ :=
                  hI.members_strong hf0 (sp.ns, g) hgmem w hw2
                refine ⟨hsp', ?_, hstw⟩
                show (s.pcs.set t _).get? w.tid = _ ∨
                  (s.pcs.set t _).get? w.tid = _
                rw [get_set_ne _ _ _ _
                  (fun hh => hnm (sp.ns, g) hgmem w hw2 hh.symm)]
                exact hpcw
              · have hwt : w = ⟨t, sp.version⟩ := by simpa using hw2
                subst hwt
                exact ⟨⟨sp, hsp, rfl⟩, Or.inr (get_set_self _ _ _ htlt),
                  hI.fresh_store t (Or.inr hpc)⟩
            · obtain ⟨hsp', hpcw, hstw⟩ := hI.members_strong hf0 p hp2 w hw
              refine ⟨hsp', ?_, hstw⟩
              show (s.pcs.set t _).get? w.tid = _ ∨
                (s.pcs.set t _).get? w.tid = _
              rw [get_set_ne _ _ _ _ (fun hh => hnm p hp2 w hw hh.symm)]
              exact hpcw
          · intro u hu
            have hold : s.pcs.get? u = some .start ∨
                s.pcs.get? u = some .entered := by
              rcases hu with hu | hu <;>
                rcases get_set_cases htlt hu with ⟨rfl, hb⟩ | ⟨hne, hg2⟩
              · exact absurd hb (by simp)
              · exact Or.inl hg2
              · exact absurd hb (by simp)
              · exact Or.inr hg2
            exact hI.fresh_store u hold
          · intro u gen' sp' h' hsp'
            rcases get_set_cases htlt h' with ⟨rfl, hb⟩ | ⟨hne, hold⟩
            · exact absurd hb (by simp)
            · obtain ⟨hbound, hmem2⟩ := hI.leader_mem u gen' sp' hold hsp'
              refine ⟨hbound, ?_⟩
              intro g' hgl' hgen'
              by_cases hnseq : sp'.ns = sp.ns
              · rw [hnseq, alookup_aset_self] at hgl'
                injection hgl' with hgl'
                rw [← hgl'] at hgen' ⊢
                have hu : u ∈ g.waiters.map Waiter.tid := by
                  refine hmem2 g ?_ ?_
                  · rw [hnseq]; exact hgl
                  · simpa using hgen'
                simp only [List.map_append]
                exact List.mem_append_left _ hu
              · rw [alookup_aset_ne _ _ _ _ hnseq] at hgl'
                exact hmem2 g' hgl' hgen'
          · intro u sids ret sp' hsp' h'
            rcases get_set_cases htlt h' with ⟨rfl, hb⟩ | ⟨hne, hold⟩
            · exact absurd hb (by simp)
            · exact hI.distrib_ret u sids ret sp' hsp' hold
          · intro u sids sp' hsp' hcase
            have hold : s.pcs.get? u =
                some (.leadReturn (.leadDistributed sids)) ∨
                ∃ ret, s.pcs.get? u =
                  some (.finished (.leadDistributed sids) ret) := by
              rcases hcase with hc | ⟨ret, hc⟩
              · rcases get_set_cases htlt hc with ⟨rfl, hb⟩ | ⟨hne, hg2⟩
                · exact absurd hb (by simp)
                · exact Or.inl hg2
              · rcases get_set_cases htlt hc with ⟨rfl, hb⟩ | ⟨hne, hg2⟩
                · exact absurd hb (by simp)
                · exact Or.inr ⟨ret, hg2⟩
            obtain ⟨hmem, hsids⟩ := hI.distrib u sids sp' hsp' hold
            refine ⟨hmem, fun sid hsid => ?_⟩
            obtain ⟨hstore, hnotin, ⟨pc', hpc', hq1, hq2⟩, hserved⟩ :=
              hsids sid hsid
            have hsidt : sid ≠ t := by
              intro hh
              rw [hh, hpc] at hpc'
              injection hpc' with he
              exact hq2 he.symm
            refine ⟨hstore, ?_, ?_, ?_⟩
            · intro hat
              rcases mem_allTids.mp hat with ⟨p, hp', w', hw', htid⟩
              rcases aset_mem hp' with rfl | hp2
              · rcases List.mem_append.mp hw' with hw2 | hw2
                · exact hnotin
                    (mem_allTids.mpr ⟨(sp.ns, g), hgmem, w', hw2, htid⟩)
                · have hwt : w' = ⟨t, sp.version⟩ := by simpa using hw2
                  rw [hwt] at htid
                  exact hsidt htid.symm
              · exact hnotin (mem_allTids.mpr ⟨p, hp2, w', hw', htid⟩)
            · exact ⟨pc', by
                show (s.pcs.set t _).get? sid = _
                rw [get_set_ne _ _ _ _ (fun hh => hsidt hh.symm)]
                exact hpc', hq1, hq2⟩
            · intro ret2 hr2
              rcases get_set_cases htlt hr2 with ⟨rfl, hb⟩ | ⟨hne, hg2⟩
              · exact absurd hb (by simp)
              · exact hserved ret2 hg2
  · exact absurd h (by simp)

theorem cinv_leadRet (cfg : CConfig) (specs : List ThreadSpec)
    {s s' : SysState} {t : Nat} (hI : CInv specs s)
    (h : step cfg specs s (.leadRet t) = some s') : CInv specs s' := by
  simp only [step] at h
  split at h
  · rename_i tag w hpc hw
    injection h with h
    subst h
    have htlt : t < s.pcs.length := lt_of_get_eq_some hpc
    refine ⟨hI.keys_nodup, hI.gen_bound, hI.qip, ?_, ?_, ?_, ?_, ?_, ?_,
      ?_, ?_, ?_⟩
    · intro u gen h'
      rcases get_set_cases htlt h' with ⟨rfl, hb⟩ | ⟨hne, hold⟩
      · exact absurd hb (by simp)
      · exact hI.no_promoted u gen hold
    · intro u sids ret h'
      rcases get_set_cases htlt h' with ⟨rfl, hb⟩ | ⟨hne, hold⟩
      · injection hb with hb1 hb2
        rw [← hb1] at hpc
        exact hI.no_promoted_lret u sids hpc
      · exact hI.no_promoted_fin u sids ret hold
    · intro u sids h'
      rcases get_set_cases htlt h' with ⟨rfl, hb⟩ | ⟨hne, hold⟩
      · exact PC.noConfusion hb
      · exact hI.no_promoted_lret u sids hold
    · intro p hp' w' hw'
      obtain ⟨pc, hpcw, hq1, hq2⟩ := hI.members_weak p hp' w' hw'
      by_cases hwt : w'.tid = t
      · rw [hwt]
        exact ⟨.finished tag (readReturn w), get_set_self _ _ _ htlt,
          by simp, by simp⟩
      · exact ⟨pc, by
          show (s.pcs.set t _).get? w'.tid = _
          rw [get_set_ne _ _ _ _ (fun hh => hwt hh.symm)]
          exact hpcw, hq1, hq2⟩
    · intro hf0 p hp' w' hw'
      obtain ⟨hsp', hpcw, hstw⟩ := hI.members_strong hf0 p hp' w' hw'
      have hwt : w'.tid ≠ t := by
        intro hh
        rw [hh, hpc] at hpcw
        rcases hpcw with hc | hc <;>
          exact PC.noConfusion (Option.some.inj hc)
      refine ⟨hsp', ?_, hstw⟩
      show (s.pcs.set t _).get? w'.tid = _ ∨ (s.pcs.set t _).get? w'.tid = _
      rw [get_set_ne _ _ _ _ (fun hh => hwt hh.symm)]
      exact hpcw
    · intro u hu
      have hold : s.pcs.get? u = some .start ∨
          s.pcs.get? u = some .entered := by
        rcases hu with hu | hu <;>
          rcases get_set_cases htlt hu with ⟨rfl, hb⟩ | ⟨hne, hg2⟩
        · exact absurd hb (by simp)
        · exact Or.inl hg2
        · exact absurd hb (by simp)
        · exact Or.inr hg2
      exact hI.fresh_store u hold
    · intro u gen sp h' hsp'
      rcases get_set_cases htlt h' with ⟨rfl, hb⟩ | ⟨hne, hold⟩
      · exact absurd hb (by simp)
      · exact hI.leader_mem u gen sp hold hsp'
    · intro u sids ret sp hsp' h'
      rcases get_set_cases htlt h' with ⟨rfl, hb⟩ | ⟨hne, hold⟩
      · injection hb with hb1 hb2
        rw [← hb1] at hpc
        obtain ⟨hmem, hsids⟩ := hI.distrib u sids sp hsp' (Or.inl hpc)
        obtain ⟨hstore, _, _, _⟩ := hsids u hmem
        rw [hw] at hstore
        injection hstore with hwe
        rw [hb2, hwe, readReturn_writtenState]
      · exact hI.distrib_ret u sids ret sp hsp' hold
    · intro u sids sp hsp' hcase
      have hserved_t : ∀ sp2 : ThreadSpec,
          s.store.get? t = some (writtenState sp2.qr) →
          ∀ ret2, (PC.finished .followerServed ret2 : PC) =
            .finished tag (readReturn w) → ret2 = qrToRet sp2.qr := by
        intro sp2 hst2 ret2 hb
        injection hb with hb1 hb2
        rw [hw] at hst2
        injection hst2 with hwe
        rw [hb2, hwe, readReturn_writtenState]
      have hold : s.pcs.get? u =
          some (.leadReturn (.leadDistributed sids)) ∨
          ∃ ret, s.pcs.get? u =
            some (.finished (.leadDistributed sids) ret) := by
        rcases hcase with hc | ⟨ret, hc⟩
        · rcases get_set_cases htlt hc with ⟨rfl, hb⟩ | ⟨hne, hg2⟩
          · exact PC.noConfusion hb
          · exact Or.inl hg2
        · rcases get_set_cases htlt hc with ⟨rfl, hb⟩ | ⟨hne, hg2⟩
          · injection hb with hb1 hb2
            rw [← hb1] at hpc
            exact Or.inl hpc
          · exact Or.inr ⟨ret, hg2⟩
      obtain ⟨hmem, hsids⟩ := hI.distrib u sids sp hsp' hold
      refine ⟨hmem, fun sid hsid => ?_⟩
      obtain ⟨hstore, hnotin, ⟨pc', hpc', hq1, hq2⟩, hserved⟩ :=
        hsids sid hsid
      refine ⟨hstore, hnotin, ?_, ?_⟩
      · by_cases hsidt : sid = t
        · rw [hsidt]
          exact ⟨.finished tag (readReturn w), get_set_self _ _ _ htlt,
            by simp, by simp⟩
        · exact ⟨pc', by
            show (s.pcs.set t _).get? sid = _
            rw [get_set_ne _ _ _ _ (fun hh => hsidt hh.symm)]
            exact hpc', hq1, hq2⟩
      · intro ret2 hr2
        rcases get_set_cases htlt hr2 with ⟨heq, hb⟩ | ⟨hne, hg2⟩
        · rw [heq] at hstore
          exact hserved_t sp hstore ret2 hb
        · exact hserved ret2 hg2
  · exact absurd h (by simp)

theorem cinv_leadFinish (cfg : CConfig) (specs : List ThreadSpec)
    {s s' : SysState} {t : Nat} (hI : CInv specs s)
    (h : step cfg specs s (.leadFinish t) = some s') : CInv specs s' := by
  simp only [step] at h
  split at h
  · rename_i myGen sp hpc hsp
    have htlt : t < s.pcs.length := lt_of_get_eq_some hpc
    split at h
    · -- shutdown was flagged while running the query
      rename_i hflag
      injection h with h
      subst h
      refine cinv_generic specs hI hpc rfl rfl rfl rfl rfl
        (by simp) (by simp) (by intro gen2; simp) (by intro sids ret; simp)
        (by intro sids; simp) (by intro gen2; simp) (by intro sids; simp)
        (by intro sids ret; simp) ?_ (by intro ret2 hr; simp at hr)
      intro hf0
      rw [hflag] at hf0
      cases hf0
    · rename_i hflag
      have hf0 : s.shutdownFlag = false := by
        revert hflag
        cases s.shutdownFlag <;> simp
      split at h
      · rename_i g hgl
        have hgmem : (sp.ns, g) ∈ s.groups := alookup_mem hgl
        split at h
        · -- group intact: distribute results to every waiter
          rename_i hgen
          injection h with h
          subst h
          have htmem : t ∈ g.waiters.map Waiter.tid :=
            (hI.leader_mem t myGen sp hpc hsp).2 g hgl hgen
          have hGin : ∀ sid, sid ∈ g.waiters.map Waiter.tid →
              sid ∈ allTids s := by
            intro sid hsid
            obtain ⟨wG, hwG, htidG⟩ := List.mem_map.mp hsid
            exact mem_allTids.mpr ⟨(sp.ns, g), hgmem, wG, hwG, htidG⟩
          have hGno : ∀ sid, sid ∈ g.waiters.map Waiter.tid →
              ∀ p ∈ s.groups, p.1 ≠ sp.ns →
              ∀ w' ∈ p.2.waiters, w'.tid ≠ sid := by
            intro sid hsid p hp2 hpne w' hw' htid'
            obtain ⟨wG, hwG, htidG⟩ := List.mem_map.mp hsid
            obtain ⟨⟨spp, hspp, hnsp⟩, _, _⟩ :=
              hI.members_strong hf0 p hp2 w' hw'
            obtain ⟨⟨spg, hspg, hnsg⟩, _, _⟩ :=
              hI.members_strong hf0 (sp.ns, g) hgmem wG hwG
            rw [htid'] at hspp
            rw [htidG] at hspg
            rw [hspg] at hspp
            injection hspp with he
            rw [← he] at hnsp
            rw [hnsg] at hnsp
            exact hpne hnsp.symm
          refine ⟨?_, ?_, ?_, ?_, ?_, ?_, ?_, ?_, ?_, ?_, ?_, ?_⟩
          · exact aerase_keys_nodup _ _ hI.keys_nodup
          · intro p hp'
            exact hI.gen_bound p (aerase_mem hp')
          · intro p hp'
            exact hI.qip p (aerase_mem hp')
          · intro u gen h'
            rcases get_set_cases htlt h' with ⟨rfl, hb⟩ | ⟨hne, hold⟩
            · exact absurd hb (by simp)
            · exact hI.no_promoted u gen hold
          · intro u sids ret h'
            rcases get_set_cases htlt h' with ⟨rfl, hb⟩ | ⟨hne, hold⟩
            · exact absurd hb (by simp)
            · exact hI.no_promoted_fin u sids ret hold
          · intro u sids h'
            rcases get_set_cases htlt h' with ⟨rfl, hb⟩ | ⟨hne, hold⟩
            · exact absurd hb (by simp)
            · exact hI.no_promoted_lret u sids hold
          · intro p hp' w' hw'
            obtain ⟨pc, hpcw, hq1, hq2⟩ :=
              hI.members_weak p (aerase_mem hp') w' hw'
            by_cases hwt : w'.tid = t
            · rw [hwt]
              exact ⟨.leadReturn (.leadDistributed (g.waiters.map
                Waiter.tid)), get_set_self _ _ _ htlt, by simp, by simp⟩
            · exact ⟨pc, by
                show (s.pcs.set t _).get? w'.tid = _
                rw [get_set_ne _ _ _ _ (fun hh => hwt hh.symm)]
                exact hpcw, hq1, hq2⟩
          · intro hf0' p hp' w' hw'
            obtain ⟨hp2, hpne⟩ := aerase_mem_nodup hI.keys_nodup hp'
            obtain ⟨⟨spp, hspp, hnsp⟩, hpcw, hstw⟩ :=
              hI.members_strong hf0 p hp2 w' hw'
            have hwt : w'.tid ≠ t := by
              intro hh
              rw [hh, hsp] at hspp
              injection hspp with he
              rw [← he] at hnsp
              exact hpne hnsp.symm
            have hwnotg : ∀ wG ∈ g.waiters, wG.tid ≠ w'.tid := by
              intro wG hwG htidG
              obtain ⟨⟨spg, hspg, hnsg⟩, _, _⟩ :=
                hI.members_strong hf0 (sp.ns, g) hgmem wG hwG
              rw [htidG, hspp] at hspg
              injection hspg with he
              rw [he] at hnsp
              rw [hnsg] at hnsp
              exact hpne hnsp.symm
            refine ⟨⟨spp, hspp, hnsp⟩, ?_, ?_⟩
            · show (s.pcs.set t _).get? w'.tid = _ ∨
                (s.pcs.set t _).get? w'.tid = _
              rw [get_set_ne _ _ _ _ (fun hh => hwt hh.symm)]
              exact hpcw
            · show (distribute s.store g.waiters sp.qr).get? w'.tid = _
              rw [distribute_get_notmem _ _ _ _ hwnotg]
              exact hstw
          · intro u hu
            have hold : s.pcs.get? u = some .start ∨
                s.pcs.get? u = some .entered := by
              rcases hu with hu | hu <;>
                rcases get_set_cases htlt hu with ⟨rfl, hb⟩ | ⟨hne, hg2⟩
              · exact absurd hb (by simp)
              · exact Or.inl hg2
              · exact absurd hb (by simp)
              · exact Or.inr hg2
            have hwnotg : ∀ wG ∈ g.waiters, wG.tid ≠ u := by
              intro wG hwG htidG
              obtain ⟨_, hpcw, _⟩ :=
                hI.members_strong hf0 (sp.ns, g) hgmem wG hwG
              rw [htidG] at hpcw
              rcases hold with h1 | h1 <;> rcases hpcw with hc | hc <;>
                { rw [h1] at hc; exact PC.noConfusion (Option.some.inj hc) }
            show (distribute s.store g.waiters sp.qr).get? u = _
            rw [distribute_get_notmem _ _ _ _ hwnotg]
            exact hI.fresh_store u hold
          · intro u gen sp' h' hsp'
            rcases get_set_cases htlt h' with ⟨rfl, hb⟩ | ⟨hne, hold⟩
            · exact absurd hb (by simp)
            · obtain ⟨hbound, hmem2⟩ := hI.leader_mem u gen sp' hold hsp'
              refine ⟨hbound, ?_⟩
              intro g' hgl' hgen'
              by_cases hnseq : sp'.ns = sp.ns
              · rw [hnseq, alookup_aerase_self _ _ hI.keys_nodup] at hgl'
                cases hgl'
              · rw [alookup_aerase_ne _ _ _ hnseq] at hgl'
                exact hmem2 g' hgl' hgen'
          · intro u sids ret sp' hsp' h'
            rcases get_set_cases htlt h' with ⟨rfl, hb⟩ | ⟨hne, hold⟩
            · exact absurd hb (by simp)
            · exact hI.distrib_ret u sids ret sp' hsp' hold
          · intro u sids sp' hsp' hcase
            rcases hcase with hc | ⟨ret, hc⟩
            · rcases get_set_cases htlt hc with ⟨heq, hb⟩ | ⟨hne, hg2⟩
              · -- the distributing leader itself
                rw [heq] at hsp'
                rw [heq]
                injection hb with hb
                injection hb with hb
                rw [hsp] at hsp'
                injection hsp' with hspe
                subst hspe
                subst hb
                refine ⟨htmem, fun sid hsid => ?_⟩
                obtain ⟨wG, hwG, htidG⟩ := List.mem_map.mp hsid
                obtain ⟨_, hpcwG, hstwG⟩ :=
                  hI.members_strong hf0 (sp.ns, g) hgmem wG hwG
                have hsidlt : sid < s.store.length := by
                  rw [← htidG]
                  exact lt_of_get_eq_some hstwG
                refine ⟨?_, ?_, ?_, ?_⟩
                · show (distribute s.store g.waiters sp.qr).get? sid = _
                  exact distribute_get_mem _ _ _ _ hsidlt hsid
                · intro hat
                  rcases mem_allTids.mp hat with ⟨p, hp', w', hw', htid'⟩
                  obtain ⟨hp2, hpne⟩ := aerase_mem_nodup hI.keys_nodup hp'
                  exact hGno sid hsid p hp2 hpne w' hw' htid'
                · by_cases hsidt : sid = t
                  · rw [hsidt]
                    exact ⟨.leadReturn (.leadDistributed (g.waiters.map
                      Waiter.tid)), get_set_self _ _ _ htlt,
                      by simp, by simp⟩
                  · rw [htidG] at hpcwG
                    rcases hpcwG with hc2 | hc2
                    · exact ⟨.leadRunning g.generation, by
                        show (s.pcs.set t _).get? sid = _
                        rw [get_set_ne _ _ _ _ (fun hh => hsidt hh.symm)]
                        exact hc2, by simp, by simp⟩
                    · exact ⟨.following g.generation, by
                        show (s.pcs.set t _).get? sid = _
                        rw [get_set_ne _ _ _ _ (fun hh => hsidt hh.symm)]
                        exact hc2, by simp, by simp⟩
                · intro ret2 hr2
                  rcases get_set_cases htlt hr2 with ⟨heq, hb2⟩ |
                    ⟨hne2, hg2⟩
                  · exact absurd hb2 (by simp)
                  · rw [htidG] at hpcwG
                    rcases hpcwG with hc2 | hc2 <;>
                      { rw [hg2] at hc2
                        exact PC.noConfusion (Option.some.inj hc2) }
              · -- an earlier distributor, unaffected
                obtain ⟨hmem', hsids'⟩ :=
                  hI.distrib u sids sp' hsp' (Or.inl hg2)
                refine ⟨hmem', fun sid hsid => ?_⟩
                obtain ⟨hstore, hnotin, ⟨pc', hpc', hq1, hq2⟩, hserved⟩ :=
                  hsids' sid hsid
                have hsidt : sid ≠ t := by
                  intro hh
                  rw [hh] at hnotin
                  exact hnotin (hGin t htmem)
                have hwnotg : ∀ wG ∈ g.waiters, wG.tid ≠ sid := by
                  intro wG hwG htidG
                  exact hnotin (hGin sid (htidG ▸
                    List.mem_map_of_mem Waiter.tid hwG))
                refine ⟨?_, ?_, ?_, ?_⟩
                · show (distribute s.store g.waiters sp.qr).get? sid = _
                  rw [distribute_get_notmem _ _ _ _ hwnotg]
                  exact hstore
                · intro hat
                  rcases mem_allTids.mp hat with ⟨p, hp', w', hw', htid'⟩
                  exact hnotin (mem_allTids.mpr
                    ⟨p, aerase_mem hp', w', hw', htid'⟩)
                · exact ⟨pc', by
                    show (s.pcs.set t _).get? sid = _
                    rw [get_set_ne _ _ _ _ (fun hh => hsidt hh.symm)]
                    exact hpc', hq1, hq2⟩
                · intro ret2 hr2
                  rcases get_set_cases htlt hr2 with ⟨heq, hb2⟩ |
                    ⟨hne2, hg2'⟩
                  · exact absurd heq hsidt
                  · exact hserved ret2 hg2'
            · rcases get_set_cases htlt hc with ⟨rfl, hb⟩ | ⟨hne, hg2⟩
              · exact absurd hb (by simp)
              · obtain ⟨hmem', hsids'⟩ :=
                  hI.distrib u sids sp' hsp' (Or.inr ⟨ret, hg2⟩)
                refine ⟨hmem', fun sid hsid => ?_⟩
                obtain ⟨hstore, hnotin, ⟨pc', hpc', hq1, hq2⟩, hserved⟩ :=
                  hsids' sid hsid
                have hsidt : sid ≠ t := by
                  intro hh
                  rw [hh] at hnotin
                  exact hnotin (hGin t htmem)
                have hwnotg : ∀ wG ∈ g.waiters, wG.tid ≠ sid := by
                  intro wG hwG htidG
                  exact hnotin (hGin sid (htidG ▸
                    List.mem_map_of_mem Waiter.tid hwG))
                refine ⟨?_, ?_, ?_, ?_⟩
                · show (distribute s.store g.waiters sp.qr).get? sid = _
                  rw [distribute_get_notmem _ _ _ _ hwnotg]
                  exact hstore
                · intro hat
                  rcases mem_allTids.mp hat with ⟨p, hp', w', hw', htid'⟩
                  exact hnotin (mem_allTids.mpr
                    ⟨p, aerase_mem hp', w', hw', htid'⟩)
                · exact ⟨pc', by
                    show (s.pcs.set t _).get? sid = _
                    rw [get_set_ne _ _ _ _ (fun hh => hsidt hh.symm)]
                    exact hpc', hq1, hq2⟩
                · intro ret2 hr2
                  rcases get_set_cases htlt hr2 with ⟨heq, hb2⟩ |
                    ⟨hne2, hg2'⟩
                  · exact absurd heq hsidt
                  · exact hserved ret2 hg2'
        · -- group replaced: generation mismatch
          rename_i hgen
          injection h with h
          subst h
          refine cinv_generic specs hI hpc rfl rfl rfl rfl rfl
            (by simp) (by simp) (by intro gen2; simp)
            (by intro sids ret; simp) (by intro sids; simp)
            (by intro gen2; simp) (by intro sids; simp)
            (by intro sids ret; simp) ?_ (by intro ret2 hr; simp at hr)
          intro hf0' p hp2 w' hw' hwt
          obtain ⟨⟨spp, hspp, hnsp⟩, hpcw, _⟩ :=
            hI.members_strong hf0' p hp2 w' hw'
          rw [hwt, hsp] at hspp
          injection hspp with he
          have hkey : alookup s.groups p.1 = some p.2 :=
            alookup_eq_of_mem_nodup hI.keys_nodup hp2
          rw [← hnsp] at hkey
          rw [← he] at hkey
          rw [hgl] at hkey
          injection hkey with hkey
          rcases hpcw with hc | hc <;> rw [hwt, hpc] at hc
          · injection hc with hc2
            injection hc2 with hc3
            rw [← hkey] at hc3
            exact hgen hc3.symm
          · exact PC.noConfusion (Option.some.inj hc)
      · -- group gone entirely
        rename_i hnone
        injection h with h
        subst h
        refine cinv_generic specs hI hpc rfl rfl rfl rfl rfl
          (by simp) (by simp) (by intro gen2; simp)
          (by intro sids ret; simp) (by intro sids; simp)
          (by intro gen2; simp) (by intro sids; simp)
          (by intro sids ret; simp) ?_ (by intro ret2 hr; simp at hr)
        intro hf0' p hp2 w' hw' hwt
        obtain ⟨⟨spp, hspp, hnsp⟩, _, _⟩ :=
          hI.members_strong hf0' p hp2 w' hw'
        rw [hwt, hsp] at hspp
        injection hspp with he
        have hkey : alookup s.groups p.1 = some p.2 :=
          alookup_eq_of_mem_nodup hI.keys_nodup hp2
        rw [← hnsp] at hkey
        rw [← he] at hkey
        rw [hnone] at hkey
        cases hkey
  · exact absurd h (by simp)

theorem cinv_totalTimeout (cfg : CConfig) (specs : List ThreadSpec)
    {s s' : SysState} {t : Nat} (hI : CInv specs s)
    (h : step cfg specs s (.totalTimeout t) = some s') : CInv specs s' := by
  simp only [step] at h
  split at h
  · rename_i gen sp w hpc hsp hw
    have htlt : t < s.pcs.length := lt_of_get_eq_some hpc
    split at h
    · exact absurd h (by simp)
    · rename_i hcond
      have hdone : w.done = false := by
        revert hcond; cases w.done <;> simp
      have hf0 : s.shutdownFlag = false := by
        revert hcond; cases s.shutdownFlag <;> simp
      have hsid_ne : ∀ sp' : ThreadSpec, ∀ sid,
          s.store.get? sid = some (writtenState sp'.qr) → sid ≠ t := by
        intro sp' sid hstore hh
        rw [hh, hw] at hstore
        injection hstore with hwe
        rw [hwe] at hdone
        cases hq : sp'.qr <;> rw [hq] at hdone <;>
          simp [writtenState] at hdone
      cases halo : alookup s.groups sp.ns with
      | none =>
        simp only [halo] at h
        injection h with h
        subst h
        refine cinv_generic specs hI hpc rfl rfl rfl rfl rfl
          (by simp) (by simp) (by intro gen2; simp)
          (by intro sids ret; simp) (by intro sids; simp)
          (by intro gen2; simp) (by intro sids; simp)
          (by intro sids ret; simp) ?_ (by intro ret2 hr; simp at hr)
        intro hf0' p hp2 w' hw' hwt
        obtain ⟨⟨spp, hspp, hnsp⟩, _, _⟩ :=
          hI.members_strong hf0' p hp2 w' hw'
        rw [hwt, hsp] at hspp
        injection hspp with he
        have hkey : alookup s.groups p.1 = some p.2 :=
          alookup_eq_of_mem_nodup hI.keys_nodup hp2
        rw [← hnsp] at hkey
        rw [← he] at hkey
        rw [halo] at hkey
        cases hkey
      | some g =>
        simp only [halo] at h
        have hgmem : (sp.ns, g) ∈ s.groups := alookup_mem halo
        split at h
        · -- still my group: drop myself from the waiter list
          rename_i hgen
          injection h with h
          subst h
          have hfm : ∀ w', w' ∈ g.waiters.filter
              (fun x => x.tid != t) → w' ∈ g.waiters ∧ w'.tid ≠ t := by
            intro w' hw'
            obtain ⟨h1, h2⟩ := List.mem_filter.mp hw'
            exact ⟨h1, by simpa using h2⟩
          refine ⟨?_, ?_, ?_, ?_, ?_, ?_, ?_, ?_, ?_, ?_, ?_, ?_⟩
          · exact aset_keys_nodup _ _ _ hI.keys_nodup
          · intro p hp'
            rcases aset_mem hp' with rfl | hp2
            · exact hI.gen_bound (sp.ns, g) hgmem
            · exact hI.gen_bound p hp2
          · intro p hp'
            rcases aset_mem hp' with rfl | hp2
            · exact hI.qip (sp.ns, g) hgmem
            · exact hI.qip p hp2
          · intro u gen2 h'
            rcases get_set_cases htlt h' with ⟨rfl, hb⟩ | ⟨hne, hold⟩
            · exact absurd hb (by simp)
            · exact hI.no_promoted u gen2 hold
          · intro u sids ret h'
            rcases get_set_cases htlt h' with ⟨rfl, hb⟩ | ⟨hne, hold⟩
            · exact absurd hb (by simp)
            · exact hI.no_promoted_fin u sids ret hold
          · intro u sids h'
            rcases get_set_cases htlt h' with ⟨rfl, hb⟩ | ⟨hne, hold⟩
            · exact absurd hb (by simp)
            · exact hI.no_promoted_lret u sids hold
          · intro p hp' w' hw'
            rcases aset_mem hp' with rfl | hp2
            · obtain ⟨hwg, hwt⟩ := hfm w' hw'
              obtain ⟨pc, hpcw, hq1, hq2⟩ :=
                hI.members_weak (sp.ns, g) hgmem w' hwg
              exact ⟨pc, by
                show (s.pcs.set t _).get? w'.tid = _
                rw [get_set_ne _ _ _ _ (fun hh => hwt hh.symm)]
                exact hpcw, hq1, hq2⟩
            · obtain ⟨pc, hpcw, hq1, hq2⟩ := hI.members_weak p hp2 w' hw'
              by_cases hwt : w'.tid = t
              · rw [hwt]
                exact ⟨.finished .followerTimeout
                  (.error .exceededTimeLimit),
                  get_set_self _ _ _ htlt, by simp, by simp⟩
              · exact ⟨pc, by
                  show (s.pcs.set t _).get? w'.tid = _
                  rw [get_set_ne _ _ _ _ (fun hh => hwt hh.symm)]
                  exact hpcw, hq1, hq2⟩
          · intro hf0' p hp' w' hw'
            rcases aset_mem_nodup hI.keys_nodup hp' with rfl | ⟨hp2, hpne⟩
            · obtain ⟨hwg, hwt⟩ := hfm w' hw'
              obtain ⟨hspw, hpcw, hstw⟩ :=
                hI.members_strong hf0 (sp.ns, g) hgmem w' hwg
              refine ⟨hspw, ?_, hstw⟩
              show (s.pcs.set t _).get? w'.tid = _ ∨
                (s.pcs.set t _).get? w'.tid = _
              rw [get_set_ne _ _ _ _ (fun hh => hwt hh.symm)]
              exact hpcw
            · obtain ⟨⟨spp, hspp, hnsp⟩, hpcw, hstw⟩ :=
                hI.members_strong hf0 p hp2 w' hw'
              have hwt : w'.tid ≠ t := by
                intro hh
                rw [hh, hsp] at hspp
                injection hspp with he
                rw [← he] at hnsp
                exact hpne hnsp.symm
              refine ⟨⟨spp, hspp, hnsp⟩, ?_, hstw⟩
              show (s.pcs.set t _).get? w'.tid = _ ∨
                (s.pcs.set t _).get? w'.tid = _
              rw [get_set_ne _ _ _ _ (fun hh => hwt hh.symm)]
              exact hpcw
          · intro u hu
            have hold : s.pcs.get? u = some .start ∨
                s.pcs.get? u = some .entered := by
              rcases hu with hu | hu <;>
                rcases get_set_cases htlt hu with ⟨rfl, hb⟩ | ⟨hne, hg2⟩
              · exact absurd hb (by simp)
              · exact Or.inl hg2
              · exact absurd hb (by simp)
              · exact Or.inr hg2
            exact hI.fresh_store u hold
          · intro u gen2 sp' h' hsp'
            rcases get_set_cases htlt h' with ⟨rfl, hb⟩ | ⟨hne, hold⟩
            · exact absurd hb (by simp)
            · obtain ⟨hbound, hmem2⟩ := hI.leader_mem u gen2 sp' hold hsp'
              have hut : u ≠ t := by
                intro hh
                rw [hh, hpc] at hold
                exact PC.noConfusion (Option.some.inj hold)
              refine ⟨hbound, ?_⟩
              intro g' hgl' hgen'
              by_cases hnseq : sp'.ns = sp.ns
              · rw [hnseq, alookup_aset_self] at hgl'
                injection hgl' with hgl'
                rw [← hgl'] at hgen'
                have hu : u ∈ g.waiters.map Waiter.tid := by
                  refine hmem2 g ?_ ?_
                  · rw [hnseq]; exact halo
                  · simpa using hgen'
                obtain ⟨wG, hwG, htidG⟩ := List.mem_map.mp hu
                rw [← hgl']
                refine List.mem_map.mpr ⟨wG, ?_, htidG⟩
                refine List.mem_filter.mpr ⟨hwG, ?_⟩
                simp only [bne_iff_ne, ne_eq]
                rw [htidG]
                exact hut
              · rw [alookup_aset_ne _ _ _ _ hnseq] at hgl'
                exact hmem2 g' hgl' hgen'
          · intro u sids ret sp' hsp' h'
            rcases get_set_cases htlt h' with ⟨rfl, hb⟩ | ⟨hne, hold⟩
            · exact absurd hb (by simp)
            · exact hI.distrib_ret u sids ret sp' hsp' hold
          · intro u sids sp' hsp' hcase
            have hold : s.pcs.get? u =
                some (.leadReturn (.leadDistributed sids)) ∨
                ∃ ret, s.pcs.get? u =
                  some (.finished (.leadDistributed sids) ret) := by
              rcases hcase with hc | ⟨ret, hc⟩
              · rcases get_set_cases htlt hc with ⟨rfl, hb⟩ | ⟨hne, hg2⟩
                · exact absurd hb (by simp)
                · exact Or.inl hg2
              · rcases get_set_cases htlt hc with ⟨rfl, hb⟩ | ⟨hne, hg2⟩
                · exact absurd hb (by simp)
                · exact Or.inr ⟨ret, hg2⟩
            obtain ⟨hmem, hsids⟩ := hI.distrib u sids sp' hsp' hold
            refine ⟨hmem, fun sid hsid => ?_⟩
            obtain ⟨hstore, hnotin, ⟨pc', hpc', hq1, hq2⟩, hserved⟩ :=
              hsids sid hsid
            have hsidt : sid ≠ t := hsid_ne sp' sid hstore
            refine ⟨hstore, ?_, ?_, ?_⟩
            · intro hat
              rcases mem_allTids.mp hat with ⟨p, hp', w', hw', htid'⟩
              rcases aset_mem hp' with rfl | hp2
              · obtain ⟨hwg, _⟩ := hfm w' hw'
                exact hnotin
                  (mem_allTids.mpr ⟨(sp.ns, g), hgmem, w', hwg, htid'⟩)
              · exact hnotin (mem_allTids.mpr ⟨p, hp2, w', hw', htid'⟩)
            · exact ⟨pc', by
                show (s.pcs.set t _).get? sid = _
                rw [get_set_ne _ _ _ _ (fun hh => hsidt hh.symm)]
                exact hpc', hq1, hq2⟩
            · intro ret2 hr2
              rcases get_set_cases htlt hr2 with ⟨heq, hb⟩ | ⟨hne, hg2⟩
              · exact absurd heq hsidt
              · exact hserved ret2 hg2
        · -- group replaced meanwhile: registry untouched
          rename_i hgen
          injection h with h
          subst h
          refine cinv_generic specs hI hpc rfl rfl rfl rfl rfl
            (by simp) (by simp) (by intro gen2; simp)
            (by intro sids ret; simp) (by intro sids; simp)
            (by intro gen2; simp) (by intro sids; simp)
            (by intro sids ret; simp) ?_ (by intro ret2 hr; simp at hr)
          intro hf0' p hp2 w' hw' hwt
          obtain ⟨⟨spp, hspp, hnsp⟩, hpcw, _⟩ :=
            hI.members_strong hf0' p hp2 w' hw'
          rw [hwt, hsp] at hspp
          injection hspp with he
          have hkey : alookup s.groups p.1 = some p.2 :=
            alookup_eq_of_mem_nodup hI.keys_nodup hp2
          rw [← hnsp] at hkey
          rw [← he] at hkey
          rw [halo] at hkey
          injection hkey with hkey
          rcases hpcw with hc | hc <;> rw [hwt, hpc] at hc
          · exact PC.noConfusion (Option.some.inj hc)
          · injection Option.some.inj hc with hc2
            rw [hkey] at hgen
            exact absurd hc2.symm (by simpa using hgen)
  · exact absurd h (by simp)

theorem cinv_sliceTimeout (cfg : CConfig) (specs : List ThreadSpec)
    {s s' : SysState} {t : Nat} (hI : CInv specs s)
    (h : step cfg specs s (.sliceTimeout t) = some s') : CInv specs s' := by
  simp only [step] at h
  split at h
  · rename_i gen sp w hpc hsp hw
    split at h
    · exact absurd h (by simp)
    · split at h
      · rename_i g hgl
        split at h
        · rename_i hcond
          have := hI.qip (sp.ns, g) (alookup_mem hgl)
          rw [hcond.2.1] at this
          cases this
        · injection h with h
          subst h
          exact hI
      · injection h with h
        subst h
        exact hI
  · exact absurd h (by simp)

theorem cinv_promotedFinish (cfg : CConfig) (specs : List ThreadSpec)
    {s s' : SysState} {t : Nat} (hI : CInv specs s)
    (h : step cfg specs s (.promotedFinish t) = some s') :
    CInv specs s' := by
  simp only [step] at h
  split at h
  · rename_i myGen sp hpc hsp
    exact absurd hpc (hI.no_promoted t myGen)
  · exact absurd h (by simp)

theorem cinv_shutdownEv (cfg : CConfig) (specs : List ThreadSpec)
    {s s' : SysState} (hI : CInv specs s)
    (h : step cfg specs s .shutdownEv = some s') : CInv specs s' := by
  simp only [step] at h
  injection h with h
  subst h
  refine ⟨?_, ?_, ?_, hI.no_promoted, hI.no_promoted_fin,
    hI.no_promoted_lret, ?_, ?_, ?_, ?_, hI.distrib_ret, ?_⟩
  · simp [akeys]
  · intro p hp; simp at hp
  · intro p hp; simp at hp
  · intro p hp; simp at hp
  · intro hf0; cases hf0
  · intro u hu
    have hnm : ∀ p ∈ s.groups, ∀ w ∈ p.2.waiters, w.tid ≠ u := by
      intro p hp' w hw hwt
      obtain ⟨pc, hpcw, hq1, hq2⟩ := hI.members_weak p hp' w hw
      rw [hwt] at hpcw
      rcases hu with hu2 | hu2 <;> rw [hu2] at hpcw <;>
        injection hpcw with he
      · exact hq1 he.symm
      · exact hq2 he.symm
    show (shutdownStore s.groups s.store).get? u = _
    rw [shutdownStore_get_notmem _ _ _ hnm]
    exact hI.fresh_store u hu
  · intro u gen sp h' hsp'
    obtain ⟨hbound, _⟩ := hI.leader_mem u gen sp h' hsp'
    refine ⟨hbound, ?_⟩
    intro g hgl
    simp [alookup] at hgl
  · intro u sids sp hsp' hcase
    obtain ⟨hmem, hsids⟩ := hI.distrib u sids sp hsp' hcase
    refine ⟨hmem, fun sid hsid => ?_⟩
    obtain ⟨hstore, hnotin, hpcex, hserved⟩ := hsids sid hsid
    have hnm : ∀ p ∈ s.groups, ∀ w ∈ p.2.waiters, w.tid ≠ sid := by
      intro p hp' w hw hwt
      exact hnotin (mem_allTids.mpr ⟨p, hp', w, hw, hwt⟩)
    refine ⟨?_, ?_, hpcex, hserved⟩
    · show (shutdownStore s.groups s.store).get? sid = _
      rw [shutdownStore_get_notmem _ _ _ hnm]
      exact hstore
    · intro hat
      simp [allTids] at hat

/-- The reachability invariant is preserved by every enabled event. -/
theorem cinv_step (cfg : CConfig) (specs : List ThreadSpec)
    {s s' : SysState} (ev : Ev) (hI : CInv specs s)
    (h : step cfg specs s ev = some s') : CInv specs s' := by
  cases ev with
  | enter t => exact cinv_enter cfg specs hI h
  | groupStep t => exact cinv_groupStep cfg specs hI h
  | leadFinish t => exact cinv_leadFinish cfg specs hI h
  | leadRet t => exact cinv_leadRet cfg specs hI h
  | wake t => exact cinv_wake cfg specs hI h
  | followRet t => exact cinv_followRet cfg specs hI h
  | totalTimeout t => exact cinv_totalTimeout cfg specs hI h
  | sliceTimeout t => exact cinv_sliceTimeout cfg specs hI h
  | promotedFinish t => exact cinv_promotedFinish cfg specs hI h
  | shutdownEv => exact cinv_shutdownEv cfg specs hI h

/-- The reachability invariant holds along every schedule. -/
theorem cinv_runC (cfg : CConfig) (specs : List ThreadSpec)
    (s : SysState) (evs : List Ev) (hI : CInv specs s) :
    CInv specs (runC cfg specs s evs) := by
  induction evs generalizing s with
  | nil => exact hI
  | cons e evs ih =>
    rw [runC_cons]
    cases hstep : step cfg specs s e with
    | none => exact ih s hI
    | some s2 => exact ih s2 (cinv_step cfg specs e hI hstep)

/-- C1: in every reachable execution, when the executing caller of a group
(the original leader or a promoted follower) runs queryFunc to successful
completion returning vector v and, on reacquiring the registry lock, finds
its group still registered with its generation (so that it finishes on a
distributing path), every waiter it distributed to holds the result
byte-identical to v (shared result pointer set to v, status OK, done
flagged), every such waiter that returns through the served-follower path
returns exactly v, and the caller's own tryCoalesce return value is v.
The promoted-follower case is vacuously covered: every registered group
keeps queryInProgress = true from creation, so the promotion condition
(queryInProgress false) never holds and no call ever finishes on the
promoted-distributor path. -/
theorem C1_coalescer_distribution (cfg : CConfig) (specs : List ThreadSpec)
    (n : Nat) (evs : List Ev) (t : Nat) (sp : ThreadSpec)
    (sids : List Nat) (ret : Except CStatus RVec) (v : RVec)
    (hsp : specs.get? t = some sp) (hqr : sp.qr = .ok v)
    (hfin : (runC cfg specs (initState n) evs).pcs.get? t =
        some (.finished (.leadDistributed sids) ret) ∨
      (runC cfg specs (initState n) evs).pcs.get? t =
        some (.finished (.promotedDistributed sids) ret)) :
    ret = .ok v ∧
    ∀ sid ∈ sids,
      (runC cfg specs (initState n) evs).store.get? sid =
        some { result := some v, status := .ok, done := true } ∧
      (∀ ret2, (runC cfg specs (initState n) evs).pcs.get? sid =
          some (.finished .followerServed ret2) → ret2 = .ok v) := by
  have hI := cinv_runC cfg specs (initState n) evs (cinv_init specs n)
  rcases hfin with hfin | hfin
  · have hret := hI.distrib_ret t sids ret sp hsp hfin
    have hd := hI.distrib t sids sp hsp (Or.inr ⟨ret, hfin⟩)
    rw [hqr] at hret
    refine ⟨by simpa [qrToRet] using hret, fun sid hsid => ?_⟩
    obtain ⟨hstore, _, _, hserved⟩ := hd.2 sid hsid
    rw [hqr] at hstore
    refine ⟨by simpa [writtenState] using hstore, ?_⟩
    intro ret2 h2
    have h3 := hserved ret2 h2
    rw [hqr] at h3
    simpa [qrToRet] using h3
  · exact absurd hfin (hI.no_promoted_fin t sids ret)

/-- Witness for C1: thread 0 leads and distributes the vector [5] to both
itself and follower thread 1; both shared states hold [5], the follower
is served [5] and the leader returns [5]. -/
theorem C1_coalescer_distribution_witness :
    ((runC ⟨10, 10⟩ [⟨"db.c", 0, .ok [5]⟩, ⟨"db.c", 0, .ok [9]⟩]
        (initState 2)
        [.enter 0, .groupStep 0, .enter 1, .groupStep 1, .leadFinish 0,
          .leadRet 0, .wake 1, .followRet 1]).pcs.get? 0 =
      some (.finished (.leadDistributed [0, 1]) (.ok [5]))) ∧
    ((.ok [5] : Except CStatus RVec) = .ok [5] ∧
      ∀ sid ∈ [0, 1],
        (runC ⟨10, 10⟩ [⟨"db.c", 0, .ok [5]⟩, ⟨"db.c", 0, .ok [9]⟩]
            (initState 2)
            [.enter 0, .groupStep 0, .enter 1, .groupStep 1, .leadFinish 0,
              .leadRet 0, .wake 1, .followRet 1]).store.get? sid =
          some { result := some [5], status := .ok, done := true } ∧
        (∀ ret2, (runC ⟨10, 10⟩
              [⟨"db.c", 0, .ok [5]⟩, ⟨"db.c", 0, .ok [9]⟩] (initState 2)
              [.enter 0, .groupStep 0, .enter 1, .groupStep 1,
                .leadFinish 0, .leadRet 0, .wake 1,
                .followRet 1]).pcs.get? sid =
            some (.finished .followerServed ret2) → ret2 = .ok [5])) :=
  ⟨by decide,
    C1_coalescer_distribution ⟨10, 10⟩
      [⟨"db.c", 0, .ok [5]⟩, ⟨"db.c", 0, .ok [9]⟩] 2
      [.enter 0, .groupStep 0, .enter 1, .groupStep 1, .leadFinish 0,
        .leadRet 0, .wake 1, .followRet 1] 0
      (⟨"db.c", 0, .ok [5]⟩ : ThreadSpec) [0, 1] (.ok [5]) [5]
      rfl rfl (Or.inl (by decide))⟩

end Coalescer

namespace DocIntegrity

/-- C5: the claimed equivalence fails on the fast path.  The document
d = { "_\x24docHash": NumberLong h, "a": 1 } stores exactly the hash the
claim requires — h = computeDocumentHash(stripHashField d), the XXH64 of
the full byte form of { "a": 1 } — yet verifyDocumentIntegrity rejects it
with DocumentIntegrityError: because the reserved field is first,
computeDocumentHash(d) hashes only the raw element bytes after the hash
element (without the document's 4-byte size prefix and trailing NUL), a
different byte string with a different hash.  The library's own test
(ComputeHashExcludesHashField) asserts the two hashes agree, so the fast
path, not the claim, is wrong. -/
theorem C5_document_integrity_fast_path :
    computeDocumentHash (stripHashField
        [(kDocHashFieldName,
          BVal.int64V (xxh64 (docBytes [(['a'], BVal.int32V 1)]) 0)),
         (['a'], BVal.int32V 1)]) =
      xxh64 (docBytes [(['a'], BVal.int32V 1)]) 0 ∧
    extractDocumentHash
        [(kDocHashFieldName,
          BVal.int64V (xxh64 (docBytes [(['a'], BVal.int32V 1)]) 0)),
         (['a'], BVal.int32V 1)] =
      some (xxh64 (docBytes [(['a'], BVal.int32V 1)]) 0) ∧
    verifyDocumentIntegrity
        [(kDocHashFieldName,
          BVal.int64V (xxh64 (docBytes [(['a'], BVal.int32V 1)]) 0)),
         (['a'], BVal.int32V 1)] = .integrityError := by
  refine ⟨by decide, by decide, by decide⟩

end DocIntegrity

namespace RepairIndex

/-- C6: a repairIndexEntry remove with a supplied indexKey against a
document that still exists fails immediately: the command returns false,
appends the machine-readable code 50003 (document-still-exists) to its
reply, and the index is returned exactly as it was — no entry is removed,
for every index, key set, record id and dryRun setting. -/
theorem C6_repair_remove_doc_exists (idx : List (IKey × ILoc))
    (genKeys : List IKey) (recordId : ILoc) (ik : IKey) (dryRun : Bool) :
    doRemove idx genKeys true recordId (some ik) dryRun =
      { ok := false,
        errmsg := "document still exists, cannot remove as orphan index",
        code := some 50003, index := idx } := rfl

end RepairIndex

namespace Extractor

/-! #### Basic list and path lemmas for claim C2 -/

theorem getD_set_self {α : Type} (l : List α) (i : Nat) (a d : α)
    (h : i < l.length) : (l.set i a).getD i d = a := by
  rw [List.getD_eq_getElem _ d (by rw [List.length_set]; exact h)]
  exact List.getElem_set_self _

theorem getD_set_ne {α : Type} (l : List α) (i j : Nat) (a d : α)
    (h : i ≠ j) : (l.set i a).getD j d = l.getD j d := by
  by_cases hj : j < l.length
  · rw [List.getD_eq_getElem _ d (by rw [List.length_set]; exact hj),
      List.getD_eq_getElem _ d hj]
    exact List.getElem_set_ne h _
  · rw [List.getD_eq_default _ d (by rw [List.length_set]; omega),
      List.getD_eq_default _ d (by omega)]

theorem getFieldE_append (fs1 fs2 : List (FName × BVal)) (name : FName) :
    getFieldE (fs1 ++ fs2) name =
      match getFieldE fs1 name with
      | some el => some el
      | none => getFieldE fs2 name := by
  induction fs1 with
  | nil => simp [getFieldE]
  | cons p rest ih =>
    obtain ⟨n, v⟩ := p
    by_cases hn : n = name
    · simp [getFieldE, hn]
    · simp only [List.cons_append, getFieldE, if_neg hn]
      exact ih

theorem getFieldE_none_not_mem (fs : List (FName × BVal)) (name : FName)
    (h : name ∉ fs.map Prod.fst) : getFieldE fs name = none := by
  induction fs with
  | nil => rfl
  | cons p rest ih =>
    obtain ⟨n, v⟩ := p
    simp only [List.map_cons, List.mem_cons, not_or] at h
    simp only [getFieldE, if_neg (fun hh : n = name => h.1 hh.symm)]
    exact ih h.2

theorem getFieldE_mem_of_some (fs : List (FName × BVal)) (name : FName)
    (el : FName × BVal) (h : getFieldE fs name = some el) :
    el ∈ fs ∧ el.1 = name := by
  induction fs with
  | nil => cases h
  | cons p rest ih =>
    obtain ⟨n, v⟩ := p
    by_cases hn : n = name
    · rw [getFieldE, if_pos hn] at h
      injection h with h
      subst h
      exact ⟨List.mem_cons_self _ _, hn⟩
    · rw [getFieldE, if_neg hn] at h
      obtain ⟨h1, h2⟩ := ih h
      exact ⟨List.mem_cons_of_mem _ h1, h2⟩

theorem splitAtDot_isSome_iff (p : FName) :
    (splitAtDot p).2.isSome = true ↔ '.' ∈ p := by
  induction p with
  | nil => simp [splitAtDot]
  | cons c rest ih =>
    by_cases hc : c = '.'
    · simp [splitAtDot, hc]
    · simp only [splitAtDot, if_neg hc, List.mem_cons]
      rw [ih]
      constructor
      · exact fun h => Or.inr h
      · intro h
        rcases h with h | h
        · exact absurd h.symm hc
        · exact h

theorem noDotsL_facts (fs : List (FName × BVal)) (h : noDotsL fs = true) :
    ∀ p ∈ fs, p.1.contains '.' = false ∧ noDotsV p.2 = true := by
  induction fs with
  | nil => intro p hp; cases hp
  | cons q rest ih =>
    obtain ⟨n, v⟩ := q
    rw [noDotsL] at h
    simp only [Bool.and_eq_true, Bool.not_eq_true'] at h
    intro p hp
    rcases List.mem_cons.mp hp with hp1 | hp1
    · subst hp1
      exact ⟨h.1.1, h.1.2⟩
    · exact ih h.2 p hp1

theorem not_dot_mem_of_contains_false {n : FName}
    (h : n.contains '.' = false) : '.' ∉ n := by
  intro hmem
  have h2 := List.elem_eq_true_of_mem hmem
  rw [show List.contains n '.' = List.elem '.' n from rfl, h2] at h
  cases h

/-- A dotted name cannot occur as a field name of a dot-free document, so
the full-name lookup misses. -/
theorem getFieldE_dotted_none (fs : List (FName × BVal)) (name : FName)
    (hd : (splitAtDot name).2.isSome = true) (hn : noDotsL fs = true) :
    getFieldE fs name = none := by
  apply getFieldE_none_not_mem
  intro hmem
  rcases List.mem_map.mp hmem with ⟨p, hp, hp1⟩
  have h1 := (noDotsL_facts fs hn p hp).1
  rw [hp1] at h1
  exact not_dot_mem_of_contains_false h1
    ((splitAtDot_isSome_iff name).mp hd)

/-- What well-formedness gives at a split, jointly for the two states of
the scanner. -/
theorem wf_split (p : FName) :
    (wfAux p = true →
      ((splitAtDot p).2 = none ∧ p ≠ []) ∨
      (∃ r, (splitAtDot p).2 = some r ∧ (splitAtDot p).1 ≠ [] ∧
        wfAux r = true)) ∧
    (wfTail p = true →
      (splitAtDot p).2 = none ∨
      (∃ r, (splitAtDot p).2 = some r ∧ wfAux r = true)) := by
  induction p with
  | nil =>
    constructor
    · intro h
      rw [wfAux] at h
      cases h
    · intro h
      exact Or.inl rfl
  | cons c rest ih =>
    constructor
    · intro h
      rw [wfAux] at h
      by_cases hc : c = '.'
      · rw [if_pos hc] at h; cases h
      · rw [if_neg hc] at h
        rcases ih.2 h with h2 | ⟨r, h2, h3⟩
        · left
          constructor
          · simp [splitAtDot, if_neg hc, h2]
          · simp
        · right
          refine ⟨r, ?_, ?_, h3⟩
          · simp [splitAtDot, if_neg hc, h2]
          · simp [splitAtDot, if_neg hc]
    · intro h
      rw [wfTail] at h
      by_cases hc : c = '.'
      · rw [if_pos hc] at h
        right
        refine ⟨rest, ?_, h⟩
        simp [splitAtDot, hc]
      · rw [if_neg hc] at h
        rcases ih.2 h with h2 | ⟨r, h2, h3⟩
        · left
          simp [splitAtDot, if_neg hc, h2]
        · right
          refine ⟨r, ?_, h3⟩
          simp [splitAtDot, if_neg hc, h2]

theorem fieldAt_inj {e : UFE} (hnd : e.fields.Nodup) {i j : Nat}
    (hi : i < e.fields.length) (hj : j < e.fields.length)
    (h : fieldAt e i = fieldAt e j) : i = j := by
  unfold fieldAt at h
  rw [List.getD_eq_getElem _ _ hi, List.getD_eq_getElem _ _ hj] at h
  have := (List.Nodup.get_inj_iff hnd
    (i := ⟨i, hi⟩) (j := ⟨j, hj⟩)).mp h
  exact Fin.mk.inj_iff.mp this

end Extractor

namespace Extractor

/-! #### Registration invariant for claim C2 -/

theorem findByPath_none (e : UFE) (lst : List Nat) (path : FName)
    (h : findByPath e lst path = none) : ∀ s ∈ lst, fieldAt e s ≠ path := by
  induction lst with
  | nil => intro s hs; cases hs
  | cons t rest ih =>
    rw [findByPath] at h
    split at h
    · cases h
    · rename_i hne
      intro s hs
      rcases List.mem_cons.mp hs with hs1 | hs1
      · subst hs1; exact hne
      · exact ih h s hs1

theorem mem_fields_idx (e : UFE) (path : FName) (h : path ∈ e.fields) :
    ∃ i, i < e.fields.length ∧ fieldAt e i = path := by
  obtain ⟨⟨i, hi⟩, hget⟩ := List.mem_iff_get.mp h
  refine ⟨i, hi, ?_⟩
  unfold fieldAt
  rw [List.getD_eq_getElem _ _ hi]
  exact hget

theorem regInv_empty : RegInv emptyUFE := by
  refine ⟨rfl, rfl, rfl, List.nodup_nil, ?_, ?_, ?_, ?_, ?_, ?_,
    List.nodup_nil, ?_, rfl⟩
  · intro s hs; simp [emptyUFE] at hs
  · intro sig s h; simp [emptyUFE, alookup] at h
  · intro sig lst h; simp [emptyUFE, alookup] at h
  · intro s hs; simp [emptyUFE] at hs
  · intro pr hpr; simp [emptyUFE] at hpr
  · intro s hs; simp [emptyUFE] at hs
  · intro s hs; simp [emptyUFE] at hs


/-- The new-slot case of registerField preserves the registration
invariant, for a dotless path. -/
theorem regInv_new_top (e : UFE) (path : FName) (hI : RegInv e)
    (hnotin : path ∉ e.fields)
    (hsp : (splitAtDot path).2 = none)
    (newSig : List (Nat × Nat)) (newColl : List (Nat × List Nat))
    (hsig : ∀ sig s, alookup newSig sig = some s →
      (s < e.fields.length ∧ makeSignature (fieldAt e s) = sig) ∨
      (s = e.fields.length ∧ makeSignature path = sig))
    (hcoll : ∀ sig lst, alookup newColl sig = some lst → ∀ s ∈ lst,
      (s < e.fields.length ∧ makeSignature (fieldAt e s) = sig) ∨
      (s = e.fields.length ∧ makeSignature path = sig))
    (hcomp_old : ∀ s, s < e.fields.length →
      alookup newSig (makeSignature (fieldAt e s)) = some s ∨
      ∃ lst, alookup newColl (makeSignature (fieldAt e s)) = some lst ∧
        s ∈ lst)
    (hcomp_new : alookup newSig (makeSignature path) = some e.fields.length
      ∨ ∃ lst, alookup newColl (makeSignature path) = some lst ∧
        e.fields.length ∈ lst) :
    RegInv (newTopUFE e path newSig newColl) := by
  have hlen : (newTopUFE e path newSig newColl).fields.length =
      e.fields.length + 1 := by simp [newTopUFE]
  have hfa_lt : ∀ s, s < e.fields.length →
      fieldAt (newTopUFE e path newSig newColl) s = fieldAt e s := by
    intro s hs
    show (e.fields ++ [path]).getD s [] = e.fields.getD s []
    exact getD_snoc_lt _ _ _ _ hs
  have hfa_new : fieldAt (newTopUFE e path newSig newColl)
      e.fields.length = path := by
    show (e.fields ++ [path]).getD e.fields.length [] = path
    exact getD_snoc_self _ _ _
  refine ⟨hI.not_finalized, ?_, hI.len_zip, ?_, ?_, ?_, ?_, ?_, ?_, ?_,
    hI.nested_nodup, ?_, hI.npfx_empty⟩
  · show (e.isNested ++ [false]).length = (e.fields ++ [path]).length
    simp [hI.len_nested]
  · show (e.fields ++ [path]).Nodup
    simp [List.nodup_append, hI.fields_nodup, hnotin]
  · intro s hs
    rw [hlen] at hs
    by_cases hslt : s < e.fields.length
    · rw [hfa_lt s hslt]
      show (e.isNested ++ [false]).getD s false = true ↔ _
      rw [getD_snoc_lt _ _ _ _ (by rw [hI.len_nested]; exact hslt)]
      exact hI.classify s hslt
    · have hseq : s = e.fields.length := by omega
      subst hseq
      rw [hfa_new]
      show (e.isNested ++ [false]).getD e.fields.length false = true ↔ _
      rw [show e.fields.length = e.isNested.length from hI.len_nested.symm,
        getD_snoc_self]
      rw [hsp]
      simp
  · intro sig s h
    rcases hsig sig s h with ⟨h1, h2⟩ | ⟨h1, h2⟩
    · rw [hlen, hfa_lt s h1]
      exact ⟨by omega, h2⟩
    · subst h1
      rw [hlen, hfa_new]
      exact ⟨by omega, h2⟩
  · intro sig lst h s hs
    rcases hcoll sig lst h s hs with ⟨h1, h2⟩ | ⟨h1, h2⟩
    · rw [hlen, hfa_lt s h1]
      exact ⟨by omega, h2⟩
    · subst h1
      rw [hlen, hfa_new]
      exact ⟨by omega, h2⟩
  · intro s hs
    rw [hlen] at hs
    by_cases hslt : s < e.fields.length
    · rw [hfa_lt s hslt]
      exact hcomp_old s hslt
    · have hseq : s = e.fields.length := by omega
      subst hseq
      rw [hfa_new]
      exact hcomp_new
  · intro pr hpr
    obtain ⟨h1, h2, h3⟩ := hI.zip_sound pr hpr
    rw [hlen]
    refine ⟨by omega, ?_, ?_⟩
    · show (e.isNested ++ [false]).getD pr.1 false = true
      rw [getD_snoc_lt _ _ _ _ (by rw [hI.len_nested]; exact h1)]
      exact h2
    · rw [hfa_lt pr.1 h1]
      exact h3
  · intro s hs hn
    rw [hlen] at hs
    have hn2 : (e.isNested ++ [false]).getD s false = true := hn
    by_cases hslt : s < e.fields.length
    · rw [hfa_lt s hslt]
      apply hI.zip_complete s hslt
      rw [← getD_snoc_lt e.isNested false false s
        (by rw [hI.len_nested]; exact hslt)]
      exact hn2
    · have hseq : s = e.fields.length := by omega
      subst hseq
      exfalso
      rw [show e.fields.length = e.isNested.length from
        hI.len_nested.symm, getD_snoc_self] at hn2
      cases hn2
  · intro s hs
    have := hI.nested_bound s hs
    rw [hlen]
    omega

/-- The new-slot case of registerField preserves the registration
invariant, for a dotted path. -/
theorem regInv_new_nested (e : UFE) (path pfx tail : FName) (hI : RegInv e)
    (hnotin : path ∉ e.fields)
    (hsp : splitAtDot path = (pfx, some tail))
    (newSig : List (Nat × Nat)) (newColl : List (Nat × List Nat))
    (hsig : ∀ sig s, alookup newSig sig = some s →
      (s < e.fields.length ∧ makeSignature (fieldAt e s) = sig) ∨
      (s = e.fields.length ∧ makeSignature path = sig))
    (hcoll : ∀ sig lst, alookup newColl sig = some lst → ∀ s ∈ lst,
      (s < e.fields.length ∧ makeSignature (fieldAt e s) = sig) ∨
      (s = e.fields.length ∧ makeSignature path = sig))
    (hcomp_old : ∀ s, s < e.fields.length →
      alookup newSig (makeSignature (fieldAt e s)) = some s ∨
      ∃ lst, alookup newColl (makeSignature (fieldAt e s)) = some lst ∧
        s ∈ lst)
    (hcomp_new : alookup newSig (makeSignature path) = some e.fields.length
      ∨ ∃ lst, alookup newColl (makeSignature path) = some lst ∧
        e.fields.length ∈ lst) :
    RegInv (newNestedUFE e path pfx newSig newColl) := by
  have hlen : (newNestedUFE e path pfx newSig newColl).fields.length =
      e.fields.length + 1 := by simp [newNestedUFE]
  have hfa_lt : ∀ s, s < e.fields.length →
      fieldAt (newNestedUFE e path pfx newSig newColl) s = fieldAt e s := by
    intro s hs
    show (e.fields ++ [path]).getD s [] = e.fields.getD s []
    exact getD_snoc_lt _ _ _ _ hs
  have hfa_new : fieldAt (newNestedUFE e path pfx newSig newColl)
      e.fields.length = path := by
    show (e.fields ++ [path]).getD e.fields.length [] = path
    exact getD_snoc_self _ _ _
  have hzip : (e.nestedSlots ++ [e.fields.length]).zip
      (e.nestedPfxs ++ [pfx]) =
      e.nestedSlots.zip e.nestedPfxs ++ [(e.fields.length, pfx)] :=
    List.zip_append hI.len_zip
  refine ⟨hI.not_finalized, ?_, ?_, ?_, ?_, ?_, ?_, ?_, ?_, ?_, ?_, ?_,
    hI.npfx_empty⟩
  · show (e.isNested ++ [true]).length = (e.fields ++ [path]).length
    simp [hI.len_nested]
  · show (e.nestedSlots ++ [e.fields.length]).length =
      (e.nestedPfxs ++ [pfx]).length
    simp [hI.len_zip]
  · show (e.fields ++ [path]).Nodup
    simp [List.nodup_append, hI.fields_nodup, hnotin]
  · intro s hs
    rw [hlen] at hs
    by_cases hslt : s < e.fields.length
    · rw [hfa_lt s hslt]
      show (e.isNested ++ [true]).getD s false = true ↔ _
      rw [getD_snoc_lt _ _ _ _ (by rw [hI.len_nested]; exact hslt)]
      exact hI.classify s hslt
    · have hseq : s = e.fields.length := by omega
      subst hseq
      rw [hfa_new]
      show (e.isNested ++ [true]).getD e.fields.length false = true ↔ _
      rw [show e.fields.length = e.isNested.length from hI.len_nested.symm,
        getD_snoc_self]
      rw [hsp]
      simp
  · intro sig s h
    rcases hsig sig s h with ⟨h1, h2⟩ | ⟨h1, h2⟩
    · rw [hlen, hfa_lt s h1]
      exact ⟨by omega, h2⟩
    · subst h1
      rw [hlen, hfa_new]
      exact ⟨by omega, h2⟩
  · intro sig lst h s hs
    rcases hcoll sig lst h s hs with ⟨h1, h2⟩ | ⟨h1, h2⟩
    · rw [hlen, hfa_lt s h1]
      exact ⟨by omega, h2⟩
    · subst h1
      rw [hlen, hfa_new]
      exact ⟨by omega, h2⟩
  · intro s hs
    rw [hlen] at hs
    by_cases hslt : s < e.fields.length
    · rw [hfa_lt s hslt]
      exact hcomp_old s hslt
    · have hseq : s = e.fields.length := by omega
      subst hseq
      rw [hfa_new]
      exact hcomp_new
  · intro pr hpr
    have hpr2 : pr ∈ e.nestedSlots.zip e.nestedPfxs ++
        [(e.fields.length, pfx)] := by
      rw [← hzip]
      exact hpr
    rcases List.mem_append.mp hpr2 with hpr1 | hpr1
    · obtain ⟨h1, h2, h3⟩ := hI.zip_sound pr hpr1
      rw [hlen]
      refine ⟨by omega, ?_, ?_⟩
      · show (e.isNested ++ [true]).getD pr.1 false = true
        rw [getD_snoc_lt _ _ _ _ (by rw [hI.len_nested]; exact h1)]
        exact h2
      · rw [hfa_lt pr.1 h1]
        exact h3
    · have hpr3 : pr = (e.fields.length, pfx) := by simpa using hpr1
      subst hpr3
      rw [hlen]
      refine ⟨by omega, ?_, ?_⟩
      · show (e.isNested ++ [true]).getD e.fields.length false = true
        rw [show e.fields.length = e.isNested.length from
          hI.len_nested.symm, getD_snoc_self]
      · rw [hfa_new]
        unfold pfxOf
        rw [hsp]
  · intro s hs hn
    rw [hlen] at hs
    have hn2 : (e.isNested ++ [true]).getD s false = true := hn
    show _ ∈ (e.nestedSlots ++ [e.fields.length]).zip
      (e.nestedPfxs ++ [pfx])
    rw [hzip]
    by_cases hslt : s < e.fields.length
    · rw [hfa_lt s hslt]
      apply List.mem_append_left
      apply hI.zip_complete s hslt
      rw [← getD_snoc_lt e.isNested true false s
        (by rw [hI.len_nested]; exact hslt)]
      exact hn2
    · have hseq : s = e.fields.length := by omega
      subst hseq
      rw [hfa_new]
      apply List.mem_append_right
      simp [pfxOf, hsp]
  · show (e.nestedSlots ++ [e.fields.length]).Nodup
    rw [List.nodup_append]
    refine ⟨hI.nested_nodup, List.nodup_singleton _, ?_⟩
    intro x hx hx2
    have h1 := hI.nested_bound x hx
    have h2 : x = e.fields.length := by simpa using hx2
    omega
  · intro s hs
    have hs2 : s ∈ e.nestedSlots ++ [e.fields.length] := hs
    rcases List.mem_append.mp hs2 with hs1 | hs1
    · have := hI.nested_bound s hs1
      rw [hlen]
      omega
    · have h2 : s = e.fields.length := by simpa using hs1
      rw [hlen]
      omega

end Extractor

namespace Extractor

theorem regInv_registerField (e : UFE) (path : FName) (hI : RegInv e) :
    RegInv (registerField e path).2 := by
  have hf : ¬ e.finalized = true := by rw [hI.not_finalized]; simp
  rcases hres : registerField e path with ⟨rs, e'⟩
  show RegInv e'
  simp only [registerField, if_neg hf] at hres
  rcases hpr : alookup e.sigToSlot (makeSignature path) with _ | s0
  · -- primary miss
    simp only [hpr] at hres
    rcases hcol : findByPath e
        ((alookup e.collisionSlots (makeSignature path)).getD []) path
      with _ | s1
    · simp only [hcol] at hres
      by_cases hcap : kMaxFields - 1 ≤ e.fields.length
      · rw [if_pos hcap] at hres
        injection hres with h1 h2
        subst h2
        exact hI
      · rw [if_neg hcap] at hres
        have hnotin : path ∉ e.fields := by
          intro hmem
          obtain ⟨i, hi, hfi⟩ := mem_fields_idx e path hmem
          rcases hI.lookup_complete i hi with hcl | ⟨lst, hcl, hmm⟩
          · rw [hfi, hpr] at hcl
            cases hcl
          · rw [hfi] at hcl
            have hd : (alookup e.collisionSlots
                (makeSignature path)).getD [] = lst := by
              rw [hcl]
              rfl
            exact findByPath_none e _ path hcol i
              (by rw [hd]; exact hmm) hfi
        have hsig : ∀ sig s,
            alookup (aset e.sigToSlot (makeSignature path)
              e.fields.length) sig = some s →
            (s < e.fields.length ∧ makeSignature (fieldAt e s) = sig) ∨
            (s = e.fields.length ∧ makeSignature path = sig) := by
          intro sig s h
          by_cases hk : sig = makeSignature path
          · subst hk
            rw [alookup_aset_self] at h
            injection h with h
            exact Or.inr ⟨h.symm, rfl⟩
          · rw [alookup_aset_ne _ _ _ _ hk] at h
            exact Or.inl (hI.sig_sound sig s h)
        have hcoll : ∀ sig lst,
            alookup e.collisionSlots sig = some lst → ∀ s ∈ lst,
            (s < e.fields.length ∧ makeSignature (fieldAt e s) = sig) ∨
            (s = e.fields.length ∧ makeSignature path = sig) := by
          intro sig lst h s hs
          exact Or.inl (hI.coll_sound sig lst h s hs)
        have hcomp_old : ∀ s, s < e.fields.length →
            alookup (aset e.sigToSlot (makeSignature path)
              e.fields.length) (makeSignature (fieldAt e s)) = some s ∨
            ∃ lst, alookup e.collisionSlots
              (makeSignature (fieldAt e s)) = some lst ∧ s ∈ lst := by
          intro s hs
          rcases hI.lookup_complete s hs with hcl | hcl
          · left
            have hk : makeSignature (fieldAt e s) ≠ makeSignature path := by
              intro hh
              rw [hh, hpr] at hcl
              cases hcl
            rw [alookup_aset_ne _ _ _ _ hk]
            exact hcl
          · exact Or.inr hcl
        have hcomp_new :
            alookup (aset e.sigToSlot (makeSignature path)
              e.fields.length) (makeSignature path) =
              some e.fields.length ∨
            ∃ lst, alookup e.collisionSlots (makeSignature path) =
              some lst ∧ e.fields.length ∈ lst :=
          Or.inl (alookup_aset_self _ _ _)
        rcases hsp : splitAtDot path with ⟨pfx, tl⟩
        cases tl with
        | none =>
          simp only [hsp] at hres
          injection hres with h1 h2
          subst h2
          exact regInv_new_top e path hI hnotin (by rw [hsp]) _ _
            hsig hcoll hcomp_old hcomp_new
        | some tail =>
          simp only [hsp] at hres
          injection hres with h1 h2
          subst h2
          exact regInv_new_nested e path pfx tail hI hnotin hsp _ _
            hsig hcoll hcomp_old hcomp_new
    · simp only [hcol] at hres
      injection hres with h1 h2
      subst h2
      exact hI
  · -- primary hit
    simp only [hpr] at hres
    by_cases hfa : fieldAt e s0 = path
    · rw [if_pos hfa] at hres
      injection hres with h1 h2
      subst h2
      exact hI
    · rw [if_neg hfa] at hres
      rcases hscan : scanFields e.fields path 0 with _ | i
      · have hnotin : path ∉ e.fields :=
          (scanFields_none_iff _ _ _).mp hscan
        simp only [hscan] at hres
        rcases hcol : findByPath e
            ((alookup e.collisionSlots (makeSignature path)).getD []) path
          with _ | s1
        · simp only [hcol] at hres
          by_cases hcap : kMaxFields - 1 ≤ e.fields.length
          · rw [if_pos hcap] at hres
            injection hres with h1 h2
            subst h2
            exact hI
          · rw [if_neg hcap] at hres
            have hsig : ∀ sig s, alookup e.sigToSlot sig = some s →
                (s < e.fields.length ∧
                  makeSignature (fieldAt e s) = sig) ∨
                (s = e.fields.length ∧ makeSignature path = sig) := by
              intro sig s h
              exact Or.inl (hI.sig_sound sig s h)
            have hcoll : ∀ sig lst,
                alookup (aset e.collisionSlots (makeSignature path)
                  ((alookup e.collisionSlots
                    (makeSignature path)).getD [] ++ [e.fields.length]))
                  sig = some lst → ∀ s ∈ lst,
                (s < e.fields.length ∧
                  makeSignature (fieldAt e s) = sig) ∨
                (s = e.fields.length ∧ makeSignature path = sig) := by
              intro sig lst h s hs
              by_cases hk : sig = makeSignature path
              · subst hk
                rw [alookup_aset_self] at h
                injection h with h
                rw [← h] at hs
                rcases List.mem_append.mp hs with hs1 | hs1
                · rcases hcl2 : alookup e.collisionSlots
                      (makeSignature path) with _ | oldLst
                  · rw [hcl2] at hs1
                    cases hs1
                  · rw [hcl2] at hs1
                    exact Or.inl
                      (hI.coll_sound _ oldLst hcl2 s hs1)
                · have : s = e.fields.length := by simpa using hs1
                  exact Or.inr ⟨this, rfl⟩
              · rw [alookup_aset_ne _ _ _ _ hk] at h
                exact Or.inl (hI.coll_sound sig lst h s hs)
            have hcomp_old : ∀ s, s < e.fields.length →
                alookup e.sigToSlot (makeSignature (fieldAt e s)) =
                  some s ∨
                ∃ lst, alookup (aset e.collisionSlots
                  (makeSignature path)
                  ((alookup e.collisionSlots
                    (makeSignature path)).getD [] ++ [e.fields.length]))
                  (makeSignature (fieldAt e s)) = some lst ∧ s ∈ lst := by
              intro s hs
              rcases hI.lookup_complete s hs with hcl | ⟨lst, hcl, hmm⟩
              · exact Or.inl hcl
              · right
                by_cases hk : makeSignature (fieldAt e s) =
                    makeSignature path
                · rw [hk, alookup_aset_self]
                  refine ⟨_, rfl, ?_⟩
                  apply List.mem_append_left
                  rw [hk] at hcl
                  rw [hcl]
                  exact hmm
                · rw [alookup_aset_ne _ _ _ _ hk]
                  exact ⟨lst, hcl, hmm⟩
            have hcomp_new :
                alookup e.sigToSlot (makeSignature path) =
                  some e.fields.length ∨
                ∃ lst, alookup (aset e.collisionSlots
                  (makeSignature path)
                  ((alookup e.collisionSlots
                    (makeSignature path)).getD [] ++ [e.fields.length]))
                  (makeSignature path) = some lst ∧
                  e.fields.length ∈ lst := by
              right
              rw [alookup_aset_self]
              exact ⟨_, rfl, List.mem_append_right _ (by simp)⟩
            rcases hsp : splitAtDot path with ⟨pfx, tl⟩
            cases tl with
            | none =>
              simp only [hsp] at hres
              injection hres with h1 h2
              subst h2
              exact regInv_new_top e path hI hnotin (by rw [hsp]) _ _
                hsig hcoll hcomp_old hcomp_new
            | some tail =>
              simp only [hsp] at hres
              injection hres with h1 h2
              subst h2
              exact regInv_new_nested e path pfx tail hI hnotin hsp _ _
                hsig hcoll hcomp_old hcomp_new
        · simp only [hcol] at hres
          injection hres with h1 h2
          subst h2
          exact hI
      · simp only [hscan] at hres
        injection hres with h1 h2
        subst h2
        exact hI

theorem regInv_registerAll (paths : List FName) :
    RegInv (registerAll emptyUFE paths) := by
  have hgen : ∀ (ps : List FName) (e : UFE), RegInv e →
      RegInv (ps.foldl (fun acc p => (registerField acc p).2) e) := by
    intro ps
    induction ps with
    | nil => exact fun e h => h
    | cons p rest ih =>
      intro e h
      exact ih _ (regInv_registerField e p h)
  exact hgen paths emptyUFE regInv_empty

end Extractor

namespace Extractor

theorem pfxInsert_sigs (acc : UFE) (z : Nat × FName) :
    (pfxInsert acc z).nestedPfxSigs =
      aset acc.nestedPfxSigs (makeSignature z.2)
        (((alookup acc.nestedPfxSigs (makeSignature z.2)).getD []) ++ [z.1]) :=
  rfl

theorem finalizeReg_eq_fold (e : UFE) :
    finalizeReg e =
      (e.nestedSlots.zip e.nestedPfxs).foldl pfxInsert (finalizeBase e) :=
  rfl

theorem pfxFold_parts (zs : List (Nat × FName)) :
    ∀ (acc : UFE),
    (zs.foldl pfxInsert acc).fields = acc.fields ∧
      (zs.foldl pfxInsert acc).isNested = acc.isNested ∧
      (zs.foldl pfxInsert acc).sigToSlot = acc.sigToSlot ∧
      (zs.foldl pfxInsert acc).collisionSlots = acc.collisionSlots ∧
      (zs.foldl pfxInsert acc).nestedPfxs = acc.nestedPfxs ∧
      (zs.foldl pfxInsert acc).slots = acc.slots ∧
      (zs.foldl pfxInsert acc).hasArrayAlongPathV = acc.hasArrayAlongPathV := by
  induction zs with
  | nil => exact fun acc => ⟨rfl, rfl, rfl, rfl, rfl, rfl, rfl⟩
  | cons z rest ih => exact fun acc => ih (pfxInsert acc z)

theorem pfxFold_sound (P : Nat → Nat → Prop) :
    ∀ (zs : List (Nat × FName)) (acc : UFE),
    (∀ pr ∈ zs, P pr.1 (makeSignature pr.2)) →
    (∀ sig lst, alookup acc.nestedPfxSigs sig = some lst →
      ∀ s ∈ lst, P s sig) →
    ∀ sig lst,
      alookup ((zs.foldl pfxInsert acc).nestedPfxSigs) sig = some lst →
      ∀ s ∈ lst, P s sig := by
  intro zs
  induction zs with
  | nil => intro acc _ h0; exact h0
  | cons z rest ih =>
    intro acc hzs h0
    rw [List.foldl_cons]
    refine ih (pfxInsert acc z)
      (fun pr hpr => hzs pr (List.mem_cons_of_mem _ hpr)) ?_
    intro sig lst h s hs
    rw [pfxInsert_sigs] at h
    by_cases hk : sig = makeSignature z.2
    · subst hk
      rw [alookup_aset_self] at h
      injection h with h
      rw [← h] at hs
      rcases List.mem_append.mp hs with h1 | h1
      · rcases hm : alookup acc.nestedPfxSigs (makeSignature z.2)
          with _ | old
        · rw [hm] at h1
          simp at h1
        · rw [hm] at h1
          exact h0 _ old hm s h1
      · have hsz : s = z.1 := by simpa using h1
        rw [hsz]
        exact hzs z (List.mem_cons_self _ _)
    · rw [alookup_aset_ne _ _ _ _ hk] at h
      exact h0 sig lst h s hs

theorem pfxFold_mono (zs : List (Nat × FName)) :
    ∀ (acc : UFE) (sig s : Nat),
    (∃ lst, alookup acc.nestedPfxSigs sig = some lst ∧ s ∈ lst) →
    ∃ lst, alookup ((zs.foldl pfxInsert acc).nestedPfxSigs) sig = some lst ∧
      s ∈ lst := by
  induction zs with
  | nil => intro acc sig s h; exact h
  | cons z rest ih =>
    intro acc sig s h
    rw [List.foldl_cons]
    refine ih (pfxInsert acc z) sig s ?_
    obtain ⟨lst, hl, hs⟩ := h
    by_cases hk : sig = makeSignature z.2
    · subst hk
      rw [pfxInsert_sigs]
      refine ⟨_, alookup_aset_self _ _ _, ?_⟩
      apply List.mem_append_left
      rw [hl]
      exact hs
    · refine ⟨lst, ?_, hs⟩
      rw [pfxInsert_sigs, alookup_aset_ne _ _ _ _ hk]
      exact hl

theorem pfxFold_complete (zs : List (Nat × FName)) :
    ∀ (acc : UFE) (pr : Nat × FName), pr ∈ zs →
    ∃ lst, alookup ((zs.foldl pfxInsert acc).nestedPfxSigs)
        (makeSignature pr.2) = some lst ∧ pr.1 ∈ lst := by
  induction zs with
  | nil => intro acc pr h; cases h
  | cons z rest ih =>
    intro acc pr h
    rw [List.foldl_cons]
    rcases List.mem_cons.mp h with h | h
    · rw [h]
      refine pfxFold_mono rest (pfxInsert acc z) (makeSignature z.2) z.1 ?_
      rw [pfxInsert_sigs]
      exact ⟨_, alookup_aset_self _ _ _,
        List.mem_append_right _ (by simp)⟩
    · exact ih (pfxInsert acc z) pr h

theorem extInv_finalizeReg (e : UFE) (hI : RegInv e) :
    ExtInv (finalizeReg e) := by
  obtain ⟨p1, p2, p3, p4, p5, p6, p7⟩ :=
    pfxFold_parts (e.nestedSlots.zip e.nestedPfxs) (finalizeBase e)
  have hfe : (finalizeReg e).fields = e.fields := by
    rw [finalizeReg_eq_fold]; exact p1
  have hne : (finalizeReg e).isNested = e.isNested := by
    rw [finalizeReg_eq_fold]; exact p2
  have hse : (finalizeReg e).sigToSlot = e.sigToSlot := by
    rw [finalizeReg_eq_fold]; exact p3
  have hce : (finalizeReg e).collisionSlots = e.collisionSlots := by
    rw [finalizeReg_eq_fold]; exact p4
  have hpe : (finalizeReg e).nestedPfxs = e.nestedPfxs := by
    rw [finalizeReg_eq_fold]; exact p5
  have hsl : (finalizeReg e).slots = List.replicate e.fields.length none := by
    rw [finalizeReg_eq_fold]; exact p6
  have hfl : (finalizeReg e).hasArrayAlongPathV =
      List.replicate e.fields.length false := by
    rw [finalizeReg_eq_fold]; exact p7
  have hfa : ∀ s, fieldAt (finalizeReg e) s = fieldAt e s := by
    intro s
    unfold fieldAt
    rw [hfe]
  refine ⟨?_, ?_, ?_, ?_, ?_, ?_, ?_, ?_, ?_, ?_⟩
  · rw [hne, hfe]
    exact hI.len_nested
  · rw [hfe]
    exact hI.fields_nodup
  · intro s hs
    rw [hfe] at hs
    rw [hne, hfa]
    exact hI.classify s hs
  · intro sig s h
    rw [hse] at h
    rw [hfe, hfa]
    exact hI.sig_sound sig s h
  · intro sig lst h s hs
    rw [hce] at h
    rw [hfe, hfa]
    exact hI.coll_sound sig lst h s hs
  · intro s hs
    rw [hfe] at hs
    rw [hse, hce, hfa]
    exact hI.lookup_complete s hs
  · intro sig lst h s hs
    rw [hfe, hne, hfa, hpe]
    rw [finalizeReg_eq_fold] at h
    refine pfxFold_sound
      (fun t sg => t < e.fields.length ∧ e.isNested.getD t false = true ∧
        makeSignature (pfxOf (fieldAt e t)) = sg ∧
        pfxOf (fieldAt e t) ∈ e.nestedPfxs)
      _ _ ?_ ?_ sig lst h s hs
    · intro pr hpr
      obtain ⟨h1, h2, h3⟩ := hI.zip_sound pr hpr
      refine ⟨h1, h2, by rw [← h3], ?_⟩
      rw [← h3]
      exact (List.of_mem_zip hpr).2
    · intro sg lst2 h2 t ht
      have h3 : alookup e.nestedPfxSigs sg = some lst2 := h2
      rw [hI.npfx_empty] at h3
      simp [alookup] at h3
  · intro s hs hn
    rw [hfe] at hs
    rw [hne] at hn
    rw [hfa, finalizeReg_eq_fold]
    exact pfxFold_complete (e.nestedSlots.zip e.nestedPfxs) (finalizeBase e)
      (s, pfxOf (fieldAt e s)) (hI.zip_complete s hs hn)
  · rw [hsl, hfe]
    simp
  · rw [hfl, hfe]
    simp

theorem extInv_built (paths : List FName) :
    ExtInv (finalizeReg (registerAll emptyUFE paths)) :=
  extInv_finalizeReg _ (regInv_registerAll paths)

end Extractor

namespace Extractor

/-! #### Unfolding equations for the dotted-path walkers, and the
traversal-agreement core of claim C2 -/

theorem impl_eq_none (fs : List (FName × BVal)) (path comp : FName)
    (h : splitAtDot path = (comp, none)) :
    Dps.extractPathOrArrayImpl fs path = (getFieldE fs path, []) := by
  rw [Dps.extractPathOrArrayImpl]
  split
  · rename_i comp2 rest2 heq
    rw [h] at heq
    cases heq
  · rfl

theorem impl_eq_some (fs : List (FName × BVal)) (path comp rest : FName)
    (h : splitAtDot path = (comp, some rest)) :
    Dps.extractPathOrArrayImpl fs path =
      (match getFieldE fs comp with
       | none => (none, rest)
       | some (n, v) =>
           if isArrB v || rest.isEmpty then (some (n, v), rest)
           else
             match v with
             | .objV fs2 => Dps.extractPathOrArrayImpl fs2 rest
             | _ => (none, rest)) := by
  rw [Dps.extractPathOrArrayImpl]
  split
  · rename_i comp2 rest2 heq
    rw [h] at heq
    injection heq with e1 e2
    injection e2 with e2
    subst e1
    subst e2
    rfl
  · rename_i comp2 heq
    rw [h] at heq
    cases heq

theorem eap_eq (fs : List (FName × BVal)) (path : FName) :
    Dps.extractElementAtPath fs path =
      match getFieldE fs path with
      | some e => some e
      | none =>
        match splitAtDot path with
        | (left, some right) =>
            if (getObjectField fs left).isEmpty then none
            else Dps.extractElementAtPath (getObjectField fs left) right
        | (_, none) => none := by
  rw [Dps.extractElementAtPath]
  rcases hf : getFieldE fs path with _ | e
  · simp only []
    split
    · rename_i l r heq
      rw [heq]
    · rename_i l heq
      rw [heq]
  · rfl

theorem impl_eq_some_none (fs : List (FName × BVal)) (path comp rest : FName)
    (h : splitAtDot path = (comp, some rest))
    (hf : getFieldE fs comp = none) :
    Dps.extractPathOrArrayImpl fs path = (none, rest) := by
  rw [Dps.extractPathOrArrayImpl]
  split
  · rename_i comp2 rest2 heq
    rw [h] at heq
    injection heq with e1 e2
    injection e2 with e2
    subst e1
    subst e2
    split
    · rename_i heq2
      rfl
    · rename_i n2 v2 heq2
      rw [hf] at heq2
      cases heq2
  · rename_i comp2 heq
    rw [h] at heq
    cases heq

theorem impl_eq_arr (fs fs2 : List (FName × BVal)) (path comp rest nm : FName)
    (h : splitAtDot path = (comp, some rest))
    (hf : getFieldE fs comp = some (nm, BVal.arrV fs2)) :
    Dps.extractPathOrArrayImpl fs path = (some (nm, BVal.arrV fs2), rest) := by
  rw [Dps.extractPathOrArrayImpl]
  split
  · rename_i comp2 rest2 heq
    rw [h] at heq
    injection heq with e1 e2
    injection e2 with e2
    subst e1
    subst e2
    split
    · rename_i heq2
      rw [hf] at heq2
      cases heq2
    · rename_i n2 v2 heq2
      rw [hf] at heq2
      injection heq2 with heq2
      injection heq2 with a b
      subst a
      subst b
      rw [if_pos (show (isArrB (BVal.arrV fs2) || rest.isEmpty) = true by simp [isArrB])]
  · rename_i comp2 heq
    rw [h] at heq
    cases heq

theorem impl_eq_int32 (fs : List (FName × BVal)) (path comp rest nm : FName)
    (k : Nat) (h : splitAtDot path = (comp, some rest))
    (hf : getFieldE fs comp = some (nm, BVal.int32V k))
    (hres : rest.isEmpty = false) :
    Dps.extractPathOrArrayImpl fs path = (none, rest) := by
  rw [Dps.extractPathOrArrayImpl]
  split
  · rename_i comp2 rest2 heq
    rw [h] at heq
    injection heq with e1 e2
    injection e2 with e2
    subst e1
    subst e2
    split
    · rename_i heq2
      exact absurd (hf.symm.trans heq2) (fun hh => Option.noConfusion hh)
    · rename_i n2 v2 heq2
      have heq3 := hf.symm.trans heq2
      injection heq3 with heq2
      injection heq2 with a b
      subst a
      subst b
      rw [if_neg (show ¬ ((isArrB (BVal.int32V k) || rest.isEmpty) = true) by simp [isArrB, hres])]
  · rename_i comp2 heq
    rw [h] at heq
    cases heq

theorem impl_eq_int64 (fs : List (FName × BVal)) (path comp rest nm : FName)
    (k : Nat) (h : splitAtDot path = (comp, some rest))
    (hf : getFieldE fs comp = some (nm, BVal.int64V k))
    (hres : rest.isEmpty = false) :
    Dps.extractPathOrArrayImpl fs path = (none, rest) := by
  rw [Dps.extractPathOrArrayImpl]
  split
  · rename_i comp2 rest2 heq
    rw [h] at heq
    injection heq with e1 e2
    injection e2 with e2
    subst e1
    subst e2
    split
    · rename_i heq2
      exact absurd (hf.symm.trans heq2) (fun hh => Option.noConfusion hh)
    · rename_i n2 v2 heq2
      have heq3 := hf.symm.trans heq2
      injection heq3 with heq2
      injection heq2 with a b
      subst a
      subst b
      rw [if_neg (show ¬ ((isArrB (BVal.int64V k) || rest.isEmpty) = true) by simp [isArrB, hres])]
  · rename_i comp2 heq
    rw [h] at heq
    cases heq

theorem impl_eq_obj (fs fs2 : List (FName × BVal)) (path comp rest nm : FName)
    (h : splitAtDot path = (comp, some rest))
    (hf : getFieldE fs comp = some (nm, BVal.objV fs2))
    (hres : rest.isEmpty = false) :
    Dps.extractPathOrArrayImpl fs path = Dps.extractPathOrArrayImpl fs2 rest := by
  rw [Dps.extractPathOrArrayImpl]
  split
  · rename_i comp2 rest2 heq
    rw [h] at heq
    injection heq with e1 e2
    injection e2 with e2
    subst e1
    subst e2
    split
    · rename_i heq2
      rw [hf] at heq2
      cases heq2
    · rename_i n2 v2 heq2
      rw [hf] at heq2
      injection heq2 with heq2
      injection heq2 with a b
      subst a
      subst b
      rw [if_neg (show ¬ ((isArrB (BVal.objV fs2) || rest.isEmpty) = true) by simp [isArrB, hres])]
  · rename_i comp2 heq
    rw [h] at heq
    cases heq

theorem eap_hit (fs : List (FName × BVal)) (path : FName) (e : FName × BVal)
    (hf : getFieldE fs path = some e) :
    Dps.extractElementAtPath fs path = some e := by
  rw [eap_eq, hf]

theorem eap_miss_none (fs : List (FName × BVal)) (path c : FName)
    (hf : getFieldE fs path = none) (hsp : splitAtDot path = (c, none)) :
    Dps.extractElementAtPath fs path = none := by
  rw [eap_eq, hf, hsp]

theorem eap_miss_some (fs : List (FName × BVal)) (path c r : FName)
    (hf : getFieldE fs path = none) (hsp : splitAtDot path = (c, some r)) :
    Dps.extractElementAtPath fs path =
      if (getObjectField fs c).isEmpty then none
      else Dps.extractElementAtPath (getObjectField fs c) r := by
  rw [eap_eq, hf, hsp]

theorem eap_nil (path : FName) : Dps.extractElementAtPath [] path = none := by
  rcases hsp : splitAtDot path with ⟨l, tl⟩
  cases tl with
  | none => exact eap_miss_none [] path l rfl hsp
  | some r =>
    rw [eap_miss_some [] path l r rfl hsp]
    simp [getObjectField, getFieldE]

theorem poa_eq_none (fs : List (FName × BVal)) (path c : FName)
    (hsp : splitAtDot path = (c, none)) :
    Dps.extractPathOrArray fs path = (getFieldE fs path, []) := by
  unfold Dps.extractPathOrArray
  rw [hsp]

theorem poa_eq_some (fs : List (FName × BVal)) (path c r : FName)
    (hsp : splitAtDot path = (c, some r)) :
    Dps.extractPathOrArray fs path = Dps.extractPathOrArrayImpl fs path := by
  unfold Dps.extractPathOrArray
  rw [hsp]

theorem core_impl : ∀ (n : Nat) (path : FName) (fs : List (FName × BVal)),
    path.length ≤ n → noDotsL fs = true → wfAux path = true →
    (Dps.extractPathOrArrayImpl fs path).2 = [] →
    (Dps.extractPathOrArrayImpl fs path).1 =
      Dps.extractElementAtPath fs path := by
  intro n
  induction n with
  | zero =>
    intro path fs hlen _ hwf _
    have hp : path = [] := List.length_eq_zero.mp (Nat.le_zero.mp hlen)
    rw [hp, wfAux] at hwf
    cases hwf
  | succ m ih =>
    intro path fs hlen hnod hwf h2
    rcases hsp : splitAtDot path with ⟨comp, tl⟩
    cases tl with
    | none =>
      rw [impl_eq_none fs path comp hsp]
      rcases hf : getFieldE fs path with _ | e
      · rw [eap_miss_none fs path comp hf hsp]
      · rw [eap_hit fs path e hf]
    | some rest =>
      have hwfr : wfAux rest = true := by
        rcases (wf_split path).1 hwf with ⟨hn, _⟩ | ⟨r, hr, _, hwfr⟩
        · rw [hsp] at hn
          exact Option.noConfusion hn
        · rw [hsp] at hr
          have hr2 : some rest = some r := hr
          injection hr2 with hr2
          rwa [hr2]
      have hrne : rest ≠ [] := by
        intro h
        rw [h, wfAux] at hwfr
        cases hwfr
      have hres : rest.isEmpty = false := by
        cases rest with
        | nil => exact absurd rfl hrne
        | cons a b => rfl
      have hdot : (splitAtDot path).2.isSome = true := by
        rw [hsp]
        rfl
      have hnone : getFieldE fs path = none :=
        getFieldE_dotted_none fs path hdot hnod
      rcases hf : getFieldE fs comp with _ | e
      · rw [impl_eq_some_none fs path comp rest hsp hf] at h2
        exact absurd h2 hrne
      · obtain ⟨nm, v⟩ := e
        cases v with
        | arrV fs2 =>
          rw [impl_eq_arr fs fs2 path comp rest nm hsp hf] at h2
          exact absurd h2 hrne
        | int32V k =>
          rw [impl_eq_int32 fs path comp rest nm k hsp hf hres] at h2
          exact absurd h2 hrne
        | int64V k =>
          rw [impl_eq_int64 fs path comp rest nm k hsp hf hres] at h2
          exact absurd h2 hrne
        | objV fs2 =>
          rw [impl_eq_obj fs fs2 path comp rest nm hsp hf hres] at h2 ⊢
          rw [eap_miss_some fs path comp rest hnone hsp]
          have hgo : getObjectField fs comp = fs2 := by
            unfold getObjectField
            rw [hf]
          rw [hgo]
          have hnod2 : noDotsL fs2 = true := by
            have hmem := getFieldE_mem_of_some fs comp (nm, BVal.objV fs2) hf
            have hnd := (noDotsL_facts fs hnod _ hmem.1).2
            simpa [noDotsV] using hnd
          have hlen2 : rest.length ≤ m := by
            have := splitAtDot_some_length path comp rest hsp
            omega
          rw [ih rest fs2 hlen2 hnod2 hwfr h2]
          by_cases hemp : fs2.isEmpty = true
          · rw [if_pos hemp]
            have h0 : fs2 = [] := by
              cases fs2 with
              | nil => rfl
              | cons a b => cases hemp
            rw [h0, eap_nil]
          · rw [if_neg hemp]

theorem core_poa (fs : List (FName × BVal)) (path : FName)
    (hnod : noDotsL fs = true) (hwf : wfAux path = true)
    (h2 : (Dps.extractPathOrArray fs path).2 = []) :
    (Dps.extractPathOrArray fs path).1 =
      Dps.extractElementAtPath fs path := by
  rcases hsp : splitAtDot path with ⟨l, tl⟩
  cases tl with
  | none =>
    rw [poa_eq_none fs path l hsp]
    rcases hff : getFieldE fs path with _ | e
    · rw [eap_miss_none fs path l hff hsp]
    · rw [eap_hit fs path e hff]
  | some r =>
    rw [poa_eq_some fs path l r hsp] at h2 ⊢
    exact core_impl path.length path fs le_rfl hnod hwf h2

end Extractor

namespace Extractor

/-! #### The per-element step of extract, stage by stage (claim C2) -/

theorem extractStep_eq (acc : UFE) (elem : FName × BVal) :
    extractStep acc elem = stage3 (stage2 (stage1 acc elem) elem) elem := rfl

theorem findTopByName_some (e : UFE) (lst : List Nat) (name : FName) (t : Nat)
    (h : findTopByName e lst name = some t) :
    t ∈ lst ∧ e.isNested.getD t false = false ∧ fieldAt e t = name := by
  induction lst with
  | nil => cases h
  | cons a rest ih =>
    rw [findTopByName] at h
    split at h
    · rename_i hcond
      injection h with h
      subst h
      refine ⟨List.mem_cons_self _ _, ?_, hcond.2⟩
      cases hh : e.isNested.getD a false
      · rfl
      · exact absurd hh hcond.1
    · rename_i hcond
      obtain ⟨m, b, c⟩ := ih h
      exact ⟨List.mem_cons_of_mem _ m, b, c⟩

theorem findTopByName_none (e : UFE) (lst : List Nat) (name : FName)
    (h : findTopByName e lst name = none) :
    ∀ t ∈ lst, ¬ (¬ (e.isNested.getD t false = true) ∧ fieldAt e t = name) := by
  induction lst with
  | nil => intro t ht; cases ht
  | cons a rest ih =>
    rw [findTopByName] at h
    split at h
    · cases h
    · rename_i hcond
      intro t ht
      rcases List.mem_cons.mp ht with ht1 | ht1
      · subst ht1
        exact hcond
      · exact ih h t ht1

theorem stage1_parts (acc : UFE) (elem : FName × BVal) :
    (stage1 acc elem).fields = acc.fields ∧
      (stage1 acc elem).isNested = acc.isNested ∧
      (stage1 acc elem).sigToSlot = acc.sigToSlot ∧
      (stage1 acc elem).collisionSlots = acc.collisionSlots ∧
      (stage1 acc elem).nestedPfxSigs = acc.nestedPfxSigs ∧
      (stage1 acc elem).hasArrayAlongPathV = acc.hasArrayAlongPathV ∧
      (stage1 acc elem).slots.length = acc.slots.length := by
  unfold stage1
  repeat' split
  all_goals exact ⟨rfl, rfl, rfl, rfl, rfl, rfl, by simp⟩

theorem stage2_parts (acc : UFE) (elem : FName × BVal) :
    (stage2 acc elem).fields = acc.fields ∧
      (stage2 acc elem).isNested = acc.isNested ∧
      (stage2 acc elem).sigToSlot = acc.sigToSlot ∧
      (stage2 acc elem).collisionSlots = acc.collisionSlots ∧
      (stage2 acc elem).nestedPfxSigs = acc.nestedPfxSigs ∧
      (stage2 acc elem).hasArrayAlongPathV = acc.hasArrayAlongPathV ∧
      (stage2 acc elem).slots.length = acc.slots.length := by
  unfold stage2
  repeat' split
  all_goals exact ⟨rfl, rfl, rfl, rfl, rfl, rfl, by simp⟩

theorem stage1_getD_ne (acc : UFE) (elem : FName × BVal) (s : Nat)
    (hsafe : acc.isNested.getD s false = true ∨ fieldAt acc s ≠ elem.1) :
    (stage1 acc elem).slots.getD s none = acc.slots.getD s none := by
  unfold stage1
  split
  · rename_i slot hsl
    split
    · rename_i hcond
      have hne : slot ≠ s := by
        intro hh
        subst hh
        rcases hsafe with h1 | h1
        · exact hcond.1 h1
        · exact h1 hcond.2
      exact getD_set_ne _ _ _ _ _ hne
    · rfl
  · rfl

theorem stage2_getD_ne (acc : UFE) (elem : FName × BVal) (s : Nat)
    (hsafe : acc.isNested.getD s false = true ∨ fieldAt acc s ≠ elem.1) :
    (stage2 acc elem).slots.getD s none = acc.slots.getD s none := by
  unfold stage2
  split
  · rename_i lst hsl
    split
    · rename_i slot hft
      obtain ⟨hm, hnn, hna⟩ := findTopByName_some acc lst elem.1 slot hft
      have hne : slot ≠ s := by
        intro hh
        subst hh
        rcases hsafe with h1 | h1
        · rw [h1] at hnn
          cases hnn
        · exact h1 hna
      exact getD_set_ne _ _ _ _ _ hne
    · rfl
  · rfl

end Extractor

namespace Extractor

theorem nestedFill_getD_ne (elem : FName × BVal) (acc : UFE) (t s : Nat)
    (hne : t ≠ s) :
    (nestedFill elem acc t).slots.getD s none = acc.slots.getD s none ∧
      (nestedFill elem acc t).hasArrayAlongPathV.getD s false =
        acc.hasArrayAlongPathV.getD s false := by
  unfold nestedFill
  repeat' split
  all_goals
    simp [apply_ite UFE.slots, apply_ite UFE.hasArrayAlongPathV,
      apply_ite (fun l : List BElem => l.getD s none),
      apply_ite (fun l : List Bool => l.getD s false),
      getD_set_ne, hne]
  all_goals
    split
  all_goals
    simp [← List.getD_eq_getElem?_getD, getD_set_ne, hne]

theorem nestedFill_obj_getD (en : FName) (sub : List (FName × BVal))
    (acc : UFE) (s : Nat) (pfx rest : FName)
    (hsplit : splitAtDot (fieldAt acc s) = (pfx, some rest))
    (hnone : acc.slots.getD s none = none)
    (hs : s < acc.slots.length) (hfl : s < acc.hasArrayAlongPathV.length) :
    (nestedFill (en, BVal.objV sub) acc s).slots.getD s none =
        (Dps.extractPathOrArray sub rest).1 ∧
      (nestedFill (en, BVal.objV sub) acc s).hasArrayAlongPathV.getD s false =
        (acc.hasArrayAlongPathV.getD s false ||
          !(Dps.extractPathOrArray sub rest).2.isEmpty) := by
  unfold nestedFill
  rw [hnone, hsplit]
  simp only [Option.isNone_none, if_true]
  constructor
  · split
    · split
      · exact getD_set_self _ _ _ _ hs
      · exact getD_set_self _ _ _ _ hs
    · split
      · exact getD_set_self _ _ _ _ hs
      · exact getD_set_self _ _ _ _ hs
  · split
    · split
      · rename_i hemp
        show acc.hasArrayAlongPathV.getD s false = _
        rw [hemp]
        simp
      · rename_i hemp
        have hemp2 : (Dps.extractPathOrArray sub rest).2.isEmpty = false := by
          cases hh : (Dps.extractPathOrArray sub rest).2.isEmpty
          · rfl
          · exact absurd hh hemp
        show (acc.hasArrayAlongPathV.set s true).getD s false = _
        rw [getD_set_self _ _ _ _ hfl, hemp2]
        simp
    · split
      · rename_i hemp
        show acc.hasArrayAlongPathV.getD s false = _
        rw [hemp]
        simp
      · rename_i hemp
        have hemp2 : (Dps.extractPathOrArray sub rest).2.isEmpty = false := by
          cases hh : (Dps.extractPathOrArray sub rest).2.isEmpty
          · rfl
          · exact absurd hh hemp
        show (acc.hasArrayAlongPathV.set s true).getD s false = _
        rw [getD_set_self _ _ _ _ hfl, hemp2]
        simp

theorem nestedFill_arr_getD (en : FName) (av : BVal) (acc : UFE) (s : Nat)
    (pfx rest : FName) (hnotobj : ∀ sub, av ≠ BVal.objV sub)
    (hsplit : splitAtDot (fieldAt acc s) = (pfx, some rest))
    (hnone : acc.slots.getD s none = none)
    (hs : s < acc.slots.length) (hfl : s < acc.hasArrayAlongPathV.length) :
    (nestedFill (en, av) acc s).slots.getD s none = some (en, av) ∧
      (nestedFill (en, av) acc s).hasArrayAlongPathV.getD s false = true := by
  unfold nestedFill
  rw [hnone, hsplit]
  simp only [Option.isNone_none, if_true]
  cases av with
  | objV sub => exact absurd rfl (hnotobj sub)
  | int32V k =>
    exact ⟨getD_set_self _ _ _ _ hs, getD_set_self _ _ _ _ hfl⟩
  | int64V k =>
    exact ⟨getD_set_self _ _ _ _ hs, getD_set_self _ _ _ _ hfl⟩
  | arrV fs2 =>
    exact ⟨getD_set_self _ _ _ _ hs, getD_set_self _ _ _ _ hfl⟩

end Extractor

namespace Extractor

theorem nestedFill_fix (elem : FName × BVal) (acc : UFE) (s : Nat)
    (pfx rest : FName)
    (hsplit : splitAtDot (fieldAt acc s) = (pfx, some rest))
    (hs : s < acc.slots.length) (hfl : s < acc.hasArrayAlongPathV.length)
    (h1 : acc.slots.getD s none = (nestedOutcome elem rest).1)
    (h2 : acc.hasArrayAlongPathV.getD s false = (nestedOutcome elem rest).2) :
    (nestedFill elem acc s).slots.getD s none =
        (nestedOutcome elem rest).1 ∧
      (nestedFill elem acc s).hasArrayAlongPathV.getD s false =
        (nestedOutcome elem rest).2 := by
  rcases hslot : acc.slots.getD s none with _ | x
  · obtain ⟨en, ev⟩ := elem
    cases ev with
    | objV sub =>
      have hres := nestedFill_obj_getD en sub acc s pfx rest hsplit hslot hs hfl
      refine ⟨hres.1, ?_⟩
      rw [hres.2, h2]
      exact Bool.or_self _
    | int32V k =>
      rw [hslot] at h1
      exact Option.noConfusion h1
    | int64V k =>
      rw [hslot] at h1
      exact Option.noConfusion h1
    | arrV sub2 =>
      have hres := nestedFill_arr_getD en (BVal.arrV sub2) acc s pfx rest
        (fun sub hh => BVal.noConfusion hh) hsplit hslot hs hfl
      exact ⟨hres.1, hres.2⟩
  · have hnf : nestedFill elem acc s = acc := by
      unfold nestedFill
      rw [hslot]
      rfl
    rw [hnf]
    exact ⟨h1, h2⟩

theorem foldl_nestedFill_notmem (elem : FName × BVal) (lst : List Nat) :
    ∀ (acc : UFE) (s : Nat), s ∉ lst →
    (lst.foldl (nestedFill elem) acc).slots.getD s none =
        acc.slots.getD s none ∧
      (lst.foldl (nestedFill elem) acc).hasArrayAlongPathV.getD s false =
        acc.hasArrayAlongPathV.getD s false := by
  induction lst with
  | nil => exact fun acc s _ => ⟨rfl, rfl⟩
  | cons t rest ih =>
    intro acc s hs
    rw [List.foldl_cons]
    have hne : t ≠ s := fun hh => hs (hh ▸ List.mem_cons_self _ _)
    obtain ⟨a1, a2⟩ := ih (nestedFill elem acc t) s
      (fun hh => hs (List.mem_cons_of_mem _ hh))
    obtain ⟨b1, b2⟩ := nestedFill_getD_ne elem acc t s hne
    exact ⟨a1.trans b1, a2.trans b2⟩

theorem foldl_nestedFill_fix (elem : FName × BVal) (lst : List Nat) :
    ∀ (acc : UFE) (s : Nat) (pfx rest : FName),
    splitAtDot (fieldAt acc s) = (pfx, some rest) →
    s < acc.slots.length → s < acc.hasArrayAlongPathV.length →
    acc.slots.getD s none = (nestedOutcome elem rest).1 →
    acc.hasArrayAlongPathV.getD s false = (nestedOutcome elem rest).2 →
    (lst.foldl (nestedFill elem) acc).slots.getD s none =
        (nestedOutcome elem rest).1 ∧
      (lst.foldl (nestedFill elem) acc).hasArrayAlongPathV.getD s false =
        (nestedOutcome elem rest).2 := by
  induction lst with
  | nil => exact fun acc s pfx rest _ _ _ h1 h2 => ⟨h1, h2⟩
  | cons t rest2 ih =>
    intro acc s pfx rest hsplit hs hfl h1 h2
    rw [List.foldl_cons]
    obtain ⟨q1, q2, q3, q4, q5, q6, q7⟩ := nestedFill_shape elem acc t
    have hfield : fieldAt (nestedFill elem acc t) s = fieldAt acc s := by
      unfold fieldAt
      rw [q1]
    by_cases ht : t = s
    · subst ht
      obtain ⟨c1, c2⟩ := nestedFill_fix elem acc t pfx rest hsplit hs hfl h1 h2
      exact ih (nestedFill elem acc t) t pfx rest (by rw [hfield]; exact hsplit)
        (by rw [q6]; exact hs) (by rw [q7]; exact hfl) c1 c2
    · obtain ⟨b1, b2⟩ := nestedFill_getD_ne elem acc t s ht
      exact ih (nestedFill elem acc t) s pfx rest (by rw [hfield]; exact hsplit)
        (by rw [q6]; exact hs) (by rw [q7]; exact hfl)
        (by rw [b1]; exact h1) (by rw [b2]; exact h2)

theorem foldl_nestedFill_fill (elem : FName × BVal) (lst : List Nat) :
    ∀ (acc : UFE) (s : Nat) (pfx rest : FName),
    s ∈ lst →
    splitAtDot (fieldAt acc s) = (pfx, some rest) →
    s < acc.slots.length → s < acc.hasArrayAlongPathV.length →
    acc.slots.getD s none = none →
    acc.hasArrayAlongPathV.getD s false = false →
    (lst.foldl (nestedFill elem) acc).slots.getD s none =
        (nestedOutcome elem rest).1 ∧
      (lst.foldl (nestedFill elem) acc).hasArrayAlongPathV.getD s false =
        (nestedOutcome elem rest).2 := by
  induction lst with
  | nil =>
    intro acc s pfx rest hmem
    cases hmem
  | cons t rest2 ih =>
    intro acc s pfx rest hmem hsplit hs hfl hnone hflag0
    rw [List.foldl_cons]
    obtain ⟨q1, q2, q3, q4, q5, q6, q7⟩ := nestedFill_shape elem acc t
    have hfield : fieldAt (nestedFill elem acc t) s = fieldAt acc s := by
      unfold fieldAt
      rw [q1]
    by_cases ht : t = s
    · subst ht
      have hstep : (nestedFill elem acc t).slots.getD t none =
          (nestedOutcome elem rest).1 ∧
          (nestedFill elem acc t).hasArrayAlongPathV.getD t false =
          (nestedOutcome elem rest).2 := by
        obtain ⟨en, ev⟩ := elem
        cases ev with
        | objV sub =>
          have hres := nestedFill_obj_getD en sub acc t pfx rest hsplit hnone
            hs hfl
          refine ⟨hres.1, ?_⟩
          rw [hres.2, hflag0]
          exact Bool.false_or _
        | int32V k =>
          have hres := nestedFill_arr_getD en (BVal.int32V k) acc t pfx rest
            (fun sub hh => BVal.noConfusion hh) hsplit hnone hs hfl
          exact ⟨hres.1, hres.2⟩
        | int64V k =>
          have hres := nestedFill_arr_getD en (BVal.int64V k) acc t pfx rest
            (fun sub hh => BVal.noConfusion hh) hsplit hnone hs hfl
          exact ⟨hres.1, hres.2⟩
        | arrV sub2 =>
          have hres := nestedFill_arr_getD en (BVal.arrV sub2) acc t pfx rest
            (fun sub hh => BVal.noConfusion hh) hsplit hnone hs hfl
          exact ⟨hres.1, hres.2⟩
      exact foldl_nestedFill_fix elem rest2 (nestedFill elem acc t) t pfx rest
        (by rw [hfield]; exact hsplit) (by rw [q6]; exact hs)
        (by rw [q7]; exact hfl) hstep.1 hstep.2
    · have hsmem : s ∈ rest2 := by
        rcases List.mem_cons.mp hmem with h | h
        · exact absurd h.symm ht
        · exact h
      obtain ⟨b1, b2⟩ := nestedFill_getD_ne elem acc t s ht
      exact ih (nestedFill elem acc t) s pfx rest hsmem
        (by rw [hfield]; exact hsplit) (by rw [q6]; exact hs)
        (by rw [q7]; exact hfl) (by rw [b1]; exact hnone)
        (by rw [b2]; exact hflag0)

theorem stage3_getD_ne (acc : UFE) (elem : FName × BVal) (s : Nat)
    (hsig : ∀ lst,
      alookup acc.nestedPfxSigs (makeSignature elem.1) = some lst →
      s ∉ lst) :
    (stage3 acc elem).slots.getD s none = acc.slots.getD s none ∧
      (stage3 acc elem).hasArrayAlongPathV.getD s false =
        acc.hasArrayAlongPathV.getD s false := by
  unfold stage3
  split
  · split
    · rename_i lst hl
      exact foldl_nestedFill_notmem elem lst acc s (hsig lst hl)
    · exact ⟨rfl, rfl⟩
  · exact ⟨rfl, rfl⟩

theorem stage3_scalar (acc : UFE) (elem : FName × BVal)
    (hsc : (isObjB elem.2 || isArrB elem.2) = false) :
    stage3 acc elem = acc := by
  unfold stage3
  rw [hsc]
  rfl

theorem stage3_fill (acc : UFE) (elem : FName × BVal) (s : Nat)
    (pfx rest : FName) (lst : List Nat)
    (hguard : (isObjB elem.2 || isArrB elem.2) = true)
    (hl : alookup acc.nestedPfxSigs (makeSignature elem.1) = some lst)
    (hmem : s ∈ lst)
    (hsplit : splitAtDot (fieldAt acc s) = (pfx, some rest))
    (hs : s < acc.slots.length) (hfl : s < acc.hasArrayAlongPathV.length)
    (hnone : acc.slots.getD s none = none)
    (hflag0 : acc.hasArrayAlongPathV.getD s false = false) :
    (stage3 acc elem).slots.getD s none = (nestedOutcome elem rest).1 ∧
      (stage3 acc elem).hasArrayAlongPathV.getD s false =
        (nestedOutcome elem rest).2 := by
  unfold stage3
  rw [hguard, hl]
  exact foldl_nestedFill_fill elem lst acc s pfx rest hmem hsplit hs hfl
    hnone hflag0

end Extractor

namespace Extractor

theorem stage1_none (acc : UFE) (elem : FName × BVal)
    (hpr : alookup acc.sigToSlot (makeSignature elem.1) = none) :
    stage1 acc elem = acc := by
  unfold stage1
  split
  · rename_i t2 hpr2
    rw [hpr] at hpr2
    exact Option.noConfusion hpr2
  · rfl

theorem stage1_some_no (acc : UFE) (elem : FName × BVal) (t : Nat)
    (hpr : alookup acc.sigToSlot (makeSignature elem.1) = some t)
    (hcond : ¬ (¬ (acc.isNested.getD t false = true) ∧
      fieldAt acc t = elem.1)) :
    stage1 acc elem = acc := by
  unfold stage1
  split
  · rename_i t2 hpr2
    rw [hpr] at hpr2
    injection hpr2 with hpr2
    subst hpr2
    rw [if_neg hcond]
  · rfl

theorem stage1_slots_yes (acc : UFE) (elem : FName × BVal) (t : Nat)
    (hpr : alookup acc.sigToSlot (makeSignature elem.1) = some t)
    (hcond : ¬ (acc.isNested.getD t false = true) ∧ fieldAt acc t = elem.1) :
    (stage1 acc elem).slots = acc.slots.set t (some elem) := by
  unfold stage1
  split
  · rename_i t2 hpr2
    rw [hpr] at hpr2
    injection hpr2 with hpr2
    subst hpr2
    rw [if_pos hcond]
  · rename_i hpr2
    rw [hpr] at hpr2
    exact Option.noConfusion hpr2

theorem stage2_coll_none (acc : UFE) (elem : FName × BVal)
    (hcl : alookup acc.collisionSlots (makeSignature elem.1) = none) :
    stage2 acc elem = acc := by
  unfold stage2
  split
  · rename_i lst hcl2
    rw [hcl] at hcl2
    exact Option.noConfusion hcl2
  · rfl

theorem stage2_found (acc : UFE) (elem : FName × BVal) (lst : List Nat)
    (t : Nat)
    (hcl : alookup acc.collisionSlots (makeSignature elem.1) = some lst)
    (hft : findTopByName acc lst elem.1 = some t) :
    (stage2 acc elem).slots = acc.slots.set t (some elem) := by
  unfold stage2
  split
  · rename_i lst2 hcl2
    rw [hcl] at hcl2
    injection hcl2 with hcl2
    subst hcl2
    split
    · rename_i t2 hft2
      rw [hft] at hft2
      injection hft2 with hft2
      subst hft2
      rfl
    · rename_i hft2
      rw [hft] at hft2
      exact Option.noConfusion hft2
  · rename_i hcl2
    rw [hcl] at hcl2
    exact Option.noConfusion hcl2

theorem stage2_notfound (acc : UFE) (elem : FName × BVal) (lst : List Nat)
    (hcl : alookup acc.collisionSlots (makeSignature elem.1) = some lst)
    (hft : findTopByName acc lst elem.1 = none) :
    stage2 acc elem = acc := by
  unfold stage2
  split
  · rename_i lst2 hcl2
    rw [hcl] at hcl2
    injection hcl2 with hcl2
    subst hcl2
    split
    · rename_i t2 hft2
      rw [hft] at hft2
      exact Option.noConfusion hft2
    · rfl
  · rfl

theorem extractStep_preserve (acc : UFE) (elem : FName × BVal) (s : Nat)
    (hsafe : acc.isNested.getD s false = true ∨ fieldAt acc s ≠ elem.1)
    (hsig3 : (isObjB elem.2 || isArrB elem.2) = true → ∀ lst,
      alookup acc.nestedPfxSigs (makeSignature elem.1) = some lst →
      s ∉ lst) :
    (extractStep acc elem).slots.getD s none = acc.slots.getD s none ∧
      (extractStep acc elem).hasArrayAlongPathV.getD s false =
        acc.hasArrayAlongPathV.getD s false := by
  obtain ⟨p1a, p2a, p3a, p4a, p5a, p6a, p7a⟩ := stage1_parts acc elem
  obtain ⟨p1b, p2b, p3b, p4b, p5b, p6b, p7b⟩ :=
    stage2_parts (stage1 acc elem) elem
  have hfa : fieldAt (stage1 acc elem) s = fieldAt acc s := by
    unfold fieldAt
    rw [p1a]
  have h1 := stage1_getD_ne acc elem s hsafe
  have h2 := stage2_getD_ne (stage1 acc elem) elem s (by
    rcases hsafe with h | h
    · exact Or.inl (by rw [p2a]; exact h)
    · exact Or.inr (by rw [hfa]; exact h))
  have h3 : (stage3 (stage2 (stage1 acc elem) elem) elem).slots.getD s none =
      (stage2 (stage1 acc elem) elem).slots.getD s none ∧
      (stage3 (stage2 (stage1 acc elem) elem)
        elem).hasArrayAlongPathV.getD s false =
      (stage2 (stage1 acc elem) elem).hasArrayAlongPathV.getD s false := by
    by_cases hg : (isObjB elem.2 || isArrB elem.2) = true
    · exact stage3_getD_ne (stage2 (stage1 acc elem) elem) elem s (by
        intro lst hl
        apply hsig3 hg lst
        rw [← p5a, ← p5b]
        exact hl)
    · rw [stage3_scalar (stage2 (stage1 acc elem) elem) elem (by
        cases hh : (isObjB elem.2 || isArrB elem.2)
        · rfl
        · exact absurd hh hg)]
      exact ⟨rfl, rfl⟩
  constructor
  · rw [extractStep_eq, h3.1, h2, h1]
  · rw [extractStep_eq, h3.2, p6b, p6a]

theorem extractStep_nested_fill (acc : UFE) (elem : FName × BVal) (s : Nat)
    (pfx rest : FName) (lst : List Nat)
    (hn : acc.isNested.getD s false = true)
    (hsplit : splitAtDot (fieldAt acc s) = (pfx, some rest))
    (hguard : (isObjB elem.2 || isArrB elem.2) = true)
    (hl : alookup acc.nestedPfxSigs (makeSignature elem.1) = some lst)
    (hmem : s ∈ lst)
    (hs : s < acc.slots.length) (hfl : s < acc.hasArrayAlongPathV.length)
    (hnone : acc.slots.getD s none = none)
    (hflag0 : acc.hasArrayAlongPathV.getD s false = false) :
    (extractStep acc elem).slots.getD s none =
        (nestedOutcome elem rest).1 ∧
      (extractStep acc elem).hasArrayAlongPathV.getD s false =
        (nestedOutcome elem rest).2 := by
  obtain ⟨p1a, p2a, p3a, p4a, p5a, p6a, p7a⟩ := stage1_parts acc elem
  obtain ⟨p1b, p2b, p3b, p4b, p5b, p6b, p7b⟩ :=
    stage2_parts (stage1 acc elem) elem
  have h1 := stage1_getD_ne acc elem s (Or.inl hn)
  have h2 := stage2_getD_ne (stage1 acc elem) elem s
    (Or.inl (by rw [p2a]; exact hn))
  have hfa2 : fieldAt (stage2 (stage1 acc elem) elem) s = fieldAt acc s := by
    unfold fieldAt
    rw [p1b, p1a]
  have hfill := stage3_fill (stage2 (stage1 acc elem) elem) elem s pfx rest lst
    hguard (by rw [p5b, p5a]; exact hl) hmem (by rw [hfa2]; exact hsplit)
    (by rw [p7b, p7a]; exact hs) (by rw [p6b, p6a]; exact hfl)
    (by rw [h2, h1]; exact hnone) (by rw [p6b, p6a]; exact hflag0)
  constructor
  · rw [extractStep_eq]
    exact hfill.1
  · rw [extractStep_eq]
    exact hfill.2

end Extractor

namespace Extractor

theorem extractStep_top_fill (acc : UFE) (elem : FName × BVal) (s : Nat)
    (hn : acc.isNested.getD s false = false)
    (hname : fieldAt acc s = elem.1)
    (hnd : acc.fields.Nodup)
    (hsf : s < acc.fields.length)
    (hcomplete : alookup acc.sigToSlot (makeSignature elem.1) = some s ∨
      ∃ lst, alookup acc.collisionSlots (makeSignature elem.1) = some lst ∧
        s ∈ lst)
    (hsig_sound : ∀ t, alookup acc.sigToSlot (makeSignature elem.1) =
      some t → t < acc.fields.length)
    (hcoll_sound : ∀ lst t,
      alookup acc.collisionSlots (makeSignature elem.1) = some lst →
      t ∈ lst → t < acc.fields.length)
    (hsig3 : ∀ lst,
      alookup acc.nestedPfxSigs (makeSignature elem.1) = some lst →
      s ∉ lst)
    (hs : s < acc.slots.length) :
    (extractStep acc elem).slots.getD s none = some elem ∧
      (extractStep acc elem).hasArrayAlongPathV.getD s false =
        acc.hasArrayAlongPathV.getD s false := by
  obtain ⟨p1a, p2a, p3a, p4a, p5a, p6a, p7a⟩ := stage1_parts acc elem
  obtain ⟨p1b, p2b, p3b, p4b, p5b, p6b, p7b⟩ :=
    stage2_parts (stage1 acc elem) elem
  have hfa1 : ∀ u, fieldAt (stage1 acc elem) u = fieldAt acc u := by
    intro u
    unfold fieldAt
    rw [p1a]
  have hA : (stage2 (stage1 acc elem) elem).slots.getD s none = some elem := by
    rcases hpr : alookup acc.sigToSlot (makeSignature elem.1) with _ | t
    · have hstage1 : stage1 acc elem = acc := stage1_none acc elem hpr
      rw [hstage1]
      rcases hcomplete with hc | ⟨lst, hcl, hmem⟩
      · rw [hpr] at hc
        exact Option.noConfusion hc
      · rcases hft : findTopByName acc lst elem.1 with _ | t2
        · have hcontra := findTopByName_none acc lst elem.1 hft s hmem
          exact absurd ⟨(by rw [hn]; simp), hname⟩ hcontra
        · obtain ⟨hm2, hn2, hna2⟩ := findTopByName_some acc lst elem.1 t2 hft
          have ht2 : t2 = s := fieldAt_inj hnd (hcoll_sound lst t2 hcl hm2)
            hsf (hna2.trans hname.symm)
          subst ht2
          rw [stage2_found acc elem lst t2 hcl hft]
          exact getD_set_self _ _ _ _ hs
    · by_cases hts : t = s
      · subst hts
        have hcond : ¬ (acc.isNested.getD t false = true) ∧
            fieldAt acc t = elem.1 := ⟨by rw [hn]; simp, hname⟩
        have hslots1 := stage1_slots_yes acc elem t hpr hcond
        have hafter1 : (stage1 acc elem).slots.getD t none = some elem := by
          rw [hslots1]
          exact getD_set_self _ _ _ _ hs
        rcases hcl : alookup acc.collisionSlots (makeSignature elem.1)
          with _ | lst
        · rw [stage2_coll_none (stage1 acc elem) elem
            (by rw [p4a]; exact hcl)]
          exact hafter1
        · rcases hft : findTopByName (stage1 acc elem) lst elem.1 with _ | t2
          · rw [stage2_notfound (stage1 acc elem) elem lst
              (by rw [p4a]; exact hcl) hft]
            exact hafter1
          · obtain ⟨hm2, hn2, hna2⟩ :=
              findTopByName_some (stage1 acc elem) lst elem.1 t2 hft
            have hna2' : fieldAt acc t2 = elem.1 := by
              rw [← hfa1 t2]
              exact hna2
            have ht2 : t2 = t := fieldAt_inj hnd
              (hcoll_sound lst t2 hcl hm2) hsf (hna2'.trans hname.symm)
            subst ht2
            rw [stage2_found (stage1 acc elem) elem lst t2
              (by rw [p4a]; exact hcl) hft]
            exact getD_set_self _ _ _ _ (by rw [p7a]; exact hs)
      · have hst1 : stage1 acc elem = acc := by
          apply stage1_some_no acc elem t hpr
          intro hcond
          have hb : t < acc.fields.length := hsig_sound t hpr
          exact hts (fieldAt_inj hnd hb hsf (hcond.2.trans hname.symm))
        rw [hst1]
        rcases hcomplete with hc | ⟨lst, hcl, hmem⟩
        · rw [hpr] at hc
          injection hc with hc
          exact absurd hc hts
        · rcases hft : findTopByName acc lst elem.1 with _ | t2
          · have hcontra := findTopByName_none acc lst elem.1 hft s hmem
            exact absurd ⟨(by rw [hn]; simp), hname⟩ hcontra
          · obtain ⟨hm2, hn2, hna2⟩ :=
              findTopByName_some acc lst elem.1 t2 hft
            have ht2 : t2 = s := fieldAt_inj hnd
              (hcoll_sound lst t2 hcl hm2) hsf (hna2.trans hname.symm)
            subst ht2
            rw [stage2_found acc elem lst t2 hcl hft]
            exact getD_set_self _ _ _ _ hs
  have h3 := stage3_getD_ne (stage2 (stage1 acc elem) elem) elem s (by
    intro lst hl
    apply hsig3 lst
    rw [← p5a, ← p5b]
    exact hl)
  constructor
  · rw [extractStep_eq, h3.1]
    exact hA
  · rw [extractStep_eq, h3.2, p6b, p6a]

end Extractor

namespace Extractor

theorem docFold_preserve (E : UFE) (s : Nat) :
    ∀ (doc : List (FName × BVal)) (acc : UFE),
    sameShape acc E →
    (∀ elem ∈ doc, E.isNested.getD s false = true ∨ fieldAt E s ≠ elem.1) →
    (∀ elem ∈ doc, (isObjB elem.2 || isArrB elem.2) = true → ∀ lst,
      alookup E.nestedPfxSigs (makeSignature elem.1) = some lst →
      s ∉ lst) →
    (doc.foldl extractStep acc).slots.getD s none = acc.slots.getD s none ∧
      (doc.foldl extractStep acc).hasArrayAlongPathV.getD s false =
        acc.hasArrayAlongPathV.getD s false := by
  intro doc
  induction doc with
  | nil => exact fun acc _ _ _ => ⟨rfl, rfl⟩
  | cons elem rest ih =>
    intro acc hsh hsafe hsig3
    rw [List.foldl_cons]
    obtain ⟨s1, s2, s3, s4, s5, s6, s7⟩ := hsh
    have hpres := extractStep_preserve acc elem s
      (by
        rcases hsafe elem (List.mem_cons_self _ _) with h | h
        · exact Or.inl (by rw [s2]; exact h)
        · exact Or.inr (by unfold fieldAt; rw [s1]; exact h))
      (by
        intro hg lst hl
        apply hsig3 elem (List.mem_cons_self _ _) hg lst
        rw [← s5]
        exact hl)
    have hsh2 : sameShape (extractStep acc elem) E :=
      sameShape_trans (extractStep_shape acc elem) ⟨s1, s2, s3, s4, s5, s6, s7⟩
    obtain ⟨a1, a2⟩ := ih (extractStep acc elem) hsh2
      (fun e he => hsafe e (List.mem_cons_of_mem _ he))
      (fun e he => hsig3 e (List.mem_cons_of_mem _ he))
    exact ⟨a1.trans hpres.1, a2.trans hpres.2⟩

end Extractor

namespace Extractor

theorem docFold_nested (E : UFE) (hE : ExtInv E) (s : Nat) (pfx rest : FName)
    (hsf : s < E.fields.length)
    (hnested : E.isNested.getD s false = true)
    (hsplitE : splitAtDot (fieldAt E s) = (pfx, some rest)) :
    ∀ (doc : List (FName × BVal)) (acc : UFE),
    sameShape acc E →
    (doc.map Prod.fst).Nodup →
    (∀ elem ∈ doc, (isObjB elem.2 || isArrB elem.2) = true →
      makeSignature elem.1 = makeSignature pfx → elem.1 = pfx) →
    acc.slots.getD s none = none →
    acc.hasArrayAlongPathV.getD s false = false →
    ((doc.foldl extractStep acc).slots.getD s none,
      (doc.foldl extractStep acc).hasArrayAlongPathV.getD s false) =
      (match getFieldE doc pfx with
       | none => ((none : BElem), false)
       | some (n, v) =>
           if (isObjB v || isArrB v) = true then nestedOutcome (n, v) rest
           else ((none : BElem), false)) := by
  have hpfxOf : pfxOf (fieldAt E s) = pfx := by
    unfold pfxOf
    rw [hsplitE]
  obtain ⟨lst0, hl0, hmem0⟩ := hE.npfx_complete s hsf hnested
  rw [hpfxOf] at hl0
  have hnotin : ∀ sig lst, alookup E.nestedPfxSigs sig = some lst →
      s ∈ lst → sig = makeSignature pfx := by
    intro sig lst hl hm
    have hsnd := hE.npfx_sound sig lst hl s hm
    rw [← hsnd.2.2.1, hpfxOf]
  intro doc
  induction doc with
  | nil =>
    intro acc _ _ _ h0 hf0
    rw [List.foldl_nil, h0, hf0]
    rfl
  | cons elem rest2 ih =>
    intro acc hsh hnd hnames h0 hf0
    obtain ⟨en, ev⟩ := elem
    obtain ⟨s1, s2, s3, s4, s5, s6, s7⟩ := hsh
    have hsh1 : sameShape acc E := ⟨s1, s2, s3, s4, s5, s6, s7⟩
    have hfacc : fieldAt acc s = fieldAt E s := by
      unfold fieldAt
      rw [s1]
    have hnacc : acc.isNested.getD s false = true := by
      rw [s2]
      exact hnested
    have hsacc : s < acc.slots.length := by
      rw [s6, hE.len_slots]
      exact hsf
    have hflacc : s < acc.hasArrayAlongPathV.length := by
      rw [s7, hE.len_flags]
      exact hsf
    have hsplitacc : splitAtDot (fieldAt acc s) = (pfx, some rest) := by
      rw [hfacc]
      exact hsplitE
    have hnd2 : en ∉ rest2.map Prod.fst ∧ (rest2.map Prod.fst).Nodup := by
      rw [List.map_cons] at hnd
      exact ⟨(List.nodup_cons.mp hnd).1, (List.nodup_cons.mp hnd).2⟩
    rw [List.foldl_cons]
    by_cases hname : en = pfx
    · have hname2 : pfx = en := hname.symm
      subst hname2
      have hge : getFieldE ((pfx, ev) :: rest2) pfx = some (pfx, ev) := by
        rw [getFieldE, if_pos rfl]
      rw [hge]
      show _ = if (isObjB ev || isArrB ev) = true then
        nestedOutcome (pfx, ev) rest else ((none : BElem), false)
      by_cases hguard : (isObjB ev || isArrB ev) = true
      · rw [if_pos hguard]
        have hstep := extractStep_nested_fill acc (pfx, ev) s pfx rest lst0
          hnacc hsplitacc hguard (by rw [s5]; exact hl0) hmem0 hsacc hflacc
          h0 hf0
        have hsh2 : sameShape (extractStep acc (pfx, ev)) E :=
          sameShape_trans (extractStep_shape acc (pfx, ev)) hsh1
        have hpres := docFold_preserve E s rest2 (extractStep acc (pfx, ev))
          hsh2 (fun e he => Or.inl hnested)
          (by
            intro e he hg lst hl hmem
            have hsig := hnotin _ lst hl hmem
            have hepfx := hnames e (List.mem_cons_of_mem _ he) hg hsig
            apply hnd2.1
            rw [← hepfx]
            exact List.mem_map_of_mem Prod.fst he)
        rw [show nestedOutcome (pfx, ev) rest =
          ((nestedOutcome (pfx, ev) rest).1,
            (nestedOutcome (pfx, ev) rest).2) from rfl]
        rw [Prod.mk.injEq]
        exact ⟨hpres.1.trans hstep.1, hpres.2.trans hstep.2⟩
      · rw [if_neg hguard]
        have hguard2 : (isObjB ev || isArrB ev) = false := by
          cases hh : (isObjB ev || isArrB ev)
          · rfl
          · exact absurd hh hguard
        have hstep := extractStep_preserve acc (pfx, ev) s (Or.inl hnacc)
          (fun hg => absurd hg (by rw [hguard2]; simp))
        have hsh2 : sameShape (extractStep acc (pfx, ev)) E :=
          sameShape_trans (extractStep_shape acc (pfx, ev)) hsh1
        have hpres := docFold_preserve E s rest2 (extractStep acc (pfx, ev))
          hsh2 (fun e he => Or.inl hnested)
          (by
            intro e he hg lst hl hmem
            have hsig := hnotin _ lst hl hmem
            have hepfx := hnames e (List.mem_cons_of_mem _ he) hg hsig
            apply hnd2.1
            rw [← hepfx]
            exact List.mem_map_of_mem Prod.fst he)
        rw [Prod.mk.injEq]
        exact ⟨(hpres.1.trans hstep.1).trans h0,
          (hpres.2.trans hstep.2).trans hf0⟩
    · have hge : getFieldE ((en, ev) :: rest2) pfx = getFieldE rest2 pfx := by
        rw [getFieldE, if_neg hname]
      rw [hge]
      have hstep := extractStep_preserve acc (en, ev) s (Or.inl hnacc)
        (by
          intro hg lst hl hmem
          rw [s5] at hl
          have hsig := hnotin _ lst hl hmem
          exact hname (hnames (en, ev) (List.mem_cons_self _ _) hg hsig))
      have hsh2 : sameShape (extractStep acc (en, ev)) E :=
        sameShape_trans (extractStep_shape acc (en, ev)) hsh1
      exact ih (extractStep acc (en, ev)) hsh2 hnd2.2
        (fun e he => hnames e (List.mem_cons_of_mem _ he))
        (hstep.1.trans h0) (hstep.2.trans hf0)

theorem docFold_top (E : UFE) (hE : ExtInv E) (s : Nat)
    (hsf : s < E.fields.length)
    (hn : E.isNested.getD s false = false) :
    ∀ (doc : List (FName × BVal)) (acc : UFE),
    sameShape acc E →
    (doc.map Prod.fst).Nodup →
    acc.slots.getD s none = none →
    acc.hasArrayAlongPathV.getD s false = false →
    (doc.foldl extractStep acc).slots.getD s none =
        getFieldE doc (fieldAt E s) ∧
      (doc.foldl extractStep acc).hasArrayAlongPathV.getD s false = false := by
  have hsig3E : ∀ e : FName × BVal, ∀ lst,
      alookup E.nestedPfxSigs (makeSignature e.1) = some lst → s ∉ lst := by
    intro e lst hl hmem
    have hsnd := hE.npfx_sound _ lst hl s hmem
    rw [hn] at hsnd
    exact Bool.noConfusion hsnd.2.1
  intro doc
  induction doc with
  | nil =>
    intro acc _ _ h0 hf0
    exact ⟨h0, hf0⟩
  | cons elem rest2 ih =>
    intro acc hsh hnd h0 hf0
    obtain ⟨en, ev⟩ := elem
    obtain ⟨s1, s2, s3, s4, s5, s6, s7⟩ := hsh
    have hsh1 : sameShape acc E := ⟨s1, s2, s3, s4, s5, s6, s7⟩
    have hfacc : fieldAt acc s = fieldAt E s := by
      unfold fieldAt
      rw [s1]
    have hnd2 : en ∉ rest2.map Prod.fst ∧ (rest2.map Prod.fst).Nodup := by
      rw [List.map_cons] at hnd
      exact ⟨(List.nodup_cons.mp hnd).1, (List.nodup_cons.mp hnd).2⟩
    rw [List.foldl_cons]
    by_cases hname : en = fieldAt E s
    · have hge : getFieldE ((en, ev) :: rest2) (fieldAt E s) =
          some (en, ev) := by
        rw [getFieldE, if_pos hname]
      have hcomp := hE.lookup_complete s hsf
      have hstep := extractStep_top_fill acc (en, ev) s
        (by rw [s2]; exact hn)
        (by rw [hfacc]; exact hname.symm)
        (by rw [s1]; exact hE.fields_nodup)
        (by rw [s1]; exact hsf)
        (by
          rw [s3, s4]
          show alookup E.sigToSlot (makeSignature en) = some s ∨ _
          rw [hname]
          exact hcomp)
        (by
          intro t ht
          rw [s1]
          rw [s3] at ht
          exact (hE.sig_sound _ t ht).1)
        (by
          intro lst t hcl hmm
          rw [s1]
          rw [s4] at hcl
          exact (hE.coll_sound _ lst hcl t hmm).1)
        (by
          intro lst hl
          rw [s5] at hl
          exact hsig3E (en, ev) lst hl)
        (by rw [s6, hE.len_slots]; exact hsf)
      have hsh2 : sameShape (extractStep acc (en, ev)) E :=
        sameShape_trans (extractStep_shape acc (en, ev)) hsh1
      have hpres := docFold_preserve E s rest2 (extractStep acc (en, ev)) hsh2
        (by
          intro e he
          refine Or.inr ?_
          intro hh
          have hmm2 : e.1 ∈ rest2.map Prod.fst :=
            List.mem_map_of_mem Prod.fst he
          rw [← hh, ← hname] at hmm2
          exact hnd2.1 hmm2)
        (fun e he hg lst hl => hsig3E e lst hl)
      rw [hge]
      exact ⟨hpres.1.trans hstep.1, (hpres.2.trans hstep.2).trans hf0⟩
    · have hge : getFieldE ((en, ev) :: rest2) (fieldAt E s) =
          getFieldE rest2 (fieldAt E s) := by
        rw [getFieldE, if_neg hname]
      rw [hge]
      have hstep := extractStep_preserve acc (en, ev) s
        (Or.inr (by rw [hfacc]; exact fun hh => hname hh.symm))
        (fun hg lst hl => by
          rw [s5] at hl
          exact hsig3E (en, ev) lst hl)
      have hsh2 : sameShape (extractStep acc (en, ev)) E :=
        sameShape_trans (extractStep_shape acc (en, ev)) hsh1
      exact ih (extractStep acc (en, ev)) hsh2 hnd2.2 (hstep.1.trans h0)
        (hstep.2.trans hf0)

end Extractor

namespace Extractor

theorem getD_replicate {α : Type} (n i : Nat) (a : α) :
    (List.replicate n a).getD i a = a := by
  by_cases h : i < n
  · rw [List.getD_eq_getElem _ _ (by simpa using h)]
    exact List.getElem_replicate _ _
  · rw [List.getD_eq_default _ _ (by simp; omega)]

theorem extract_eq_fold (e : UFE) (doc : List (FName × BVal)) :
    extract e doc = doc.foldl extractStep (resetUFE e) := rfl

theorem resetUFE_shape (e : UFE) : sameShape (resetUFE e) e :=
  ⟨rfl, rfl, rfl, rfl, rfl, by simp [resetUFE], by simp [resetUFE]⟩

end Extractor

namespace Extractor

theorem extract_matches_traversal (E : UFE) (hE : ExtInv E)
    (doc : List (FName × BVal)) (s : Nat)
    (hs : s < E.fields.length)
    (hwf : wfPath (fieldAt E s) = true)
    (hnod : noDotsL doc = true)
    (hnodup : (doc.map Prod.fst).Nodup)
    (hsiginj : ∀ n ∈ doc.map Prod.fst, ∀ q ∈ E.nestedPfxs,
      makeSignature n = makeSignature q → n = q)
    (hflag : hasArrayAlongPath (extract E doc) s = false) :
    getSlot (extract E doc) s =
      Dps.extractElementAtPath doc (fieldAt E s) := by
  obtain ⟨e1, e2, e3, e4, e5, e6, e7⟩ := extract_shape E doc
  have hlen : s < (extract E doc).slots.length := by
    rw [e6]
    simp only [List.length_replicate]
    rw [hE.len_slots]
    exact hs
  have hlenf : s < (extract E doc).hasArrayAlongPathV.length := by
    rw [e7]
    simp only [List.length_replicate]
    rw [hE.len_flags]
    exact hs
  have hgetslot : getSlot (extract E doc) s =
      (extract E doc).slots.getD s none := by
    unfold getSlot
    rw [if_neg (by omega)]
  have hflag2 : (extract E doc).hasArrayAlongPathV.getD s false = false := by
    unfold hasArrayAlongPath at hflag
    rw [show decide (s < (extract E doc).hasArrayAlongPathV.length) = true
      from by simp [hlenf]] at hflag
    rw [Bool.true_and] at hflag
    exact hflag
  have h00 : (resetUFE E).slots.getD s none = none := getD_replicate _ _ _
  have hf00 : (resetUFE E).hasArrayAlongPathV.getD s false = false :=
    getD_replicate _ _ _
  cases hnn : E.isNested.getD s false with
  | false =>
    have hsplitnone : (splitAtDot (fieldAt E s)).2 = none := by
      cases hsp : (splitAtDot (fieldAt E s)).2 with
      | none => rfl
      | some r =>
        have hcl := (hE.classify s hs).mpr (by rw [hsp]; rfl)
        rw [hnn] at hcl
        exact Bool.noConfusion hcl
    have hsp2 : splitAtDot (fieldAt E s) =
        ((splitAtDot (fieldAt E s)).1, none) := Prod.ext rfl hsplitnone
    obtain ⟨hres1, hres2⟩ := docFold_top E hE s hs hnn doc (resetUFE E)
      (resetUFE_shape E) hnodup h00 hf00
    have hres1x : (extract E doc).slots.getD s none =
        getFieldE doc (fieldAt E s) := hres1
    rw [hgetslot, hres1x]
    rcases hf : getFieldE doc (fieldAt E s) with _ | e
    · rw [eap_miss_none doc (fieldAt E s) (splitAtDot (fieldAt E s)).1
        hf hsp2]
    · rw [eap_hit doc (fieldAt E s) e hf]
  | true =>
    rcases hspc : (splitAtDot (fieldAt E s)).2 with _ | rest
    · have hcl := (hE.classify s hs).mp hnn
      rw [hspc] at hcl
      exact Bool.noConfusion hcl
    · have hsp2 : splitAtDot (fieldAt E s) =
          ((splitAtDot (fieldAt E s)).1, some rest) := Prod.ext rfl hspc
      have hwfr : wfAux rest = true := by
        rcases (wf_split (fieldAt E s)).1 hwf with ⟨hno, _⟩ | ⟨r, hr, _, hwfr⟩
        · rw [hspc] at hno
          exact Option.noConfusion hno
        · rw [hspc] at hr
          injection hr with hr
          rwa [hr]
      have hdot : (splitAtDot (fieldAt E s)).2.isSome = true := by
        rw [hspc]
        rfl
      have hnone : getFieldE doc (fieldAt E s) = none :=
        getFieldE_dotted_none doc (fieldAt E s) hdot hnod
      have hpfxmem : (splitAtDot (fieldAt E s)).1 ∈ E.nestedPfxs := by
        obtain ⟨lst0, hl0, hmem0⟩ := hE.npfx_complete s hs hnn
        exact (hE.npfx_sound _ lst0 hl0 s hmem0).2.2.2
      have hnames : ∀ elem ∈ doc, (isObjB elem.2 || isArrB elem.2) = true →
          makeSignature elem.1 =
            makeSignature ((splitAtDot (fieldAt E s)).1) →
          elem.1 = (splitAtDot (fieldAt E s)).1 := by
        intro elem he _ hsig
        exact hsiginj elem.1 (List.mem_map_of_mem Prod.fst he)
          ((splitAtDot (fieldAt E s)).1) hpfxmem hsig
      have hres := docFold_nested E hE s ((splitAtDot (fieldAt E s)).1) rest
        hs hnn hsp2 doc (resetUFE E) (resetUFE_shape E) hnodup hnames h00 hf00
      have hresx : ((extract E doc).slots.getD s none,
          (extract E doc).hasArrayAlongPathV.getD s false) =
          (match getFieldE doc ((splitAtDot (fieldAt E s)).1) with
           | none => ((none : BElem), false)
           | some (n, v) =>
               if (isObjB v || isArrB v) = true then nestedOutcome (n, v) rest
               else ((none : BElem), false)) := hres
      rcases hgf : getFieldE doc ((splitAtDot (fieldAt E s)).1) with _ | e
      · rw [hgf] at hresx
        have h1 : (extract E doc).slots.getD s none = none :=
          congrArg Prod.fst hresx
        have hgo : getObjectField doc ((splitAtDot (fieldAt E s)).1) = [] := by
          unfold getObjectField
          rw [hgf]
        rw [hgetslot, h1,
          eap_miss_some doc (fieldAt E s) ((splitAtDot (fieldAt E s)).1)
            rest hnone hsp2, hgo]
        rfl
      · obtain ⟨n, v⟩ := e
        rw [hgf] at hresx
        cases v with
        | int32V k =>
          have h1 : (extract E doc).slots.getD s none = none :=
            congrArg Prod.fst hresx
          have hgo : getObjectField doc
              ((splitAtDot (fieldAt E s)).1) = [] := by
            unfold getObjectField
            rw [hgf]
          rw [hgetslot, h1,
            eap_miss_some doc (fieldAt E s) ((splitAtDot (fieldAt E s)).1)
              rest hnone hsp2, hgo]
          rfl
        | int64V k =>
          have h1 : (extract E doc).slots.getD s none = none :=
            congrArg Prod.fst hresx
          have hgo : getObjectField doc
              ((splitAtDot (fieldAt E s)).1) = [] := by
            unfold getObjectField
            rw [hgf]
          rw [hgetslot, h1,
            eap_miss_some doc (fieldAt E s) ((splitAtDot (fieldAt E s)).1)
              rest hnone hsp2, hgo]
          rfl
        | arrV fs2 =>
          have h2 : (extract E doc).hasArrayAlongPathV.getD s false = true :=
            congrArg Prod.snd hresx
          exact absurd (hflag2.symm.trans h2) (by simp)
        | objV sub =>
          have h1 : (extract E doc).slots.getD s none =
              (Dps.extractPathOrArray sub rest).1 :=
            congrArg Prod.fst hresx
          have h2 : (extract E doc).hasArrayAlongPathV.getD s false =
              !(Dps.extractPathOrArray sub rest).2.isEmpty :=
            congrArg Prod.snd hresx
          have hpoa2 : (Dps.extractPathOrArray sub rest).2.isEmpty = true := by
            cases hh : (Dps.extractPathOrArray sub rest).2.isEmpty
            · rw [hflag2, hh] at h2
              simp at h2
            · rfl
          have hpoa3 : (Dps.extractPathOrArray sub rest).2 = [] := by
            cases hl2 : (Dps.extractPathOrArray sub rest).2 with
            | nil => rfl
            | cons a l =>
              rw [hl2] at hpoa2
              simp at hpoa2
          have hmemdoc : (n, BVal.objV sub) ∈ doc :=
            (getFieldE_mem_of_some doc _ _ hgf).1
          have hnodsub : noDotsL sub = true := by
            have hnv := (noDotsL_facts doc hnod _ hmemdoc).2
            simpa [noDotsV] using hnv
          have hcore := core_poa sub rest hnodsub hwfr hpoa3
          have hgo : getObjectField doc
              ((splitAtDot (fieldAt E s)).1) = sub := by
            unfold getObjectField
            rw [hgf]
          rw [hgetslot, h1, hcore,
            eap_miss_some doc (fieldAt E s) ((splitAtDot (fieldAt E s)).1)
              rest hnone hsp2, hgo]
          by_cases hemp : sub.isEmpty = true
          · rw [if_pos hemp]
            have hsub0 : sub = [] := by
              cases sub with
              | nil => rfl
              | cons a l => exact Bool.noConfusion hemp
            rw [hsub0, eap_nil]
          · rw [if_neg hemp]

end Extractor

namespace Extractor

/-- Claim C2 (amended).  For an extractor built by registering any list of
paths and finalizing, a slot whose registered path is well formed (nonempty
dot-separated components), and a document whose field names contain no dots
at any depth, whose top-level names are pairwise distinct, and whose
top-level names match a registered nested prefix in signature only when
equal to it: after extract(doc), if hasArrayAlongPath(slot) is false then
get(slot) equals the single object-only traversal of that path on doc (the
element returned by extractElementAtPath), including being absent exactly
when the path is absent from doc. -/
theorem C2_extract_matches_traversal (paths : List FName)
    (doc : List (FName × BVal)) (s : Nat)
    (hs : s < (finalizeReg (registerAll emptyUFE paths)).fields.length)
    (hwf : wfPath (fieldAt (finalizeReg (registerAll emptyUFE paths)) s) =
      true)
    (hnod : noDotsL doc = true)
    (hnodup : (doc.map Prod.fst).Nodup)
    (hsiginj : ∀ n ∈ doc.map Prod.fst,
      ∀ q ∈ (finalizeReg (registerAll emptyUFE paths)).nestedPfxs,
      makeSignature n = makeSignature q → n = q)
    (hflag : hasArrayAlongPath
      (extract (finalizeReg (registerAll emptyUFE paths)) doc) s = false) :
    getSlot (extract (finalizeReg (registerAll emptyUFE paths)) doc) s =
      Dps.extractElementAtPath doc
        (fieldAt (finalizeReg (registerAll emptyUFE paths)) s) :=
  extract_matches_traversal _ (extInv_built paths) doc s hs hwf hnod hnodup
    hsiginj hflag

/-- Witness for C2: a two-path extractor (one top-level path, one nested
path) run on a document carrying the top-level field and a scalar at the
nested path's prefix; the nested slot is empty and the traversal misses. -/
theorem C2_extract_matches_traversal_witness :
    hasArrayAlongPath
        (extract (finalizeReg (registerAll emptyUFE
            [['a'], ['b', '.', 'c']]))
          [(['a'], BVal.int32V 1), (['b'], BVal.int32V 7)]) 1 = false ∧
      getSlot
          (extract (finalizeReg (registerAll emptyUFE
              [['a'], ['b', '.', 'c']]))
            [(['a'], BVal.int32V 1), (['b'], BVal.int32V 7)]) 1 =
        Dps.extractElementAtPath
          [(['a'], BVal.int32V 1), (['b'], BVal.int32V 7)]
          (fieldAt (finalizeReg (registerAll emptyUFE
            [['a'], ['b', '.', 'c']])) 1) :=
  ⟨by decide,
    C2_extract_matches_traversal [['a'], ['b', '.', 'c']]
      [(['a'], BVal.int32V 1), (['b'], BVal.int32V 7)] 1 (by decide)
      (by decide) (by decide) (by decide) (by decide) (by decide)⟩

/-- Counterexample to the unamended claim C2: on the document
{"a": 1, "a": 2} with duplicate top-level names (legal BSON), the
extractor's traversal overwrites the slot with the last element named "a"
while extractElementAtPath returns the first, with no array anywhere along
the path. -/
theorem C2_extract_matches_traversal_counterexample :
    hasArrayAlongPath
        (extract (finalizeReg (registerAll emptyUFE [['a']]))
          [(['a'], BVal.int32V 1), (['a'], BVal.int32V 2)]) 0 = false ∧
      ¬ (getSlot
          (extract (finalizeReg (registerAll emptyUFE [['a']]))
            [(['a'], BVal.int32V 1), (['a'], BVal.int32V 2)]) 0 =
        Dps.extractElementAtPath
          [(['a'], BVal.int32V 1), (['a'], BVal.int32V 2)]
          (fieldAt (finalizeReg (registerAll emptyUFE [['a']])) 0)) := by
  refine ⟨by decide, ?_⟩
  have h1 : getSlot
      (extract (finalizeReg (registerAll emptyUFE [['a']]))
        [(['a'], BVal.int32V 1), (['a'], BVal.int32V 2)]) 0 =
      some (['a'], BVal.int32V 2) := rfl
  have h2 : Dps.extractElementAtPath
      [(['a'], BVal.int32V 1), (['a'], BVal.int32V 2)]
      (fieldAt (finalizeReg (registerAll emptyUFE [['a']])) 0) =
      some (['a'], BVal.int32V 1) :=
    eap_hit _ _ _ rfl
  intro hcontra
  rw [h1, h2] at hcontra
  injection hcontra with hc
  injection hc with hc1 hc2
  injection hc2 with hc3
  omega

end Extractor

end FastMongoDB
